import Mathlib

/-!
# Name resolution over a hierarchical netlist (verilog/NameMapping)

A shallow embedding of `verilog/NameMapping.hh` and `verilog/NameMapping.cc`.

* `std::string` is `String`; `find` and `substr` work on the character list.
* An `int` is an `Int` within `intMin .. intMax`; the one arithmetic step of the
  source, `curpos += 1` or `-1` in `Range::incrpos`, wraps modulo `2^32` (`wrapInt`).
* `std::unordered_map` is an association list: lookups and in-place updates act
  on the first entry with the key, `insert` appends when the key is absent.
* A `Module*` is the name under which the module is cached in the registry, so
  the state every query reads and writes is the whole `ModuleList`.
* Recursion that is unbounded in the source takes a fuel argument; running out
  of fuel is the outcome `Fault.outOfFuel`.  Dereferencing `end()` or a null
  pointer is `Fault.derefEnd`, a failed `assert` is `Fault.assertFail`, reading a
  bus extent through a declaration that is not a bus is `Fault.badCast`.
-/

namespace NameResolve

/-! ## Outcomes -/

/-- Ways in which a call does not return a value. -/
inductive Fault where
  | outOfFuel
  | derefEnd
  | assertFail
  | badCast
  deriving DecidableEq, Repr

deriving instance DecidableEq for Except

/-! ## Strings -/

/-- The `std::string::find(char)` result: position of the first `c`, `none` for `npos`. -/
def find (s : String) (c : Char) : Option Nat :=
  if List.indexOf c s.toList < s.toList.length then some (List.indexOf c s.toList) else none

/-- The `substr(0, pos)` part of a string. -/
def substrTo (s : String) (pos : Nat) : String :=
  String.mk (s.toList.take pos)

/-- The `substr(pos)` part of a string. -/
def substrFrom (s : String) (pos : Nat) : String :=
  String.mk (s.toList.drop pos)

/-- The text `key << "[" << idx << "]"` written through a `stringstream`. -/
def bitName (key : String) (idx : Int) : String :=
  key ++ "[" ++ toString idx ++ "]"

/-! ## Association lists standing for `std::unordered_map` -/

/-- The `find` of an unordered map: the value stored under `k`, if any. -/
def lookup {β : Type} : List (String × β) → String → Option β
  | [], _ => none
  | (k1, v) :: t, k => if k1 = k then some v else lookup t k

/-- In-place update of the value stored under `k` (no change when `k` is absent). -/
def modify {β : Type} (f : β → β) : List (String × β) → String → List (String × β)
  | [], _ => []
  | (k1, v) :: t, k => if k1 = k then (k1, f v) :: t else (k1, v) :: modify f t k

/-- The `insert` of an unordered map: adds the pair only when the key is absent. -/
def insertNew {β : Type} (m : List (String × β)) (k : String) (v : β) : List (String × β) :=
  match lookup m k with
  | some _ => m
  | none => m ++ [(k, v)]

/-! ## Data model -/

/-- The least value of the type `int` (32 bits, two's complement). -/
def intMin : Int := -2147483648

/-- The greatest value of the type `int`. -/
def intMax : Int := 2147483647

/-- The value an `int` holds after an arithmetic step whose exact result is `x`: `x`
reduced modulo `2^32` into the range of `int`. -/
def wrapInt (x : Int) : Int := (x + 2147483648) % 4294967296 - 2147483648

/-- The integer is a value of the type `int`. -/
def isInt (x : Int) : Prop := intMin ≤ x ∧ x ≤ intMax

instance decIsInt (x : Int) : Decidable (isInt x) :=
  inferInstanceAs (Decidable (intMin ≤ x ∧ x ≤ intMax))

/-- The `Module::Range` struct. -/
structure Range where
  left : Int
  right : Int
  isIncr : Bool
  curpos : Int
  deriving DecidableEq, Repr

/-- The constructor `Range(int f, int t)`. -/
def Range.ofBounds (f t : Int) : Range :=
  { left := f, right := t, isIncr := decide (t > f), curpos := f }

/-- The method `Range::incrpos`. -/
def Range.incrpos (r : Range) : Range :=
  { r with curpos := wrapInt (r.curpos + (if r.isIncr then 1 else -1)) }

/-- The method `Range::resetpos`. -/
def Range.resetpos (r : Range) : Range :=
  { r with curpos := r.left }

/-- The method `Range::hasNext`. -/
def Range.hasNext (r : Range) : Bool :=
  if r.isIncr then decide (r.curpos ≤ r.right) else decide (r.curpos ≥ r.right)

/-- The `Module::Symbol` struct; a null `range` pointer is `none`. -/
structure Symbol where
  isInst : Bool
  isNet : Bool
  isPort : Bool
  name : String
  moduleName : String
  src : String
  range : Option Range
  deriving DecidableEq, Repr

/-- The default constructor `Symbol()`. -/
def Symbol.new : Symbol :=
  { isInst := false, isNet := false, isPort := false, name := "", moduleName := "",
    src := "", range := none }

/-- The method `Symbol::isBus`. -/
def Symbol.isBus (s : Symbol) : Bool := s.range.isSome

/-- The `Module::Symbols` table. -/
abbrev Symbols := List (String × Symbol)

/-! ## The parsed netlist (external collaborators) -/

/-- Modelled from the spec: the direction of a declaration or of a cell pin, with the
two tests the code asks of it, `isInput` and `isInternal` (`PortDirection.hh` is not
among the sources). -/
inductive PortDirection where
  | input
  | output
  | bidirect
  | internal
  deriving DecidableEq, Repr

/-- The test `direction()->isInput()`. -/
def PortDirection.isInput : PortDirection → Bool
  | .input => true
  | _ => false

/-- The test `direction()->isInternal()`. -/
def PortDirection.isInternal : PortDirection → Bool
  | .internal => true
  | _ => false

/-- Modelled from the spec: a declaration `VerilogDcl` (name, direction, optional bus
extent `fromIndex`, `toIndex`); `VerilogReaderPvt.hh` is not among the sources. -/
structure VerilogDcl where
  portName : String
  direction : PortDirection
  bus : Option (Int × Int)
  deriving DecidableEq, Repr

/-- The test `VerilogDcl::isBus`. -/
def VerilogDcl.isBus (d : VerilogDcl) : Bool := d.bus.isSome

/-- Modelled from the spec: one pin of a primitive cell (name, pin index, direction),
as handed out by `LibertyCell::portIterator`. -/
structure LibertyPort where
  name : String
  pinIndex : Nat
  direction : PortDirection
  deriving DecidableEq, Repr

/-- Modelled from the spec: the pin list of a primitive cell. -/
structure LibertyCell where
  ports : List LibertyPort
  deriving DecidableEq, Repr

/-- Modelled from the spec: one entry of the pin list `s->pins()` of a submodule
instantiation.  `portRefScalarNet` answers `isNamedPortRefScalarNet`, `portRef`
answers only `isNamedPortRef` and carries the names its `nameIterator` yields,
`unnamed` answers neither. -/
inductive VerilogNetPin where
  | portRefScalarNet (name netName : String)
  | portRef (name : String) (netNames : List String)
  | unnamed
  deriving DecidableEq, Repr

/-- Modelled from the spec: a statement of a parsed module body, by the four tests of
`Module::processStmt`; `other` answers none of them. -/
inductive VerilogStmt where
  | moduleInst (instanceName moduleName : String) (pins : Option (List VerilogNetPin))
  | libertyInst (instanceName : String) (cell : LibertyCell) (netNames : List (Option String))
  | declaration (dcl : VerilogDcl)
  | assign (lhs rhs : String)
  | other
  deriving DecidableEq, Repr

/-- Modelled from the spec: a parsed module body: the port names, the statements, and
the table behind `VerilogModule::declaration`. -/
structure VerilogModule where
  ports : List String
  stmts : List VerilogStmt
  dcls : List (String × VerilogDcl)
  deriving DecidableEq, Repr

/-- The lookup `module->declaration(name)`; `none` is the null pointer. -/
def VerilogModule.declaration (m : VerilogModule) (name : String) : Option VerilogDcl :=
  lookup m.dcls name

/-- Modelled from the spec: a port of the network with the names of its member bits
(`none` when `hasMembers` is false). -/
structure NetworkPort where
  name : String
  members : Option (List String)
  deriving DecidableEq, Repr

/-- Modelled from the spec: the collaborators the builder calls: the name normalisation
`Module::nameRegulation` (declared, not defined in the sources), the parsed body of a
module type (`ml->reader->module(ml->network->findAnyCell(name))`) and the port lookup
`ml->network->findPort`. -/
structure Env where
  nameRegulation : String → String
  cellModule : String → Option VerilogModule
  findPort : String → String → Option NetworkPort

/-! ## Modules and the registry -/

/-- The class `Module`: its symbol table and the parsed body it was built from. -/
structure Module where
  symbols : Symbols
  module : Option VerilogModule
  deriving DecidableEq, Repr

/-- The class `ModuleList`: the cache of modules by type name and the root name. -/
structure ModuleList where
  modules : List (String × Module)
  rootModule : String
  deriving DecidableEq, Repr

/-- The method `ModuleList::getModule`, which dereferences `find` unchecked. -/
def ModuleList.getModule (ml : ModuleList) (modname : String) : Except Fault Module :=
  match lookup ml.modules modname with
  | none => .error .derefEnd
  | some m => .ok m

/-- In-place update of the entry `key` of the table of module `self`. -/
def updSymbol (ml : ModuleList) (self key : String) (f : Symbol → Symbol) : ModuleList :=
  { modules := modify (fun m => { symbols := modify f m.symbols key, module := m.module })
      ml.modules self,
    rootModule := ml.rootModule }

/-- The write `it->second.src = v` on the entry `key` of module `self`. -/
def setSrc (ml : ModuleList) (self key v : String) : ModuleList :=
  updSymbol ml self key (fun s => { s with src := v })

/-- A write through `it->second.range` on the entry `key` of module `self`. -/
def updRange (ml : ModuleList) (self key : String) (f : Range → Range) : ModuleList :=
  updSymbol ml self key (fun s => { s with range := s.range.map f })

/-! ## Search methods -/

/-- The method `Module::instModule`: `none` is the null pointer, otherwise the handle
of the module of the instance.  Both `find` calls are dereferenced unchecked. -/
def instModule (ml : ModuleList) (this : Module) (instname : String) :
    Except Fault (Option String) :=
  match lookup this.symbols instname with
  | none => .error .derefEnd
  | some sym =>
    if sym.moduleName = "" then .ok none
    else
      match ml.getModule sym.moduleName with
      | .error e => .error e
      | .ok _ => .ok (some sym.moduleName)

/-- The method `Module::findOneSource` of the module with handle `self`. -/
def findOneSource : Nat → ModuleList → String → String → Except Fault (String × ModuleList)
  | 0, _, _, _ => .error .outOfFuel
  | fuel + 1, ml, self, key =>
    match ml.getModule self with
    | .error e => .error e
    | .ok this =>
      match lookup this.symbols key with
      | none => .ok (key, ml)
      | some sym =>
        if sym.isBus then .error .assertFail
        else if sym.src = key then .ok (sym.src, ml)
        else if sym.src = "" then
          match find key '/' with
          | none => .ok (key, ml)
          | some pos =>
            match instModule ml this (substrTo key pos) with
            | .error e => .error e
            | .ok none => .ok (key, ml)
            | .ok (some instmod) =>
              if key = substrFrom key (pos + 1) then .error .assertFail
              else
                match findOneSource fuel ml instmod (substrFrom key (pos + 1)) with
                | .error e => .error e
                | .ok (sub, ml1) =>
                  match findOneSource fuel (setSrc ml1 self key (substrTo key pos ++ "/" ++ sub))
                      self (substrTo key pos ++ "/" ++ sub) with
                  | .error e => .error e
                  | .ok (res, ml3) => .ok (res, setSrc ml3 self key res)
        else
          match findOneSource fuel ml self sym.src with
          | .error e => .error e
          | .ok (res, ml1) => .ok (res, setSrc ml1 self key res)

/-- The `while (range.hasNext())` loop of `Module::findSource`; `res` is the vector
filled so far. -/
def findSourceLoop : Nat → ModuleList → String → String → List String →
    Except Fault (List String × ModuleList)
  | 0, _, _, _, _ => .error .outOfFuel
  | fuel + 1, ml, self, key, res =>
    match ml.getModule self with
    | .error e => .error e
    | .ok this =>
      match lookup this.symbols key with
      | none => .error .derefEnd
      | some sym =>
        match sym.range with
        | none => .error .derefEnd
        | some range =>
          if range.hasNext then
            match findOneSource fuel ml self (bitName key range.curpos) with
            | .error e => .error e
            | .ok (r, ml1) =>
              findSourceLoop fuel (updRange ml1 self key Range.incrpos) self key (res ++ [r])
          else .ok (res, ml)

/-- The method `Module::findSource` of the module with handle `self`. -/
def findSource (fuel : Nat) (ml : ModuleList) (self key : String) :
    Except Fault (List String × ModuleList) :=
  match ml.getModule self with
  | .error e => .error e
  | .ok this =>
    match lookup this.symbols key with
    | none => .ok ([key], ml)
    | some sym =>
      if sym.isBus then
        findSourceLoop fuel (updRange ml self key Range.resetpos) self key []
      else
        match findOneSource fuel ml self key with
        | .error e => .error e
        | .ok (r, ml1) => .ok ([r], ml1)

/-- The `for (auto & subres : subress)` loop of `Module::findHierSource`; `res` is the
vector filled so far. -/
def findHierLoop (fuel : Nat) (self instname : String) :
    ModuleList → List String → List String → Except Fault (List String × ModuleList)
  | ml, [], res => .ok (res, ml)
  | ml, subres :: rest, res =>
    match findOneSource fuel ml self (instname ++ "/" ++ subres) with
    | .error e => .error e
    | .ok (r, ml1) => findHierLoop fuel self instname ml1 rest (res ++ [r])

/-- The method `Module::findHierSource` of the module with handle `self`. -/
def findHierSource : Nat → ModuleList → String → String → Except Fault (List String × ModuleList)
  | 0, _, _, _ => .error .outOfFuel
  | fuel + 1, ml, self, key =>
    match find key '/' with
    | none => findSource fuel ml self key
    | some pos =>
      match ml.getModule self with
      | .error e => .error e
      | .ok this =>
        match instModule ml this (substrTo key pos) with
        | .error e => .error e
        | .ok none => .ok ([key], ml)
        | .ok (some instmod) =>
          match findHierSource fuel ml instmod (substrFrom key (pos + 1)) with
          | .error e => .error e
          | .ok (subress, ml1) => findHierLoop fuel self (substrTo key pos) ml1 subress []

/-- The method `ModuleList::findSource`. -/
def ModuleList.findSource (fuel : Nat) (ml : ModuleList) (path : String) :
    Except Fault (List String × ModuleList) :=
  match ml.getModule ml.rootModule with
  | .error e => .error e
  | .ok _ =>
    match findHierSource fuel ml ml.rootModule path with
    | .error e => .error e
    | .ok (res, ml1) => if res.length = 0 then .ok (res ++ [path], ml1) else .ok (res, ml1)

/-! ## Fill methods -/

/-- The method `Module::addInstSymbol`, with `Module::addSymbol` inlined. -/
def addInstSymbol (env : Env) (this : Module) (instname modname : String) : Module :=
  { symbols := modify
      (fun s => { s with isInst := true, isNet := false, name := instname, moduleName := modname })
      (insertNew this.symbols (env.nameRegulation instname) Symbol.new)
      (env.nameRegulation instname),
    module := this.module }

/-- The method `Module::addNetSymbol`, with `Module::addSymbol` inlined. -/
def addNetSymbol (env : Env) (this : Module) (netname : String) (isPort : Bool) : Module :=
  { symbols := modify
      (fun s => { s with isNet := true, isInst := false, name := netname, isPort := isPort })
      (insertNew this.symbols (env.nameRegulation netname) Symbol.new)
      (env.nameRegulation netname),
    module := this.module }

/-- The method `Module::addBusSymbol`, with `Module::addSymbol` inlined. -/
def addBusSymbol (env : Env) (this : Module) (netname : String) (isPort : Bool)
    (left right : Int) : Module :=
  match lookup this.symbols netname with
  | some _ => this
  | none =>
    { symbols := modify
        (fun s => { s with isNet := true, isInst := false, name := netname, isPort := isPort,
                           range := some (Range.ofBounds left right) })
        (insertNew this.symbols (env.nameRegulation netname) Symbol.new)
        (env.nameRegulation netname),
      module := this.module }

/-- The method `Module::addConnection`. -/
def addConnection (env : Env) (this : Module) (src dst : String) : Except Fault Module :=
  match lookup this.symbols (env.nameRegulation dst) with
  | none => .error .assertFail
  | some _ =>
    .ok { symbols := modify (fun s => { s with src := env.nameRegulation src }) this.symbols
            (env.nameRegulation dst),
          module := this.module }

/-! ## Syntax tree access and the builder -/

/-- The method `Module::getRange` on the extent of a bus declaration. -/
def getRange (bus : Int × Int) : Range := Range.ofBounds bus.1 bus.2

/-- The method `Module::portdir`. -/
def portdir (this : Module) (port : String) : Except Fault Bool :=
  match this.module with
  | none => .error .derefEnd
  | some m =>
    match m.declaration port with
    | none => .error .derefEnd
    | some dcl => .ok dcl.direction.isInput

/-- The text of the preprocessor definition `ADDNETANDCONN(instport, connexpr, isInput)`. -/
def addNetAndConn (env : Env) (this : Module) (instport connexpr : String) (isInput : Bool) :
    Except Fault Module :=
  if isInput then
    addConnection env (addNetSymbol env (addNetSymbol env this instport false) connexpr false)
      connexpr instport
  else
    addConnection env (addNetSymbol env (addNetSymbol env this instport false) connexpr false)
      instport connexpr

/-- The `while (portRange.hasNext())` loop of `Module::connectPin`. -/
def connectPinLoop (env : Env) (instport connexpr : String) (isInput : Bool) :
    Nat → Module → Range → Range → Except Fault Module
  | 0, _, _, _ => .error .outOfFuel
  | fuel + 1, this, portRange, netRange =>
    if portRange.hasNext then
      match addNetAndConn env this (bitName instport portRange.curpos)
          (bitName connexpr netRange.curpos) isInput with
      | .error e => .error e
      | .ok this1 =>
        connectPinLoop env instport connexpr isInput fuel this1 portRange.incrpos netRange.incrpos
    else .ok this

/-- The method `Module::connectPin`; `name` and `netName` are those of the pin. -/
def connectPin (env : Env) (fuel : Nat) (this : Module) (instname name netName : String)
    (submod : Module) : Except Fault Module :=
  match portdir submod name with
  | .error e => .error e
  | .ok isInput =>
    match submod.module with
    | none => .error .derefEnd
    | some sm =>
      match sm.declaration name with
      | none => .error .derefEnd
      | some subportDecl =>
        match subportDecl.bus with
        | none => addNetAndConn env this (instname ++ "/" ++ name) netName isInput
        | some portBus =>
          match this.module with
          | none => .error .derefEnd
          | some m =>
            match m.declaration netName with
            | some netDecl =>
              match netDecl.bus with
              | none => .error .badCast
              | some netBus =>
                connectPinLoop env (instname ++ "/" ++ name) netName isInput fuel
                  (addBusSymbol env
                    (addBusSymbol env this (instname ++ "/" ++ name) false
                      (getRange portBus).left (getRange portBus).right)
                    netName false (getRange netBus).left (getRange netBus).right)
                  (getRange portBus) (getRange netBus)
            | none =>
              addNetAndConn env
                (addNetSymbol env
                  (addBusSymbol env this (instname ++ "/" ++ name) false
                    (getRange portBus).left (getRange portBus).right)
                  netName false)
                (bitName (instname ++ "/" ++ name) (getRange portBus).curpos) netName isInput

/-- The `while (netIt->hasNext())` loop of `Module::connectBus`: `nets` is what is left
of the name iterator, `members` what is left of the port member iterator. -/
def connectBusLoop (env : Env) (instname : String) (isInput : Bool) :
    Module → List String → List String → Except Fault Module
  | this, [], _ => .ok this
  | _, _ :: _, [] => .error .derefEnd
  | this, netname :: nets, member :: members =>
    match addNetAndConn env this (instname ++ "/" ++ member) netname isInput with
    | .error e => .error e
    | .ok this1 => connectBusLoop env instname isInput this1 nets members

/-- The method `Module::connectBus`; `name` and `netNames` are those of the port
reference, `cell` is the type name of the instance. -/
def connectBus (env : Env) (this : Module) (instname name : String) (netNames : List String)
    (submod : Module) (cell : String) : Except Fault Module :=
  match portdir submod name with
  | .error e => .error e
  | .ok isInput =>
    match env.findPort cell name with
    | none => .error .derefEnd
    | some port =>
      match port.members with
      | none =>
        match netNames with
        | [] => .error .derefEnd
        | netname :: _ => addNetAndConn env this (instname ++ "/" ++ port.name) netname isInput
      | some members => connectBusLoop env instname isInput this netNames members

/-- The `for (auto & s : submod->symbols)` loop of `Module::processModuleInst`. -/
def addInstPorts (env : Env) (instname : String) : Module → Symbols → Module
  | this, [] => this
  | this, (first, second) :: rest =>
    if !second.isPort then addInstPorts env instname this rest
    else
      match second.range with
      | none => addInstPorts env instname (addNetSymbol env this (instname ++ "/" ++ first) false) rest
      | some range =>
        addInstPorts env instname
          (addBusSymbol env this (instname ++ "/" ++ first) false range.left range.right) rest

/-- The `for (auto & pin : *netSeq)` loop of `Module::processModuleInst`. -/
def connectPins (env : Env) (fuel : Nat) (instname : String) (submod : Module) (cell : String) :
    Module → List VerilogNetPin → Except Fault Module
  | this, [] => .ok this
  | this, .portRefScalarNet name netName :: rest =>
    match connectPin env fuel this instname name netName submod with
    | .error e => .error e
    | .ok this1 => connectPins env fuel instname submod cell this1 rest
  | this, .portRef name netNames :: rest =>
    match connectBus env this instname name netNames submod cell with
    | .error e => .error e
    | .ok this1 => connectPins env fuel instname submod cell this1 rest
  | this, .unnamed :: rest => connectPins env fuel instname submod cell this rest

/-- The method `Module::processModuleInst`; `create` is `ml->createModule`. -/
def processModuleInst (env : Env) (fuel : Nat)
    (create : ModuleList → String → Option VerilogModule → Except Fault (Module × ModuleList))
    (ml : ModuleList) (this : Module) (instname submodname : String)
    (pins : Option (List VerilogNetPin)) : Except Fault (Module × ModuleList) :=
  match create ml submodname (env.cellModule submodname) with
  | .error e => .error e
  | .ok (submod, ml1) =>
    match pins with
    | none =>
      .ok (addInstPorts env instname (addInstSymbol env this instname submodname) submod.symbols,
           ml1)
    | some netSeq =>
      match connectPins env fuel instname submod submodname
          (addInstPorts env instname (addInstSymbol env this instname submodname) submod.symbols)
          netSeq with
      | .error e => .error e
      | .ok this1 => .ok (this1, ml1)

/-- The `while (iter->hasNext())` loop of `Module::processLibertyInst`. -/
def libertyPins (env : Env) (instname : String) (netNames : List (Option String)) :
    Module → List LibertyPort → Except Fault Module
  | this, [] => .ok this
  | this, item :: rest =>
    match netNames.get? item.pinIndex with
    | none => .error .derefEnd
    | some none => libertyPins env instname netNames this rest
    | some (some pin) =>
      match addNetAndConn env this (instname ++ "/" ++ item.name) pin item.direction.isInput with
      | .error e => .error e
      | .ok this1 => libertyPins env instname netNames this1 rest

/-- The method `Module::processLibertyInst`. -/
def processLibertyInst (env : Env) (this : Module) (instname : String) (cell : LibertyCell)
    (netNames : List (Option String)) : Except Fault Module :=
  libertyPins env instname netNames (addInstSymbol env this instname "") cell.ports

/-- The method `Module::processDeclaration`. -/
def processDeclaration (env : Env) (this : Module) (dcl : VerilogDcl) : Module :=
  match dcl.bus with
  | none => addNetSymbol env this dcl.portName (!dcl.direction.isInternal)
  | some bus =>
    addBusSymbol env this dcl.portName (!dcl.direction.isInternal)
      (getRange bus).left (getRange bus).right

/-- The text of the preprocessor definition `ADDNETASSIGN(lhs, rhs)`. -/
def addNetAssign (env : Env) (this : Module) (lhs rhs : String) : Except Fault Module :=
  addConnection env (addNetSymbol env (addNetSymbol env this lhs false) rhs false) rhs lhs

/-- The `while (lr.hasNext())` loop of `Module::processAssign`. -/
def assignLoop (env : Env) (lnetname rnetname : String) :
    Nat → Module → Range → Range → Except Fault Module
  | 0, _, _, _ => .error .outOfFuel
  | fuel + 1, this, lr, rr =>
    if lr.hasNext then
      match addNetAssign env this (bitName lnetname lr.curpos) (bitName rnetname rr.curpos) with
      | .error e => .error e
      | .ok this1 => assignLoop env lnetname rnetname fuel this1 lr.incrpos rr.incrpos
    else .ok this

/-- The left or right name of a one-sided assignment: the first bit of a declared bus,
the name itself otherwise. -/
def splitBusSide (dcl : Option VerilogDcl) (netname : String) : String :=
  match dcl with
  | none => netname
  | some d =>
    match d.bus with
    | none => netname
    | some bus => bitName netname (getRange bus).curpos

/-- The method `Module::processAssign`; `lnetname` and `rnetname` are `l->name()` and
`r->name()`. -/
def processAssign (env : Env) (fuel : Nat) (this : Module) (lnetname rnetname : String) :
    Except Fault Module :=
  match this.module with
  | none => .error .derefEnd
  | some m =>
    match (m.declaration lnetname).bind VerilogDcl.bus, (m.declaration rnetname).bind VerilogDcl.bus with
    | some lbus, some rbus => assignLoop env lnetname rnetname fuel this (getRange lbus) (getRange rbus)
    | _, _ =>
      addNetAssign env this (splitBusSide (m.declaration lnetname) lnetname)
        (splitBusSide (m.declaration rnetname) rnetname)

/-- The method `Module::processStmt`. -/
def processStmt (env : Env) (fuel : Nat)
    (create : ModuleList → String → Option VerilogModule → Except Fault (Module × ModuleList))
    (ml : ModuleList) (this : Module) : VerilogStmt → Except Fault (Module × ModuleList)
  | .moduleInst instname submodname pins =>
    processModuleInst env fuel create ml this instname submodname pins
  | .libertyInst instname cell netNames =>
    match processLibertyInst env this instname cell netNames with
    | .error e => .error e
    | .ok this1 => .ok (this1, ml)
  | .declaration dcl => .ok (processDeclaration env this dcl, ml)
  | .assign lhs rhs =>
    match processAssign env fuel this lhs rhs with
    | .error e => .error e
    | .ok this1 => .ok (this1, ml)
  | .other => .error .assertFail

/-- The `for (auto &s : *module->stmts())` loop of `Module::processModule`. -/
def processStmts (env : Env) (fuel : Nat)
    (create : ModuleList → String → Option VerilogModule → Except Fault (Module × ModuleList)) :
    ModuleList → Module → List VerilogStmt → Except Fault (Module × ModuleList)
  | ml, this, [] => .ok (this, ml)
  | ml, this, s :: rest =>
    match processStmt env fuel create ml this s with
    | .error e => .error e
    | .ok (this1, ml1) => processStmts env fuel create ml1 this1 rest

/-- The `for (auto &s : *module->ports())` loop of `Module::processModule`. -/
def processPorts (env : Env) (m : VerilogModule) : Module → List String → Except Fault Module
  | this, [] => .ok this
  | this, s :: rest =>
    match m.declaration s with
    | none => .error .derefEnd
    | some dcl =>
      match dcl.bus with
      | none => processPorts env m (addNetSymbol env this s true) rest
      | some bus =>
        processPorts env m (addBusSymbol env this s true (getRange bus).left (getRange bus).right)
          rest

/-- The constructor `Module(m, l)`, which runs `Module::processModule` on an empty table. -/
def processModule (env : Env) (fuel : Nat)
    (create : ModuleList → String → Option VerilogModule → Except Fault (Module × ModuleList))
    (ml : ModuleList) (module : Option VerilogModule) : Except Fault (Module × ModuleList) :=
  match module with
  | none => .error .derefEnd
  | some m =>
    match processPorts env m { symbols := [], module := some m } m.ports with
    | .error e => .error e
    | .ok this => processStmts env fuel create ml this m.stmts

/-- The method `ModuleList::createModule`. -/
def createModule (env : Env) : Nat → ModuleList → String → Option VerilogModule →
    Except Fault (Module × ModuleList)
  | 0, _, _, _ => .error .outOfFuel
  | fuel + 1, ml, name, m =>
    match lookup ml.modules name with
    | some cached => .ok (cached, ml)
    | none =>
      match processModule env fuel (createModule env fuel) ml m with
      | .error e => .error e
      | .ok (mod, ml1) =>
        match lookup (insertNew ml1.modules name mod) name with
        | none => .error .derefEnd
        | some r => .ok (r, { modules := insertNew ml1.modules name mod, rootModule := ml1.rootModule })

/-! ## Resolution on the table as it stands

The search methods overwrite `src` entries and move bus cursors while they run.  The
relations below describe what a query returns by reading one fixed registry only; the
theorems relate the methods to them. -/

/-- What `Module::findOneSource` decides before its first recursive call. -/
inductive Step where
  | ret (r : String)
  | fail (e : Fault)
  | inst (instname instmod sub : String)
  | chain (v : String)
  deriving DecidableEq, Repr

/-- The decision of `Module::findOneSource` on a scalar entry of `this` whose `src`
reads `src`. -/
def stepSrc (ml : ModuleList) (this : Module) (key src : String) : Step :=
  if src = key then .ret src
  else if src = "" then
    match find key '/' with
    | none => .ret key
    | some pos =>
      match instModule ml this (substrTo key pos) with
      | .error e => .fail e
      | .ok none => .ret key
      | .ok (some instmod) =>
        if key = substrFrom key (pos + 1) then .fail .assertFail
        else .inst (substrTo key pos) instmod (substrFrom key (pos + 1))
  else .chain src

/-- The decision of `Module::findOneSource` of module `self` on `key`. -/
def step (ml : ModuleList) (self key : String) : Step :=
  match ml.getModule self with
  | .error e => .fail e
  | .ok this =>
    match lookup this.symbols key with
    | none => .ret key
    | some sym => if sym.isBus then .fail .assertFail else stepSrc ml this key sym.src

/-- The source of `key` in module `self`, read off the registry `ml` without writing to
it: `Resolves ml self key r` follows the decisions of `Module::findOneSource`. -/
inductive Resolves (ml : ModuleList) : String → String → String → Prop
  | ret {self key r : String} : step ml self key = .ret r → Resolves ml self key r
  | instSelf {self key instname instmod sub s : String} :
      step ml self key = .inst instname instmod sub → Resolves ml instmod sub s →
      instname ++ "/" ++ s = key → Resolves ml self key key
  | instStep {self key instname instmod sub s r : String} :
      step ml self key = .inst instname instmod sub → Resolves ml instmod sub s →
      instname ++ "/" ++ s ≠ key → Resolves ml self (instname ++ "/" ++ s) r →
      Resolves ml self key r
  | chain {self key v r : String} :
      step ml self key = .chain v → Resolves ml self v r → Resolves ml self key r

/-- The value line 303 of `NameMapping.cc` stores in `src`: the composed name of an
instance pin whose inner source is known. -/
def Pending (ml : ModuleList) (self key v : String) : Prop :=
  ∃ instname instmod sub s, step ml self key = .inst instname instmod sub ∧
    Resolves ml instmod sub s ∧ v = instname ++ "/" ++ s

/-- Two ranges with the same bounds and direction (the cursors may differ). -/
def Range.sameExtent (r0 r : Range) : Prop :=
  r.left = r0.left ∧ r.right = r0.right ∧ r.isIncr = r0.isIncr

/-- The entry `s` of `key` after queries, against the entry `s0` it started as: only
`src` and the range cursor may differ, and `src` is the old one, the resolved source,
or the composed name of line 303. -/
def SymRel (ml0 : ModuleList) (self key : String) (s0 s : Symbol) : Prop :=
  s.isInst = s0.isInst ∧ s.isNet = s0.isNet ∧ s.isPort = s0.isPort ∧ s.name = s0.name ∧
  s.moduleName = s0.moduleName ∧
  (match s0.range, s.range with
   | none, none => True
   | some r0, some r => Range.sameExtent r0 r
   | _, _ => False) ∧
  (s.src = s0.src ∨ Resolves ml0 self key s.src ∨ Pending ml0 self key s.src)

/-- The entry of `key` in the table of module `self`. -/
def symAt (ml : ModuleList) (self key : String) : Option Symbol :=
  match lookup ml.modules self with
  | none => none
  | some m => lookup m.symbols key

/-- The registry `ml` is the registry `ml0` after some queries. -/
def Inv (ml0 ml : ModuleList) : Prop :=
  ml.rootModule = ml0.rootModule ∧
  (∀ self, (lookup ml.modules self).isSome = (lookup ml0.modules self).isSome) ∧
  (∀ self key,
    match symAt ml0 self key, symAt ml self key with
    | none, none => True
    | some s0, some s => SymRel ml0 self key s0 s
    | _, _ => False)

/-- The loop `while (r.hasNext()) { ... r.curpos ...; r.incrpos(); }` started on `r` ends,
having read the indices `l` in this order. -/
inductive Range.Visits : Range → List Int → Prop
  | stop {r : Range} : r.hasNext = false → Range.Visits r []
  | step {r : Range} {l : List Int} :
      r.hasNext = true → Range.Visits r.incrpos l → Range.Visits r (r.curpos :: l)

/-- No step of the loop started on `r` overflows: the cursor is an `int` and so is the
index one step past `right`. -/
def Range.runs (r : Range) : Prop :=
  isInt r.curpos ∧ if r.isIncr then r.right < intMax else intMin < r.right

instance decRangeRuns (r : Range) : Decidable r.runs :=
  inferInstanceAs
    (Decidable (isInt r.curpos ∧ if r.isIncr then r.right < intMax else intMin < r.right))

/-- The loop started on `r` has a next index and the step past `right` overflows, or
`right` is no `int` at all: the test `hasNext` holds for every `int` the cursor can be. -/
def Range.stuck (r : Range) : Prop :=
  r.hasNext = true ∧ if r.isIncr then intMax ≤ r.right else r.right ≤ intMin

instance decRangeStuck (r : Range) : Decidable r.stuck :=
  inferInstanceAs
    (Decidable (r.hasNext = true ∧ if r.isIncr then intMax ≤ r.right else r.right ≤ intMin))

/-- The indices from the cursor to `right`, in the direction of the range. -/
def Range.rest (r : Range) : List Int :=
  if r.isIncr then
    (List.range (r.right - r.curpos + 1).toNat).map (fun (i : Nat) => r.curpos + (i : Int))
  else (List.range (r.curpos - r.right + 1).toNat).map (fun (i : Nat) => r.curpos - (i : Int))

/-- The indices from `left` to `right`, in the direction of the range. -/
def Range.bits (r : Range) : List Int := r.resetpos.rest

/-- The sequence `Module::findSource` returns for `key`, read off the registry `ml`. -/
def SourceSem (ml : ModuleList) (self key : String) (rs : List String) : Prop :=
  (lookup ml.modules self).isSome ∧
  match symAt ml self key with
  | none => rs = [key]
  | some sym =>
    match sym.range with
    | none => ∃ r, Resolves ml self key r ∧ rs = [r]
    | some range =>
      ∃ idxs, range.resetpos.Visits idxs ∧
        List.Forall₂ (fun idx r => Resolves ml self (bitName key idx) r) idxs rs

/-- The sequence `Module::findHierSource` returns for `key`, read off the registry `ml`. -/
inductive HierSem (ml : ModuleList) : String → String → List String → Prop
  | flat {self key : String} {rs : List String} :
      find key '/' = none → SourceSem ml self key rs → HierSem ml self key rs
  | noInst {self key : String} {this : Module} {pos : Nat} :
      find key '/' = some pos → ml.getModule self = .ok this →
      instModule ml this (substrTo key pos) = .ok none → HierSem ml self key [key]
  | inst {self key instmod : String} {this : Module} {pos : Nat} {subs rs : List String} :
      find key '/' = some pos → ml.getModule self = .ok this →
      instModule ml this (substrTo key pos) = .ok (some instmod) →
      HierSem ml instmod (substrFrom key (pos + 1)) subs →
      List.Forall₂ (fun sub r => Resolves ml self (substrTo key pos ++ "/" ++ sub) r) subs rs →
      HierSem ml self key rs

/-- The range of the entry, if any, has the direction its bounds give it, as the
constructor `Range(int f, int t)` sets it. -/
def Symbol.rangeWF (s : Symbol) : Bool :=
  match s.range with
  | none => true
  | some r => r.isIncr == decide (r.right > r.left)

/-- Every range of the registry has the direction its bounds give it. -/
def RangesWF (ml : ModuleList) : Prop :=
  ∀ m ∈ ml.modules, ∀ e ∈ m.2.symbols, e.2.rangeWF = true

instance decRangesWF (ml : ModuleList) : Decidable (RangesWF ml) :=
  inferInstanceAs (Decidable (∀ m ∈ ml.modules, ∀ e ∈ m.2.symbols, e.2.rangeWF = true))

/-- The decision of `Module::findOneSource` of module `self` on `key` when the `src` of
the entry reads `v`. -/
def stepWith (ml : ModuleList) (self key v : String) : Step :=
  match ml.getModule self with
  | .error e => .fail e
  | .ok this =>
    match lookup this.symbols key with
    | none => .ret key
    | some sym => if sym.isBus then .fail .assertFail else stepSrc ml this key v

/-- A symbol with its `src` blanked, to compare every other field at once. -/
def Symbol.clearSrc (s : Symbol) : Symbol := { s with src := "" }

/-- The registries `ml` and `ml1` differ at most in `src` fields. -/
def SameButSrc (ml ml1 : ModuleList) : Prop :=
  ∀ self key, (symAt ml1 self key).map Symbol.clearSrc = (symAt ml self key).map Symbol.clearSrc

/-! ## Example registries -/

/-- A scalar net entry with the given `src`. -/
def netSym (name src : String) : Symbol :=
  { Symbol.new with isNet := true, name := name, src := src }

/-- A registry whose root module `top` knows the single net `a`. -/
def oneNetList : ModuleList :=
  { modules := [("top", { symbols := [("a", netSym "a" "")], module := none })],
    rootModule := "top" }

/-- The collaborators of a netlist without submodule types: names are kept as they are,
no module type and no network port is known. -/
def plainEnv : Env :=
  { nameRegulation := id
    cellModule := fun _ => none
    findPort := fun _ _ => none }

/-- An instance entry of the given module type. -/
def instSym (name moduleName : String) : Symbol :=
  { Symbol.new with isInst := true, name := name, moduleName := moduleName }

/-- A bus-name entry with the given extent. -/
def busSym (name : String) (left right : Int) : Symbol :=
  { Symbol.new with isNet := true, name := name, range := some (Range.ofBounds left right) }

/-- A registry with a submodule type `M` (net `p` driven by `q`) and a root `top` that
holds an instance `u` of `M`, the net `a` and the bus `b[1:0]`, bit 1 of which is driven
by the pin `u/p` and bit 0 by `a`. -/
def demoList : ModuleList :=
  { modules :=
      [("M", { symbols := [("p", netSym "p" "q"), ("q", netSym "q" "")], module := none }),
       ("top", { symbols := [("u", instSym "u" "M"), ("u/p", netSym "u/p" ""),
                             ("a", netSym "a" ""), ("b", busSym "b" 1 0),
                             ("b[1]", netSym "b[1]" "u/p"), ("b[0]", netSym "b[0]" "a")],
                 module := none })],
    rootModule := "top" }

/-- The number of bits of a range, `|left - right| + 1`. -/
def Range.width (r : Range) : Nat := (r.left - r.right).natAbs + 1

/-- The `i`-th index counted from `left` towards `right`. -/
def Range.bitAt (r : Range) (i : Nat) : Int :=
  if r.right > r.left then r.left + (i : Int) else r.left - (i : Int)

/-- A registry whose root `top` holds the bus `d[7:0]`; bit 7 is driven by `hi`, bit 0
by `lo`, the other bits have no entry of their own. -/
def busList : ModuleList :=
  { modules :=
      [("top", { symbols := [("d", busSym "d" 7 0), ("d[7]", netSym "d[7]" "hi"),
                             ("d[0]", netSym "d[0]" "lo")],
                 module := none })],
    rootModule := "top" }

/-- The registry a driver obtains by building the root type `root` from the parsed body
`m` in an empty registry (the empty registry when the build does not return). -/
def builtList (env : Env) (root : String) (m : VerilogModule) : ModuleList :=
  match createModule env 8 { modules := [], rootModule := root } root (some m) with
  | .ok (_, ml) => ml
  | .error _ => { modules := [], rootModule := root }

/-- Whether the build behind `builtList` returns. -/
def buildReturns (env : Env) (root : String) (m : VerilogModule) : Bool :=
  match createModule env 8 { modules := [], rootModule := root } root (some m) with
  | .ok _ => true
  | .error _ => false

/-- A module type `M` with output port `p` and wire `q` and the assignment `p = q`. -/
def escM : VerilogModule :=
  { ports := ["p"]
    stmts := [.declaration ⟨"p", .output, none⟩, .declaration ⟨"q", .internal, none⟩,
              .assign "p" "q"]
    dcls := [("p", ⟨"p", .output, none⟩), ("q", ⟨"q", .internal, none⟩)] }

/-- A root whose instance `u` of `M` has its output pin `p` connected to a net that is
itself named `u/p` (an escaped identifier). -/
def escTop : VerilogModule :=
  { ports := []
    stmts := [.moduleInst "u" "M" (some [.portRefScalarNet "p" "u/p"])]
    dcls := [] }

/-- The collaborators for `escTop`: names are kept as they are, `M` is the only module
type. -/
def escEnv : Env :=
  { nameRegulation := id
    cellModule := fun name => if name = "M" then some escM else none
    findPort := fun _ _ => none }

/-- The primitive cell `INV`: input pin `i`, output pin `o`. -/
def invCell : LibertyCell :=
  { ports := [⟨"i", 0, .input⟩, ⟨"o", 1, .output⟩] }

/-- The primitive cell `BUF`: input pin `i`, output pin `o`. -/
def bufCell : LibertyCell :=
  { ports := [⟨"i", 0, .input⟩, ⟨"o", 1, .output⟩] }

/-- The module type `AND2` of scenario 3: input port `x`, and an instance `u2` of `INV`
whose input pin `i` is connected to `x`. -/
def and2Mod : VerilogModule :=
  { ports := ["x"]
    stmts := [.declaration ⟨"x", .input, none⟩, .libertyInst "u2" invCell [some "x", none]]
    dcls := [("x", ⟨"x", .input, none⟩)] }

/-- The root of scenario 3: primary input `net5`, and an instance `u1` of `AND2` whose
pin `x` is connected to `net5`. -/
def hierTop : VerilogModule :=
  { ports := ["net5"]
    stmts := [.declaration ⟨"net5", .input, none⟩,
              .moduleInst "u1" "AND2" (some [.portRefScalarNet "x" "net5"])]
    dcls := [("net5", ⟨"net5", .input, none⟩)] }

/-- The collaborators of scenario 3: names are kept as they are, `AND2` is the only
module type. -/
def hierEnv : Env :=
  { nameRegulation := id
    cellModule := fun name => if name = "AND2" then some and2Mod else none
    findPort := fun _ _ => none }

/-- The root of scenario 1: input `clk`, wire `q`, and an instance `u1` of `BUF` with
`i` connected to `clk` and `o` connected to `q`. -/
def bufTop : VerilogModule :=
  { ports := ["clk"]
    stmts := [.declaration ⟨"clk", .input, none⟩, .declaration ⟨"q", .internal, none⟩,
              .libertyInst "u1" bufCell [some "clk", some "q"]]
    dcls := [("clk", ⟨"clk", .input, none⟩), ("q", ⟨"q", .internal, none⟩)] }

/-- Every range of a symbol table has the direction its bounds give it. -/
def SymsWF (syms : Symbols) : Prop := ∀ e ∈ syms, e.2.rangeWF = true

/-- A registry whose root `top` holds the net `n` recorded as its own driver. -/
def selfNetList : ModuleList :=
  { modules := [("top", { symbols := [("n", netSym "n" "n")], module := none })],
    rootModule := "top" }

/-- A registry whose root `top` holds two nets that are recorded as each other's
driver. -/
def cycleList : ModuleList :=
  { modules := [("top", { symbols := [("a", netSym "a" "b"), ("b", netSym "b" "a")],
                          module := none })],
    rootModule := "top" }

/-- The iteration every caller of `Range` runs, `while (r.hasNext()) { ... r.curpos ...;
r.incrpos(); }`: the indices read, in the order they are read, after those in `acc`. -/
def Range.visit : Nat → Range → List Int → Except Fault (List Int)
  | 0, _, _ => .error .outOfFuel
  | fuel + 1, r, acc => if r.hasNext then Range.visit fuel r.incrpos (acc ++ [r.curpos]) else .ok acc

/-- A range with its cursor blanked. -/
def Range.clearCursor (r : Range) : Range := { r with curpos := 0 }

/-- A symbol with `src` and the range cursor blanked: what a query must leave alone. -/
def Symbol.frame (s : Symbol) : Symbol :=
  { s with src := "", range := s.range.map Range.clearCursor }

/-- A module with every entry of its table blanked by `Symbol.frame`, keys and their
order kept. -/
def Module.frame (m : Module) : Module :=
  { symbols := m.symbols.map (fun e => (e.1, e.2.frame)), module := m.module }

/-- A registry with every module blanked by `Module.frame`, names and their order kept. -/
def ModuleList.frame (ml : ModuleList) : ModuleList :=
  { modules := ml.modules.map (fun e => (e.1, e.2.frame)), rootModule := ml.rootModule }

/-- The `src` recorded for `key` in the table of a module under construction. -/
def srcOf (this : Module) (key : String) : Option String :=
  (lookup this.symbols key).map Symbol.src

/-- The range recorded for `key` in the table of a module under construction. -/
def rangeOf (this : Module) (key : String) : Option Range :=
  (lookup this.symbols key).bind Symbol.range

/-- The driver edges `lhs <- rhs` of a list of name pairs, recorded one after the other
by `ADDNETASSIGN`. -/
def recordAssigns (env : Env) : Module → List (String × String) → Except Fault Module
  | this, [] => .ok this
  | this, (lhs, rhs) :: rest =>
    match addNetAssign env this lhs rhs with
    | .error e => .error e
    | .ok this1 => recordAssigns env this1 rest

/-- The index `j` steps after the cursor, in the direction of the range, whether or not
it is within the bounds. -/
def Range.stepFrom (r : Range) (j : Nat) : Int :=
  r.curpos + (if r.isIncr then (j : Int) else -(j : Int))

/-- The index `idx` lies within the bounds of the range, whichever way it runs. -/
def Range.holds (r : Range) (idx : Int) : Prop :=
  (r.left ≤ idx ∧ idx ≤ r.right) ∨ (r.right ≤ idx ∧ idx ≤ r.left)

instance decRangeHolds (r : Range) (idx : Int) : Decidable (r.holds idx) :=
  inferInstanceAs (Decidable ((r.left ≤ idx ∧ idx ≤ r.right) ∨ (r.right ≤ idx ∧ idx ≤ r.left)))

/-- The root of scenario 2: buses `a[3:0]` and `b[3:0]` and the assignment `a = b`. -/
def busTop : VerilogModule :=
  { ports := []
    stmts := [.declaration ⟨"a", .internal, some (3, 0)⟩,
              .declaration ⟨"b", .internal, some (3, 0)⟩, .assign "a" "b"]
    dcls := [("a", ⟨"a", .internal, some (3, 0)⟩), ("b", ⟨"b", .internal, some (3, 0)⟩)] }

/-- The module of `busTop` under construction, after its two declarations. -/
def busThis : Module :=
  { symbols := [("a", busSym "a" 3 0), ("b", busSym "b" 3 0)]
    module := some busTop }

/-- A root with buses of different widths, `a[3:0]` and `b[1:0]`, and the assignment
`a = b`. -/
def misTop : VerilogModule :=
  { ports := []
    stmts := [.declaration ⟨"a", .internal, some (3, 0)⟩,
              .declaration ⟨"b", .internal, some (1, 0)⟩, .assign "a" "b"]
    dcls := [("a", ⟨"a", .internal, some (3, 0)⟩), ("b", ⟨"b", .internal, some (1, 0)⟩)] }

/-- The module of `misTop` under construction, after its two declarations. -/
def misThis : Module :=
  { symbols := [("a", busSym "a" 3 0), ("b", busSym "b" 1 0)]
    module := some misTop }

/-- A root with port `c`, bus `a[3:0]` and the assignment `a = c`. -/
def narrowTop : VerilogModule :=
  { ports := ["c"]
    stmts := [.declaration ⟨"c", .input, none⟩, .declaration ⟨"a", .internal, some (3, 0)⟩,
              .assign "a" "c"]
    dcls := [("c", ⟨"c", .input, none⟩), ("a", ⟨"a", .internal, some (3, 0)⟩)] }

/-- The module of `narrowTop` under construction, after its port list and its two
declarations. -/
def narrowThis : Module :=
  { symbols := [("c", { netSym "c" "" with isPort := true }), ("a", busSym "a" 3 0)]
    module := some narrowTop }

/-- A root with the buses `a[2147483646:2147483647]` and `b[1:0]` and the assignment
`a = b`; the right bound of `a` is the greatest `int`. -/
def maxTop : VerilogModule :=
  { ports := []
    stmts := [.declaration ⟨"a", .internal, some (2147483646, 2147483647)⟩,
              .declaration ⟨"b", .internal, some (1, 0)⟩, .assign "a" "b"]
    dcls := [("a", ⟨"a", .internal, some (2147483646, 2147483647)⟩),
             ("b", ⟨"b", .internal, some (1, 0)⟩)] }

/-- The module of `maxTop` under construction, after its two declarations. -/
def maxThis : Module :=
  { symbols := [("a", busSym "a" 2147483646 2147483647), ("b", busSym "b" 1 0)]
    module := some maxTop }

/-- A registry whose root `top` holds the bus `d[2147483646:2147483647]`, ending at the
greatest `int`; the bits have no entry of their own. -/
def maxList : ModuleList :=
  { modules := [("top", { symbols := [("d", busSym "d" 2147483646 2147483647)],
                          module := none })],
    rootModule := "top" }

/-- A module type `M` whose only content is the input port `p`. -/
def pinM : VerilogModule :=
  { ports := ["p"]
    stmts := [.declaration ⟨"p", .input, none⟩]
    dcls := [("p", ⟨"p", .input, none⟩)] }

/-- A root holding the instance `u` of `M` with no pin connected. -/
def pinTop : VerilogModule :=
  { ports := []
    stmts := [.moduleInst "u" "M" none]
    dcls := [] }

/-- The collaborators for `pinTop`: names are kept as they are, `M` is the only module
type. -/
def pinEnv : Env :=
  { nameRegulation := id
    cellModule := fun name => if name = "M" then some pinM else none
    findPort := fun _ _ => none }

/-- The registry built from `pinTop` after a first query on `u/p`, which has set the
`src` of the root entry `u/p` to `u/p`. -/
def pinAfter : ModuleList :=
  { modules :=
      [("M", { symbols := [("p", { netSym "p" "" with isPort := true })], module := some pinM }),
       ("top", { symbols := [("u", instSym "u" "M"), ("u/p", netSym "u/p" "u/p")],
                 module := some pinTop })],
    rootModule := "top" }

/-- A root holding the instance `c` of the primitive cell `BUF` whose output pin `o` is
connected to a net that is itself named `c/o` (an escaped identifier). -/
def cellTop : VerilogModule :=
  { ports := []
    stmts := [.libertyInst "c" bufCell [none, some "c/o"]]
    dcls := [] }

/-! # Theorems -/

/-! ## Association lists -/

theorem lookup_modify_self {β : Type} (f : β → β) (l : List (String × β)) (k : String) :
    lookup (modify f l k) k = (lookup l k).map f := by
  induction l with
  | nil => rfl
  | cons hd tl ih =>
    obtain ⟨k1, v⟩ := hd
    by_cases h : k1 = k
    · simp [modify, lookup, h]
    · simp [modify, lookup, h, ih]

theorem lookup_modify_other {β : Type} (f : β → β) (l : List (String × β)) (k k2 : String)
    (hne : k2 ≠ k) : lookup (modify f l k) k2 = lookup l k2 := by
  induction l with
  | nil => rfl
  | cons hd tl ih =>
    obtain ⟨k1, v⟩ := hd
    by_cases h : k1 = k
    · subst h
      have : ¬ k1 = k2 := fun e => hne e.symm
      simp [modify, lookup, this]
    · by_cases h2 : k1 = k2
      · subst h2
        simp [modify, lookup, hne]
      · simp [modify, lookup, h, h2, ih]

/-! ## The search methods, one step at a time -/

theorem findOneSource_eq (f : Nat) (ml : ModuleList) (m k : String) :
    findOneSource (f + 1) ml m k =
      match step ml m k with
      | .ret r => .ok (r, ml)
      | .fail e => .error e
      | .inst i im sub =>
        match findOneSource f ml im sub with
        | .error e => .error e
        | .ok (s, ml1) =>
          match findOneSource f (setSrc ml1 m k (i ++ "/" ++ s)) m (i ++ "/" ++ s) with
          | .error e => .error e
          | .ok (res, ml3) => .ok (res, setSrc ml3 m k res)
      | .chain v =>
        match findOneSource f ml m v with
        | .error e => .error e
        | .ok (res, ml1) => .ok (res, setSrc ml1 m k res) := by
  rw [findOneSource, step]
  cases ml.getModule m with
  | error e => rfl
  | ok this =>
    dsimp only
    cases lookup this.symbols k with
    | none => rfl
    | some sym =>
      dsimp only
      by_cases hb : sym.isBus = true
      · simp [hb]
      · simp only [hb, stepSrc]
        by_cases h1 : sym.src = k
        · simp [h1]
        · by_cases h2 : sym.src = ""
          · have h1b : ¬ "" = k := by rw [← h2]; exact h1
            simp only [h2, h1b, if_true, if_false]
            cases find k '/' with
            | none => simp
            | some pos =>
              dsimp only
              cases instModule ml this (substrTo k pos) with
              | error e => simp
              | ok o =>
                cases o with
                | none => simp
                | some im =>
                  dsimp only
                  by_cases ha : k = substrFrom k (pos + 1)
                  · simp [← ha]
                  · simp [ha]
          · simp [h1, h2]


/-! ## Fuel -/

theorem findOneSource_succ_ok (f : Nat) : ∀ (ml : ModuleList) (m k : String)
    (x : String × ModuleList), findOneSource f ml m k = .ok x →
    findOneSource (f + 1) ml m k = .ok x := by
  induction f with
  | zero => intro ml m k x h; simp [findOneSource] at h
  | succ n ih =>
    intro ml m k x h
    rw [findOneSource_eq] at h ⊢
    cases hs : step ml m k with
    | ret r => simpa [hs] using h
    | fail e => simp [hs] at h
    | inst i im sub =>
      simp only [hs] at h ⊢
      cases h1 : findOneSource n ml im sub with
      | error e => simp [h1] at h
      | ok y =>
        obtain ⟨s, ml1⟩ := y
        simp only [h1] at h
        simp only [ih _ _ _ _ h1]
        cases h2 : findOneSource n (setSrc ml1 m k (i ++ "/" ++ s)) m (i ++ "/" ++ s) with
        | error e => simp [h2] at h
        | ok z =>
          obtain ⟨res, ml3⟩ := z
          simp only [h2] at h
          simp only [ih _ _ _ _ h2]
          exact h
    | chain v =>
      simp only [hs] at h ⊢
      cases h1 : findOneSource n ml m v with
      | error e => simp [h1] at h
      | ok y =>
        obtain ⟨res, ml1⟩ := y
        simp only [h1] at h
        simp only [ih _ _ _ _ h1]
        exact h

theorem findOneSource_mono {f g : Nat} (hfg : f ≤ g) {ml : ModuleList} {m k : String}
    {x : String × ModuleList} (h : findOneSource f ml m k = .ok x) :
    findOneSource g ml m k = .ok x := by
  induction hfg with
  | refl => exact h
  | step _ ih => exact findOneSource_succ_ok _ _ _ _ _ ih


theorem findSourceLoop_succ_ok (f : Nat) : ∀ (ml : ModuleList) (m k : String) (acc : List String)
    (x : List String × ModuleList), findSourceLoop f ml m k acc = .ok x →
    findSourceLoop (f + 1) ml m k acc = .ok x := by
  induction f with
  | zero => intro ml m k acc x h; simp [findSourceLoop] at h
  | succ n ih =>
    intro ml m k acc x h
    rw [findSourceLoop] at h ⊢
    cases hm : ml.getModule m with
    | error e => simp [hm] at h
    | ok this =>
      simp only [hm] at h ⊢
      cases hs : lookup this.symbols k with
      | none => simp [hs] at h
      | some sym =>
        simp only [hs] at h ⊢
        cases hr : sym.range with
        | none => simp [hr] at h
        | some range =>
          simp only [hr] at h ⊢
          by_cases hn : range.hasNext = true
          · simp only [hn, if_true] at h ⊢
            cases h1 : findOneSource n ml m (bitName k range.curpos) with
            | error e => simp [h1] at h
            | ok y =>
              obtain ⟨r, ml1⟩ := y
              simp only [h1] at h
              simp only [findOneSource_succ_ok _ _ _ _ _ h1]
              exact ih _ _ _ _ _ h
          · simpa [hn] using h

theorem findSourceLoop_mono {f g : Nat} (hfg : f ≤ g) {ml : ModuleList} {m k : String}
    {acc : List String} {x : List String × ModuleList}
    (h : findSourceLoop f ml m k acc = .ok x) : findSourceLoop g ml m k acc = .ok x := by
  induction hfg with
  | refl => exact h
  | step _ ih => exact findSourceLoop_succ_ok _ _ _ _ _ _ ih

theorem findSource_mono {f g : Nat} (hfg : f ≤ g) {ml : ModuleList} {m k : String}
    {x : List String × ModuleList} (h : findSource f ml m k = .ok x) :
    findSource g ml m k = .ok x := by
  unfold findSource at h ⊢
  cases hm : ml.getModule m with
  | error e => simp [hm] at h
  | ok this =>
    simp only [hm] at h ⊢
    cases hs : lookup this.symbols k with
    | none => simpa [hs] using h
    | some sym =>
      simp only [hs] at h ⊢
      by_cases hb : sym.isBus = true
      · simp only [hb, if_true] at h ⊢
        exact findSourceLoop_mono hfg h
      · simp only [hb, if_false] at h ⊢
        cases h1 : findOneSource f ml m k with
        | error e => simp [h1] at h
        | ok y =>
          obtain ⟨r, ml1⟩ := y
          simp only [h1] at h
          simp only [findOneSource_mono hfg h1]
          exact h

theorem findHierLoop_mono {f g : Nat} (hfg : f ≤ g) (m i : String) :
    ∀ (subs : List String) (ml : ModuleList) (acc : List String) (x : List String × ModuleList),
    findHierLoop f m i ml subs acc = .ok x → findHierLoop g m i ml subs acc = .ok x := by
  intro subs
  induction subs with
  | nil => intro ml acc x h; simpa [findHierLoop] using h
  | cons s rest ih =>
    intro ml acc x h
    rw [findHierLoop] at h ⊢
    cases h1 : findOneSource f ml m (i ++ "/" ++ s) with
    | error e => simp [h1] at h
    | ok y =>
      obtain ⟨r, ml1⟩ := y
      simp only [h1] at h
      simp only [findOneSource_mono hfg h1]
      exact ih _ _ _ h

theorem findHierSource_succ_ok (f : Nat) : ∀ (ml : ModuleList) (m k : String)
    (x : List String × ModuleList), findHierSource f ml m k = .ok x →
    findHierSource (f + 1) ml m k = .ok x := by
  induction f with
  | zero => intro ml m k x h; simp [findHierSource] at h
  | succ n ih =>
    intro ml m k x h
    rw [findHierSource] at h ⊢
    cases hf : find k '/' with
    | none =>
      simp only [hf] at h ⊢
      exact findSource_mono (Nat.le_succ n) h
    | some pos =>
      simp only [hf] at h ⊢
      cases hm : ml.getModule m with
      | error e => simp [hm] at h
      | ok this =>
        simp only [hm] at h ⊢
        cases hi : instModule ml this (substrTo k pos) with
        | error e => simp [hi] at h
        | ok o =>
          cases o with
          | none => simpa [hi] using h
          | some im =>
            simp only [hi] at h ⊢
            cases h1 : findHierSource n ml im (substrFrom k (pos + 1)) with
            | error e => simp [h1] at h
            | ok y =>
              obtain ⟨subs, ml1⟩ := y
              simp only [h1] at h
              simp only [ih _ _ _ _ h1]
              exact findHierLoop_mono (Nat.le_succ n) _ _ _ _ _ _ h

theorem findHierSource_mono {f g : Nat} (hfg : f ≤ g) {ml : ModuleList} {m k : String}
    {x : List String × ModuleList} (h : findHierSource f ml m k = .ok x) :
    findHierSource g ml m k = .ok x := by
  induction hfg with
  | refl => exact h
  | step _ ih => exact findHierSource_succ_ok _ _ _ _ _ ih

theorem listFindSource_mono {f g : Nat} (hfg : f ≤ g) {ml : ModuleList} {path : String}
    {x : List String × ModuleList} (h : ml.findSource f path = .ok x) :
    ml.findSource g path = .ok x := by
  unfold ModuleList.findSource at h ⊢
  cases hm : ml.getModule ml.rootModule with
  | error e => simp [hm] at h
  | ok this =>
    simp only [hm] at h ⊢
    cases h1 : findHierSource f ml ml.rootModule path with
    | error e => simp [h1] at h
    | ok y =>
      obtain ⟨rs, ml1⟩ := y
      simp only [h1] at h
      simp only [NameResolve.findHierSource_mono hfg h1]
      exact h


/-! ## Writes to the registry -/

theorem lookup_updSymbol_self (ml : ModuleList) (self key : String) (f : Symbol → Symbol) :
    lookup (updSymbol ml self key f).modules self =
      (lookup ml.modules self).map
        (fun m => { symbols := modify f m.symbols key, module := m.module }) := by
  simp [updSymbol, lookup_modify_self]

theorem lookup_updSymbol_other (ml : ModuleList) (self key m : String) (f : Symbol → Symbol)
    (h : m ≠ self) : lookup (updSymbol ml self key f).modules m = lookup ml.modules m := by
  simp [updSymbol, lookup_modify_other _ _ _ _ h]

theorem isSome_lookup_updSymbol (ml : ModuleList) (self key m : String) (f : Symbol → Symbol) :
    (lookup (updSymbol ml self key f).modules m).isSome = (lookup ml.modules m).isSome := by
  by_cases h : m = self
  · subst h
    rw [lookup_updSymbol_self]
    cases lookup ml.modules m <;> rfl
  · rw [lookup_updSymbol_other _ _ _ _ _ h]

theorem symAt_updSymbol_self (ml : ModuleList) (self key : String) (f : Symbol → Symbol) :
    symAt (updSymbol ml self key f) self key = (symAt ml self key).map f := by
  unfold symAt
  rw [lookup_updSymbol_self]
  cases lookup ml.modules self with
  | none => rfl
  | some m => simp [lookup_modify_self]

theorem symAt_updSymbol_other (ml : ModuleList) (self key m k : String) (f : Symbol → Symbol)
    (h : m ≠ self ∨ k ≠ key) : symAt (updSymbol ml self key f) m k = symAt ml m k := by
  unfold symAt
  by_cases hm : m = self
  · subst hm
    have hk : k ≠ key := by
      cases h with
      | inl h => exact absurd rfl h
      | inr h => exact h
    rw [lookup_updSymbol_self]
    cases lookup ml.modules m with
    | none => rfl
    | some mod => simp [lookup_modify_other _ _ _ _ hk]
  · rw [lookup_updSymbol_other _ _ _ _ _ hm]

theorem symAt_eq_of_getModule {ml : ModuleList} {self : String} {this : Module}
    (h : ml.getModule self = .ok this) (key : String) :
    symAt ml self key = lookup this.symbols key := by
  unfold ModuleList.getModule at h
  unfold symAt
  cases hl : lookup ml.modules self with
  | none => simp [hl] at h
  | some m =>
    simp only [hl, Except.ok.injEq] at h
    subst h
    rfl

theorem getModule_isSome {ml : ModuleList} {self : String} {this : Module}
    (h : ml.getModule self = .ok this) : (lookup ml.modules self).isSome = true := by
  unfold ModuleList.getModule at h
  cases hl : lookup ml.modules self with
  | none => simp [hl] at h
  | some m => rfl

theorem getModule_of_isSome {ml : ModuleList} {self : String}
    (h : (lookup ml.modules self).isSome = true) : ∃ this, ml.getModule self = .ok this := by
  unfold ModuleList.getModule
  cases hl : lookup ml.modules self with
  | none => simp [hl] at h
  | some m => exact ⟨m, rfl⟩

theorem getModule_error {ml : ModuleList} {self : String} {e : Fault}
    (h : ml.getModule self = .error e) : (lookup ml.modules self).isSome = false := by
  unfold ModuleList.getModule at h
  cases hl : lookup ml.modules self with
  | none => rfl
  | some m => simp [hl] at h


/-! ## The registry after queries -/

theorem symRel_refl (ml0 : ModuleList) (self key : String) (s : Symbol) :
    SymRel ml0 self key s s := by
  refine ⟨rfl, rfl, rfl, rfl, rfl, ?_, Or.inl rfl⟩
  cases s.range with
  | none => trivial
  | some r => exact ⟨rfl, rfl, rfl⟩

theorem inv_refl (ml : ModuleList) : Inv ml ml := by
  refine ⟨rfl, fun _ => rfl, fun self key => ?_⟩
  cases h : symAt ml self key with
  | none => trivial
  | some s => exact symRel_refl ml self key s

theorem inv_updSymbol {ml0 ml : ModuleList} (h : Inv ml0 ml) (self key : String)
    (f : Symbol → Symbol)
    (hf : ∀ s0 s, symAt ml0 self key = some s0 → symAt ml self key = some s →
      SymRel ml0 self key s0 (f s)) :
    Inv ml0 (updSymbol ml self key f) := by
  obtain ⟨h1, h2, h3⟩ := h
  refine ⟨h1, fun m => ?_, fun m k => ?_⟩
  · rw [isSome_lookup_updSymbol]; exact h2 m
  · by_cases hmk : m = self ∧ k = key
    · obtain ⟨rfl, rfl⟩ := hmk
      rw [symAt_updSymbol_self]
      have h3mk := h3 m k
      cases h0 : symAt ml0 m k with
      | none =>
        cases hs : symAt ml m k with
        | none => trivial
        | some s => simp [h0, hs] at h3mk
      | some s0 =>
        cases hs : symAt ml m k with
        | none => simp [h0, hs] at h3mk
        | some s => exact hf s0 s h0 hs
    · have hne : m ≠ self ∨ k ≠ key := by
        by_cases hm : m = self
        · exact Or.inr (fun hk => hmk ⟨hm, hk⟩)
        · exact Or.inl hm
      rw [symAt_updSymbol_other _ _ _ _ _ _ hne]
      exact h3 m k

theorem inv_setSrc {ml0 ml : ModuleList} (h : Inv ml0 ml) (self key v : String)
    (hv : Resolves ml0 self key v ∨ Pending ml0 self key v) :
    Inv ml0 (setSrc ml self key v) := by
  refine inv_updSymbol h self key _ (fun s0 s h0 hs => ?_)
  have h3 := h.2.2 self key
  simp only [h0, hs] at h3
  obtain ⟨a, b, c, d, e, g, _⟩ := h3
  exact ⟨a, b, c, d, e, g, Or.inr hv⟩

theorem inv_updRange {ml0 ml : ModuleList} (h : Inv ml0 ml) (self key : String)
    (f : Range → Range) (hf : ∀ r, Range.sameExtent r (f r)) :
    Inv ml0 (updRange ml self key f) := by
  refine inv_updSymbol h self key _ (fun s0 s h0 hs => ?_)
  have h3 := h.2.2 self key
  simp only [h0, hs] at h3
  obtain ⟨a, b, c, d, e, g, i⟩ := h3
  refine ⟨a, b, c, d, e, ?_, i⟩
  cases hr0 : s0.range with
  | none =>
    cases hr : s.range with
    | none => trivial
    | some r => simp [hr0, hr] at g
  | some r0 =>
    cases hr : s.range with
    | none => simp [hr0, hr] at g
    | some r =>
      simp only [hr0, hr] at g
      obtain ⟨g1, g2, g3⟩ := g
      obtain ⟨f1, f2, f3⟩ := hf r
      exact ⟨f1.trans g1, f2.trans g2, f3.trans g3⟩


theorem getModule_inv {ml0 ml : ModuleList} (h : Inv ml0 ml) (name : String) :
    (∃ e, ml.getModule name = .error e ∧ ml0.getModule name = .error e) ∨
    (∃ m m0, ml.getModule name = .ok m ∧ ml0.getModule name = .ok m0) := by
  have h2 := h.2.1 name
  unfold ModuleList.getModule
  cases ha : lookup ml.modules name with
  | none =>
    cases hb : lookup ml0.modules name with
    | none => exact Or.inl ⟨_, rfl, rfl⟩
    | some m0 => simp [ha, hb] at h2
  | some m =>
    cases hb : lookup ml0.modules name with
    | none => simp [ha, hb] at h2
    | some m0 => exact Or.inr ⟨m, m0, rfl, rfl⟩

theorem instModule_inv {ml0 ml : ModuleList} (h : Inv ml0 ml) {self : String}
    {this0 this : Module} (h0 : ml0.getModule self = .ok this0)
    (h1 : ml.getModule self = .ok this) (i : String) :
    instModule ml this i = instModule ml0 this0 i := by
  have h3 := h.2.2 self i
  rw [symAt_eq_of_getModule h0, symAt_eq_of_getModule h1] at h3
  unfold instModule
  cases ha : lookup this0.symbols i with
  | none =>
    cases hb : lookup this.symbols i with
    | none => rfl
    | some s => simp [ha, hb] at h3
  | some s0 =>
    cases hb : lookup this.symbols i with
    | none => simp [ha, hb] at h3
    | some s =>
      simp only [ha, hb] at h3
      have hmn : s.moduleName = s0.moduleName := h3.2.2.2.2.1
      simp only [hmn]
      by_cases he : s0.moduleName = ""
      · simp [he]
      · simp only [he, if_false]
        rcases getModule_inv h s0.moduleName with ⟨e, ha, hb⟩ | ⟨m, m0, ha, hb⟩
        · simp [ha, hb]
        · simp [ha, hb]

theorem stepSrc_inv {ml0 ml : ModuleList} (h : Inv ml0 ml) {self : String}
    {this0 this : Module} (h0 : ml0.getModule self = .ok this0)
    (h1 : ml.getModule self = .ok this) (key v : String) :
    stepSrc ml this key v = stepSrc ml0 this0 key v := by
  unfold stepSrc
  cases find key '/' with
  | none => rfl
  | some pos => simp only [instModule_inv h h0 h1]

theorem step_inv {ml0 ml : ModuleList} (h : Inv ml0 ml) (self key : String) :
    step ml self key =
      match symAt ml self key with
      | none => step ml0 self key
      | some s => stepWith ml0 self key s.src := by
  have h3 := h.2.2 self key
  unfold step stepWith
  rcases getModule_inv h self with ⟨e, ha, hb⟩ | ⟨m, m0, ha, hb⟩
  · simp only [ha, hb]
    cases symAt ml self key <;> rfl
  · rw [symAt_eq_of_getModule ha, symAt_eq_of_getModule hb] at h3
    rw [symAt_eq_of_getModule ha]
    simp only [ha, hb]
    cases hs0 : lookup m0.symbols key with
    | none =>
      cases hs : lookup m.symbols key with
      | none => rfl
      | some s => simp [hs0, hs] at h3
    | some s0 =>
      cases hs : lookup m.symbols key with
      | none => simp [hs0, hs] at h3
      | some s =>
        simp only [hs0, hs] at h3
        have hr := h3.2.2.2.2.2.1
        have hbus : s.isBus = s0.isBus := by
          unfold Symbol.isBus
          cases hr0 : s0.range <;> cases hr1 : s.range <;> simp_all
        simp only [hbus, stepSrc_inv h hb ha]


theorem compose_ne_empty (i s : String) : i ++ "/" ++ s ≠ "" := by
  intro h
  have := congrArg String.length h
  simp [String.length_append] at this
  exact absurd this.1.2 (by decide)

theorem stepSrc_self (ml : ModuleList) (this : Module) (key : String) :
    stepSrc ml this key key = .ret key := by
  simp [stepSrc]

theorem stepSrc_chain (ml : ModuleList) (this : Module) {key v : String}
    (h1 : v ≠ key) (h2 : v ≠ "") : stepSrc ml this key v = .chain v := by
  simp [stepSrc, h1, h2]

theorem stepSrc_ret {ml : ModuleList} {this : Module} {key v r : String}
    (h : stepSrc ml this key v = .ret r) : r = key := by
  unfold stepSrc at h
  split at h
  · rename_i hv; simp at h; rw [← h, hv]
  · split at h
    · split at h
      · simp at h; exact h.symm
      · split at h
        · simp at h
        · simp at h; exact h.symm
        · split at h <;> simp at h
    · simp at h

theorem stepSrc_inst {ml : ModuleList} {this : Module} {key v i im sub : String}
    (h : stepSrc ml this key v = .inst i im sub) : v = "" ∧ v ≠ key := by
  unfold stepSrc at h
  split at h
  · simp at h
  · rename_i hv
    split at h
    · rename_i he; exact ⟨he, hv⟩
    · simp at h

theorem stepSrc_chain_inv {ml : ModuleList} {this : Module} {key v w : String}
    (h : stepSrc ml this key v = .chain w) : w = v ∧ v ≠ key ∧ v ≠ "" := by
  unfold stepSrc at h
  split at h
  · simp at h
  · rename_i hv
    split at h
    · split at h
      · simp at h
      · split at h
        · simp at h
        · simp at h
        · split at h <;> simp at h
    · rename_i he
      simp at h
      exact ⟨h.symm, hv, he⟩

/-- What a decision other than a fault on a present key says about the table. -/
theorem step_present {ml : ModuleList} {self key : String} {s : Symbol}
    (hs : symAt ml self key = some s) (hnf : ∀ e, step ml self key ≠ .fail e) :
    ∃ this, ml.getModule self = .ok this ∧ lookup this.symbols key = some s ∧
      s.isBus = false ∧ ∀ v, stepWith ml self key v = stepSrc ml this key v := by
  unfold step at hnf
  cases hm : ml.getModule self with
  | error e => exact absurd (by simp [hm]) (hnf e)
  | ok this =>
    rw [symAt_eq_of_getModule hm] at hs
    simp only [hm, hs] at hnf
    by_cases hb : s.isBus = true
    · exact absurd (by simp [hb]) (hnf .assertFail)
    · have hb2 : s.isBus = false := by simpa using hb
      refine ⟨this, rfl, hs, hb2, fun v => ?_⟩
      simp [stepWith, hm, hs, hb2]

theorem step_absent {ml : ModuleList} {self key : String}
    (hs : symAt ml self key = none) :
    (∃ e, step ml self key = .fail e) ∨ step ml self key = .ret key := by
  unfold step
  cases hm : ml.getModule self with
  | error e => exact Or.inl ⟨e, rfl⟩
  | ok this =>
    rw [symAt_eq_of_getModule hm] at hs
    simp [hs]

theorem step_ret {ml : ModuleList} {self key r : String} (h : step ml self key = .ret r) :
    r = key := by
  cases hs : symAt ml self key with
  | none =>
    rcases step_absent hs with ⟨e, he⟩ | he
    · rw [he] at h; simp at h
    · rw [he] at h; simp at h; exact h.symm
  | some s =>
    obtain ⟨this, hm, hl, hb, _⟩ := step_present hs (fun e he => by rw [he] at h; simp at h)
    simp only [step, hm, hl, hb] at h
    exact stepSrc_ret h


/-! ## Resolution on a fixed registry -/

theorem resolves_not_fail {ml : ModuleList} {self key r : String} (h : Resolves ml self key r)
    (e : Fault) : step ml self key ≠ .fail e := by
  cases h with
  | ret hs => rw [hs]; simp
  | instSelf hs _ _ => rw [hs]; simp
  | instStep hs _ _ _ => rw [hs]; simp
  | chain hs _ => rw [hs]; simp

theorem resolves_unique {ml : ModuleList} {self key r1 : String}
    (h1 : Resolves ml self key r1) : ∀ r2, Resolves ml self key r2 → r1 = r2 := by
  induction h1 with
  | ret hs =>
    intro r2 h2
    cases h2 with
    | ret hs2 => rw [hs] at hs2; simpa using hs2
    | instSelf hs2 _ _ => rw [hs] at hs2; simp at hs2
    | instStep hs2 _ _ _ => rw [hs] at hs2; simp at hs2
    | chain hs2 _ => rw [hs] at hs2; simp at hs2
  | instSelf hs _ hc ih =>
    intro r2 h2
    cases h2 with
    | ret hs2 => exact (step_ret hs2).symm
    | instSelf hs2 _ _ => rfl
    | instStep hs2 hsub2 hne2 _ =>
      rw [hs] at hs2
      simp only [Step.inst.injEq] at hs2
      obtain ⟨rfl, rfl, rfl⟩ := hs2
      have := ih _ hsub2
      subst this
      exact absurd hc hne2
    | chain hs2 _ => rw [hs] at hs2; simp at hs2
  | instStep hs _ hne _ ih1 ih2 =>
    intro r2 h2
    cases h2 with
    | ret hs2 => rw [hs] at hs2; simp at hs2
    | instSelf hs2 hsub2 hc2 =>
      rw [hs] at hs2
      simp only [Step.inst.injEq] at hs2
      obtain ⟨rfl, rfl, rfl⟩ := hs2
      have := ih1 _ hsub2
      subst this
      exact absurd hc2 hne
    | instStep hs2 hsub2 _ hres2 =>
      rw [hs] at hs2
      simp only [Step.inst.injEq] at hs2
      obtain ⟨rfl, rfl, rfl⟩ := hs2
      have := ih1 _ hsub2
      subst this
      exact ih2 _ hres2
    | chain hs2 _ => rw [hs] at hs2; simp at hs2
  | chain hs _ ih =>
    intro r2 h2
    cases h2 with
    | ret hs2 => rw [hs] at hs2; simp at hs2
    | instSelf hs2 _ _ => rw [hs] at hs2; simp at hs2
    | instStep hs2 _ _ _ => rw [hs] at hs2; simp at hs2
    | chain hs2 hres2 =>
      rw [hs] at hs2
      simp only [Step.chain.injEq] at hs2
      subst hs2
      exact ih _ hres2

theorem resolves_fixed {ml : ModuleList} {self key r : String} (h : Resolves ml self key r) :
    Resolves ml self r r := by
  induction h with
  | ret hs => have := step_ret hs; subst this; exact Resolves.ret hs
  | instSelf hs hsub hc _ => exact Resolves.instSelf hs hsub hc
  | instStep _ _ _ _ _ ih => exact ih
  | chain _ _ ih => exact ih

theorem step_chain {ml : ModuleList} {self key v : String} (h : step ml self key = .chain v) :
    v ≠ key ∧ v ≠ "" ∧ ∃ s, symAt ml self key = some s ∧ s.src = v := by
  cases hsym : symAt ml self key with
  | none =>
    rcases step_absent hsym with ⟨e, he⟩ | he
    · rw [he] at h; simp at h
    · rw [he] at h; simp at h
  | some s =>
    obtain ⟨this, hm, hl, hb, _⟩ := step_present hsym (fun e he => by rw [he] at h; simp at h)
    simp only [step, hm, hl, hb] at h
    obtain ⟨h1, h2, h3⟩ := stepSrc_chain_inv h
    subst h1
    exact ⟨h2, h3, s, rfl, rfl⟩

theorem step_inst {ml : ModuleList} {self key i im sub : String}
    (h : step ml self key = .inst i im sub) :
    key ≠ "" ∧ ∃ s, symAt ml self key = some s ∧ s.src = "" := by
  cases hsym : symAt ml self key with
  | none =>
    rcases step_absent hsym with ⟨e, he⟩ | he
    · rw [he] at h; simp at h
    · rw [he] at h; simp at h
  | some s =>
    obtain ⟨this, hm, hl, hb, _⟩ := step_present hsym (fun e he => by rw [he] at h; simp at h)
    simp only [step, hm, hl, hb] at h
    obtain ⟨h1, h2⟩ := stepSrc_inst h
    exact ⟨fun hk => h2 (by rw [h1, hk]), s, rfl, h1⟩

theorem resolves_empty {ml : ModuleList} {self key r : String} (h : Resolves ml self key r) :
    r = "" → key = "" := by
  induction h with
  | ret hs => intro hr; rw [← step_ret hs]; exact hr
  | instSelf _ _ _ _ => exact id
  | instStep _ _ _ _ _ ih => intro hr; exact absurd (ih hr) (compose_ne_empty _ _)
  | chain hs _ ih => intro hr; exact absurd (ih hr) (step_chain hs).2.1


/-! ## The search methods return what the registry resolves to -/

theorem pending_not_fail {ml : ModuleList} {self key v : String} (h : Pending ml self key v)
    (e : Fault) : step ml self key ≠ .fail e := by
  obtain ⟨i, im, sub, s, hs, _, _⟩ := h
  rw [hs]; simp

/-- The decision on a registry after queries: the one of the registry they started
from, or the one an overwritten `src` gives. -/
theorem step_inv_cases {ml0 ml : ModuleList} (h : Inv ml0 ml) (self key : String) :
    step ml self key = step ml0 self key ∨
    ∃ s, symAt ml self key = some s ∧
      (Resolves ml0 self key s.src ∨ Pending ml0 self key s.src) ∧
      step ml self key = if s.src = key then .ret key else .chain s.src := by
  have h3 := h.2.2 self key
  have hstep := step_inv h self key
  have hstep0 := step_inv (inv_refl ml0) self key
  cases hs0 : symAt ml0 self key with
  | none =>
    cases hs : symAt ml self key with
    | none => left; simpa [hs] using hstep
    | some s => simp [hs0, hs] at h3
  | some s0 =>
    cases hs : symAt ml self key with
    | none => simp [hs0, hs] at h3
    | some s =>
      simp only [hs0, hs] at h3 hstep hstep0
      obtain ⟨_, _, _, _, _, _, hsrc⟩ := h3
      rcases hsrc with hsame | hv
      · left; rw [hstep, hstep0, hsame]
      · right
        refine ⟨s, rfl, hv, ?_⟩
        have hnf : ∀ e, step ml0 self key ≠ .fail e := by
          rcases hv with hv | hv
          · exact resolves_not_fail hv
          · exact pending_not_fail hv
        obtain ⟨this0, _, _, _, hw⟩ := step_present hs0 hnf
        rw [hstep, hw]
        by_cases hk : s.src = key
        · simp only [hk, if_true]; exact stepSrc_self _ _ _
        · simp only [hk, if_false]
          refine stepSrc_chain _ _ hk ?_
          rcases hv with hv | ⟨i, im, sub, t, _, _, hc⟩
          · intro he
            exact hk (by rw [he, resolves_empty hv he])
          · rw [hc]; exact compose_ne_empty _ _

/-- A value stored in `src` by an earlier query resolves to what the key resolves to. -/
theorem resolves_via_src {ml0 : ModuleList} {self key v r : String}
    (hv : Resolves ml0 self key v ∨ Pending ml0 self key v) (hne : v ≠ key)
    (hr : Resolves ml0 self v r) : Resolves ml0 self key r := by
  rcases hv with hv | ⟨i, im, sub, t, hs, hsub, hc⟩
  · have := resolves_unique (resolves_fixed hv) _ hr
    rw [← this]; exact hv
  · subst hc
    exact Resolves.instStep hs hsub hne hr

theorem findOneSource_sound {ml0 : ModuleList} (f : Nat) :
    ∀ (ml : ModuleList) (self key r : String) (ml1 : ModuleList), Inv ml0 ml →
      findOneSource f ml self key = .ok (r, ml1) → Resolves ml0 self key r ∧ Inv ml0 ml1 := by
  induction f with
  | zero => intro ml self key r ml1 _ h; simp [findOneSource] at h
  | succ n ih =>
    intro ml self key r ml1 hinv h
    rw [findOneSource_eq] at h
    rcases step_inv_cases hinv self key with hsame | ⟨s, hs, hv, hstep⟩
    · -- the entry decides as in the starting registry
      cases hst : step ml0 self key with
      | ret r0 =>
        simp only [hsame, hst, Except.ok.injEq, Prod.mk.injEq] at h
        obtain ⟨rfl, rfl⟩ := h
        exact ⟨Resolves.ret hst, hinv⟩
      | fail e => simp [hsame, hst] at h
      | inst i im sub =>
        simp only [hsame, hst] at h
        cases h1 : findOneSource n ml im sub with
        | error e => simp [h1] at h
        | ok y =>
          obtain ⟨t, mlA⟩ := y
          simp only [h1] at h
          obtain ⟨hsub, hinvA⟩ := ih _ _ _ _ _ hinv h1
          have hinvB : Inv ml0 (setSrc mlA self key (i ++ "/" ++ t)) :=
            inv_setSrc hinvA _ _ _ (Or.inr ⟨i, im, sub, t, hst, hsub, rfl⟩)
          cases h2 : findOneSource n (setSrc mlA self key (i ++ "/" ++ t)) self (i ++ "/" ++ t) with
          | error e => simp [h2] at h
          | ok z =>
            obtain ⟨res, mlC⟩ := z
            simp only [h2, Except.ok.injEq, Prod.mk.injEq] at h
            obtain ⟨rfl, rfl⟩ := h
            obtain ⟨hres, hinvC⟩ := ih _ _ _ _ _ hinvB h2
            have hkey : Resolves ml0 self key res := by
              by_cases hc : i ++ "/" ++ t = key
              · rw [← hc]; exact hres
              · exact Resolves.instStep hst hsub hc hres
            exact ⟨hkey, inv_setSrc hinvC _ _ _ (Or.inl hkey)⟩
      | chain v =>
        simp only [hsame, hst] at h
        cases h1 : findOneSource n ml self v with
        | error e => simp [h1] at h
        | ok y =>
          obtain ⟨res, mlA⟩ := y
          simp only [h1, Except.ok.injEq, Prod.mk.injEq] at h
          obtain ⟨rfl, rfl⟩ := h
          obtain ⟨hres, hinvA⟩ := ih _ _ _ _ _ hinv h1
          have hkey : Resolves ml0 self key res := Resolves.chain hst hres
          exact ⟨hkey, inv_setSrc hinvA _ _ _ (Or.inl hkey)⟩
    · -- the entry was overwritten by an earlier query
      by_cases hk : s.src = key
      · simp only [hstep, hk, if_true, Except.ok.injEq, Prod.mk.injEq] at h
        obtain ⟨rfl, rfl⟩ := h
        refine ⟨?_, hinv⟩
        rcases hv with hv | ⟨i, im, sub, t, hst, hsub, hc⟩
        · rw [hk] at hv; exact hv
        · rw [hk] at hc; exact Resolves.instSelf hst hsub hc.symm
      · simp only [hstep, hk, if_false] at h
        cases h1 : findOneSource n ml self s.src with
        | error e => simp [h1] at h
        | ok y =>
          obtain ⟨res, mlA⟩ := y
          simp only [h1, Except.ok.injEq, Prod.mk.injEq] at h
          obtain ⟨rfl, rfl⟩ := h
          obtain ⟨hres, hinvA⟩ := ih _ _ _ _ _ hinv h1
          have hkey : Resolves ml0 self key res := resolves_via_src hv hk hres
          exact ⟨hkey, inv_setSrc hinvA _ _ _ (Or.inl hkey)⟩


theorem run_ret {ml : ModuleList} {self key r : String} (h : step ml self key = .ret r) :
    findOneSource 1 ml self key = .ok (r, ml) := by
  rw [findOneSource_eq, h]

theorem run_chain {ml ml1 : ModuleList} {self key v r : String} {f : Nat}
    (h : step ml self key = .chain v) (h1 : findOneSource f ml self v = .ok (r, ml1)) :
    findOneSource (f + 1) ml self key = .ok (r, setSrc ml1 self key r) := by
  rw [findOneSource_eq, h]
  simp only [h1]

theorem run_inst {ml mlA mlC : ModuleList} {self key i im sub t res : String} {f : Nat}
    (h : step ml self key = .inst i im sub) (h1 : findOneSource f ml im sub = .ok (t, mlA))
    (h2 : findOneSource f (setSrc mlA self key (i ++ "/" ++ t)) self (i ++ "/" ++ t) =
      .ok (res, mlC)) :
    findOneSource (f + 1) ml self key = .ok (res, setSrc mlC self key res) := by
  rw [findOneSource_eq, h]
  simp only [h1, h2]

/-- A key whose `src` already holds its resolved source `v` returns `v` as soon as the
query on `v` returns. -/
theorem run_overwritten {ml : ModuleList} {self key v : String}
    (hstep : step ml self key = if v = key then .ret key else .chain v)
    (hv : ∃ f ml1, findOneSource f ml self v = .ok (v, ml1)) :
    ∃ f ml1, findOneSource f ml self key = .ok (v, ml1) := by
  by_cases hk : v = key
  · simp only [hk, if_true] at hstep
    exact ⟨1, ml, by rw [hk]; exact run_ret hstep⟩
  · simp only [hk, if_false] at hstep
    obtain ⟨f, ml1, h1⟩ := hv
    exact ⟨f + 1, _, run_chain hstep h1⟩

theorem findOneSource_complete {ml0 : ModuleList} {self key r : String}
    (h : Resolves ml0 self key r) :
    (∀ ml, Inv ml0 ml → ∃ f ml1, findOneSource f ml self key = .ok (r, ml1)) ∧
    (∀ ml, Inv ml0 ml → ∃ f ml1, findOneSource f ml self r = .ok (r, ml1)) := by
  induction h with
  | @ret self key r hs =>
    have hr := step_ret hs
    subst hr
    have main : ∀ ml, Inv ml0 ml → ∃ f ml1, findOneSource f ml self r = .ok (r, ml1) := by
      intro ml hinv
      rcases step_inv_cases hinv self r with hsame | ⟨s, _, hv, hstep⟩
      · exact ⟨1, ml, run_ret (hsame.trans hs)⟩
      · rcases hv with hv | hv
        · have hk : s.src = r := resolves_unique hv _ (Resolves.ret hs)
          simp only [hk, if_true] at hstep
          exact ⟨1, ml, run_ret hstep⟩
        · obtain ⟨i, im, sub, t, hst, _, _⟩ := hv
          rw [hs] at hst; simp at hst
    exact ⟨main, main⟩
  | @instSelf self key i im sub t hs hsub hc ihsub =>
    subst hc
    have hkey : Resolves ml0 self (i ++ "/" ++ t) (i ++ "/" ++ t) :=
      Resolves.instSelf hs hsub rfl
    have main : ∀ ml, Inv ml0 ml → ∃ f ml1, findOneSource f ml self (i ++ "/" ++ t) = .ok (i ++ "/" ++ t, ml1) := by
      intro ml hinv
      rcases step_inv_cases hinv self (i ++ "/" ++ t) with hsame | ⟨s, _, hv, hstep⟩
      · obtain ⟨f1, mlA, h1⟩ := ihsub.1 ml hinv
        have hinvA := (findOneSource_sound f1 _ _ _ _ _ hinv h1).2
        have hinvB : Inv ml0 (setSrc mlA self (i ++ "/" ++ t) (i ++ "/" ++ t)) :=
          inv_setSrc hinvA _ _ _ (Or.inr ⟨i, im, sub, t, hs, hsub, rfl⟩)
        have hstepB : step (setSrc mlA self (i ++ "/" ++ t) (i ++ "/" ++ t)) self (i ++ "/" ++ t) = .ret (i ++ "/" ++ t) := by
          have h3 := step_inv hinvB self (i ++ "/" ++ t)
          obtain ⟨_, s0, hs0, _⟩ := step_inst hs
          have hsA : ∃ sA, symAt mlA self (i ++ "/" ++ t) = some sA := by
            have := hinvA.2.2 self (i ++ "/" ++ t)
            cases hx : symAt mlA self (i ++ "/" ++ t) with
            | none => simp [hs0, hx] at this
            | some sA => exact ⟨sA, rfl⟩
          obtain ⟨sA, hsA⟩ := hsA
          have hB : symAt (setSrc mlA self (i ++ "/" ++ t) (i ++ "/" ++ t)) self (i ++ "/" ++ t) =
              some { sA with src := i ++ "/" ++ t } := by
            unfold setSrc
            rw [symAt_updSymbol_self, hsA]; rfl
          rw [hB] at h3
          simp only at h3
          obtain ⟨this0, _, _, _, hw⟩ :=
            step_present hs0 (fun e he => by rw [he] at hs; simp at hs)
          rw [h3, hw]
          exact stepSrc_self _ _ _
        have h2 : findOneSource (f1 + 1) (setSrc mlA self (i ++ "/" ++ t) (i ++ "/" ++ t)) self
            (i ++ "/" ++ t) = .ok (i ++ "/" ++ t, setSrc mlA self (i ++ "/" ++ t) (i ++ "/" ++ t)) :=
          findOneSource_mono (Nat.succ_le_succ (Nat.zero_le f1)) (run_ret hstepB)
        exact ⟨f1 + 2, _, run_inst (hsame.trans hs) (findOneSource_succ_ok _ _ _ _ _ h1) h2⟩
      · have hk : s.src = i ++ "/" ++ t := by
          rcases hv with hv | ⟨i2, im2, sub2, t2, hst, hsub2, hc2⟩
          · exact resolves_unique hv _ hkey
          · rw [hs] at hst
            simp only [Step.inst.injEq] at hst
            obtain ⟨rfl, rfl, rfl⟩ := hst
            have := resolves_unique hsub _ hsub2
            subst this
            exact hc2
        simp only [hk, if_true] at hstep
        exact ⟨1, ml, run_ret hstep⟩
    exact ⟨main, main⟩
  | @instStep self key i im sub t r hs hsub hne hres ihsub ihres =>
    have hkey : Resolves ml0 self key r := Resolves.instStep hs hsub hne hres
    refine ⟨?_, ihres.2⟩
    intro ml hinv
    rcases step_inv_cases hinv self key with hsame | ⟨s, _, hv, hstep⟩
    · obtain ⟨f1, mlA, h1⟩ := ihsub.1 ml hinv
      have hinvA := (findOneSource_sound f1 _ _ _ _ _ hinv h1).2
      have hinvB : Inv ml0 (setSrc mlA self key (i ++ "/" ++ t)) :=
        inv_setSrc hinvA _ _ _ (Or.inr ⟨i, im, sub, t, hs, hsub, rfl⟩)
      obtain ⟨f2, mlC, h2⟩ := ihres.1 _ hinvB
      exact ⟨max f1 f2 + 1, _, run_inst (hsame.trans hs)
        (findOneSource_mono (Nat.le_max_left f1 f2) h1)
        (findOneSource_mono (Nat.le_max_right f1 f2) h2)⟩
    · rcases hv with hv | ⟨i2, im2, sub2, t2, hst, hsub2, hc2⟩
      · have hk : s.src = r := resolves_unique hv _ hkey
        rw [hk] at hstep
        exact run_overwritten hstep (ihres.2 ml hinv)
      · rw [hs] at hst
        simp only [Step.inst.injEq] at hst
        obtain ⟨rfl, rfl, rfl⟩ := hst
        have := resolves_unique hsub _ hsub2
        subst this
        rw [hc2] at hstep
        simp only [hne, if_false] at hstep
        obtain ⟨f2, mlC, h2⟩ := ihres.1 ml hinv
        exact ⟨f2 + 1, _, run_chain hstep h2⟩
  | @chain self key v r hs hres ih =>
    have hkey : Resolves ml0 self key r := Resolves.chain hs hres
    refine ⟨?_, ih.2⟩
    intro ml hinv
    rcases step_inv_cases hinv self key with hsame | ⟨s, _, hv, hstep⟩
    · obtain ⟨f1, mlA, h1⟩ := ih.1 ml hinv
      exact ⟨f1 + 1, _, run_chain (hsame.trans hs) h1⟩
    · rcases hv with hv | ⟨i2, im2, sub2, t2, hst, _, _⟩
      · have hk : s.src = r := resolves_unique hv _ hkey
        rw [hk] at hstep
        exact run_overwritten hstep (ih.2 ml hinv)
      · rw [hs] at hst; simp at hst


/-! ## What a query leaves untouched -/

theorem sameButSrc_refl (ml : ModuleList) : SameButSrc ml ml := fun _ _ => rfl

theorem sameButSrc_trans {a b c : ModuleList} (h1 : SameButSrc a b) (h2 : SameButSrc b c) :
    SameButSrc a c := fun m k => (h2 m k).trans (h1 m k)

theorem sameButSrc_setSrc (ml : ModuleList) (self key v : String) :
    SameButSrc ml (setSrc ml self key v) := by
  intro m k
  by_cases hmk : m = self ∧ k = key
  · obtain ⟨rfl, rfl⟩ := hmk
    unfold setSrc
    rw [symAt_updSymbol_self]
    cases symAt ml m k <;> rfl
  · have hne : m ≠ self ∨ k ≠ key := by
      by_cases hm : m = self
      · exact Or.inr (fun hk => hmk ⟨hm, hk⟩)
      · exact Or.inl hm
    unfold setSrc
    rw [symAt_updSymbol_other _ _ _ _ _ _ hne]

theorem findOneSource_frame (f : Nat) : ∀ (ml : ModuleList) (self key r : String)
    (ml1 : ModuleList), findOneSource f ml self key = .ok (r, ml1) → SameButSrc ml ml1 := by
  induction f with
  | zero => intro ml self key r ml1 h; simp [findOneSource] at h
  | succ n ih =>
    intro ml self key r ml1 h
    rw [findOneSource_eq] at h
    cases hst : step ml self key with
    | ret r0 =>
      simp only [hst, Except.ok.injEq, Prod.mk.injEq] at h
      rw [← h.2]; exact sameButSrc_refl ml
    | fail e => simp [hst] at h
    | inst i im sub =>
      simp only [hst] at h
      cases h1 : findOneSource n ml im sub with
      | error e => simp [h1] at h
      | ok y =>
        obtain ⟨t, mlA⟩ := y
        simp only [h1] at h
        cases h2 : findOneSource n (setSrc mlA self key (i ++ "/" ++ t)) self (i ++ "/" ++ t) with
        | error e => simp [h2] at h
        | ok z =>
          obtain ⟨res, mlC⟩ := z
          simp only [h2, Except.ok.injEq, Prod.mk.injEq] at h
          rw [← h.2]
          exact sameButSrc_trans (ih _ _ _ _ _ h1)
            (sameButSrc_trans (sameButSrc_setSrc _ _ _ _)
              (sameButSrc_trans (ih _ _ _ _ _ h2) (sameButSrc_setSrc _ _ _ _)))
    | chain v =>
      simp only [hst] at h
      cases h1 : findOneSource n ml self v with
      | error e => simp [h1] at h
      | ok y =>
        obtain ⟨res, mlA⟩ := y
        simp only [h1, Except.ok.injEq, Prod.mk.injEq] at h
        rw [← h.2]
        exact sameButSrc_trans (ih _ _ _ _ _ h1) (sameButSrc_setSrc _ _ _ _)

theorem sameButSrc_range {ml ml1 : ModuleList} (h : SameButSrc ml ml1) {self key : String}
    {s : Symbol} (hs : symAt ml self key = some s) :
    ∃ s1, symAt ml1 self key = some s1 ∧ s1.range = s.range := by
  have := h self key
  rw [hs] at this
  cases h1 : symAt ml1 self key with
  | none => simp [h1] at this
  | some s1 =>
    simp only [h1, Option.map_some', Option.some.injEq] at this
    exact ⟨s1, rfl, by simpa [Symbol.clearSrc] using congrArg Symbol.range this⟩

theorem wrapInt_eq {x : Int} (h : isInt x) : wrapInt x = x := by
  unfold isInt intMin intMax at h
  unfold wrapInt
  omega

theorem isInt_wrapInt (x : Int) : isInt (wrapInt x) := by
  unfold isInt intMin intMax wrapInt
  omega

theorem incrpos_runs {r : Range} (h : r.runs) (hn : r.hasNext = true) :
    r.incrpos.curpos = r.curpos + (if r.isIncr then 1 else -1) ∧ r.incrpos.runs := by
  obtain ⟨hc, hr⟩ := h
  have e : wrapInt (r.curpos + (if r.isIncr then 1 else -1)) =
      r.curpos + (if r.isIncr then 1 else -1) := by
    apply wrapInt_eq
    unfold Range.hasNext at hn
    unfold isInt intMin intMax at hc ⊢
    unfold intMin intMax at hr
    by_cases hi : r.isIncr = true
    · simp only [hi, if_true, decide_eq_true_eq] at hn hr ⊢
      omega
    · simp only [hi, Bool.false_eq_true, if_false, decide_eq_true_eq] at hn hr ⊢
      omega
  refine ⟨e, ?_, hr⟩
  show isInt (wrapInt _)
  exact isInt_wrapInt _

theorem Range.rest_eq (r : Range) (h : r.runs) :
    r.rest = if r.hasNext then r.curpos :: r.incrpos.rest else [] := by
  by_cases hn0 : r.hasNext = true
  · have hc := (incrpos_runs h hn0).1
    have hx : r.incrpos =
        { r with curpos := r.curpos + (if r.isIncr then 1 else -1) } := by
      cases r
      simp only [Range.incrpos] at hc ⊢
      rw [hc]
    rw [hx]
    unfold Range.rest Range.hasNext
    unfold Range.hasNext at hn0
    by_cases hi : r.isIncr = true
    · simp only [hi, if_true, decide_eq_true_eq] at hn0 ⊢
      simp only [hn0, decide_True, if_true]
      have e1 : (r.right - r.curpos + 1).toNat = (r.right - (r.curpos + 1) + 1).toNat + 1 := by
        omega
      rw [e1, List.range_succ_eq_map]
      simp [Function.comp_def]
      intro a _; omega
    · simp only [hi, Bool.false_eq_true, if_false, decide_eq_true_eq] at hn0 ⊢
      simp only [hn0, decide_True, if_true]
      have e1 : (r.curpos - r.right + 1).toNat = (r.curpos + -1 - r.right + 1).toNat + 1 := by
        omega
      rw [e1, List.range_succ_eq_map]
      simp [Function.comp_def]
      intro a _; omega
  · simp only [hn0, Bool.false_eq_true, if_false]
    unfold Range.rest
    unfold Range.hasNext at hn0
    by_cases hi : r.isIncr = true
    · simp only [hi, if_true, decide_eq_true_eq] at hn0 ⊢
      have e1 : (r.right - r.curpos + 1).toNat = 0 := by omega
      rw [e1]; rfl
    · simp only [hi, Bool.false_eq_true, if_false, decide_eq_true_eq] at hn0 ⊢
      have e1 : (r.curpos - r.right + 1).toNat = 0 := by omega
      simp [e1]

theorem visits_rest_aux : ∀ (n : Nat) (r : Range), r.rest.length = n → r.runs → r.Visits r.rest := by
  intro n
  induction n with
  | zero =>
    intro r hlen hruns
    have hnil : r.rest = [] := List.length_eq_zero.mp hlen
    have h := Range.rest_eq r hruns
    rw [hnil] at h ⊢
    cases hn : r.hasNext with
    | false => exact Range.Visits.stop hn
    | true => simp [hn] at h
  | succ n ih =>
    intro r hlen hruns
    have h := Range.rest_eq r hruns
    cases hn : r.hasNext with
    | false => rw [h]; simp only [hn, Bool.false_eq_true, if_false]; exact Range.Visits.stop hn
    | true =>
      simp only [hn, if_true] at h
      rw [h] at hlen ⊢
      simp only [List.length_cons, Nat.add_right_cancel_iff] at hlen
      exact Range.Visits.step hn (ih r.incrpos hlen (incrpos_runs hruns hn).2)

/-- When no step overflows, the loop ends having read the indices from the cursor to
`right`. -/
theorem visits_rest (r : Range) (h : r.runs) : r.Visits r.rest :=
  visits_rest_aux _ r rfl h

theorem visits_unique {r : Range} {l1 l2 : List Int} (h1 : r.Visits l1) (h2 : r.Visits l2) :
    l1 = l2 := by
  induction h1 generalizing l2 with
  | stop hn =>
    cases h2 with
    | stop _ => rfl
    | step hn2 _ => rw [hn] at hn2; cases hn2
  | step hn _ ih =>
    cases h2 with
    | stop hn2 => rw [hn] at hn2; cases hn2
    | step _ h2b => rw [ih h2b]

theorem stuck_incrpos {r : Range} (h : r.stuck) : r.incrpos.stuck := by
  obtain ⟨_, hr⟩ := h
  have hw := isInt_wrapInt (r.curpos + (if r.isIncr then 1 else -1))
  unfold isInt at hw
  unfold Range.stuck Range.hasNext
  show (if r.isIncr then decide (wrapInt _ ≤ r.right) else decide (wrapInt _ ≥ r.right)) = true ∧ _
  refine ⟨?_, hr⟩
  by_cases hi : r.isIncr = true
  · simp only [hi, if_true, decide_eq_true_eq] at hr hw ⊢
    omega
  · simp only [hi, Bool.false_eq_true, if_false, decide_eq_true_eq] at hr hw ⊢
    omega

/-- A loop whose step past `right` overflows never ends. -/
theorem stuck_not_visits {r : Range} {l : List Int} (hv : r.Visits l) : ¬ r.stuck := by
  induction hv with
  | stop hn => intro h; rw [h.1] at hn; cases hn
  | step _ _ ih => intro h; exact ih (stuck_incrpos h)


/-! ## Bus expansion -/

theorem incrpos_sameExtent (r : Range) : Range.sameExtent r r.incrpos := ⟨rfl, rfl, rfl⟩

theorem resetpos_sameExtent (r : Range) : Range.sameExtent r r.resetpos := ⟨rfl, rfl, rfl⟩

theorem symAt_updRange_self {ml : ModuleList} {self key : String} {s : Symbol} {rg : Range}
    (hs : symAt ml self key = some s) (hr : s.range = some rg) (f : Range → Range) :
    symAt (updRange ml self key f) self key = some { s with range := some (f rg) } := by
  unfold updRange
  rw [symAt_updSymbol_self, hs]
  simp [hr]

theorem findSourceLoop_sound {ml0 : ModuleList} (self key : String) (f : Nat) :
    ∀ (ml : ModuleList) (acc rs : List String) (ml1 : ModuleList) (s : Symbol) (rg : Range),
      Inv ml0 ml → symAt ml self key = some s → s.range = some rg →
      findSourceLoop f ml self key acc = .ok (rs, ml1) →
      ∃ rs1 idxs, rs = acc ++ rs1 ∧ rg.Visits idxs ∧
        List.Forall₂ (fun idx r => Resolves ml0 self (bitName key idx) r) idxs rs1 ∧
        Inv ml0 ml1 := by
  induction f with
  | zero => intro ml acc rs ml1 s rg _ _ _ h; simp [findSourceLoop] at h
  | succ n ih =>
    intro ml acc rs ml1 s rg hinv hs hr h
    rw [findSourceLoop] at h
    cases hm : ml.getModule self with
    | error e => simp [hm] at h
    | ok this =>
      rw [symAt_eq_of_getModule hm] at hs
      simp only [hm, hs, hr] at h
      by_cases hn : rg.hasNext = true
      · simp only [hn, if_true] at h
        cases h1 : findOneSource n ml self (bitName key rg.curpos) with
        | error e => simp [h1] at h
        | ok y =>
          obtain ⟨r, mlA⟩ := y
          simp only [h1] at h
          obtain ⟨hres, hinvA⟩ := findOneSource_sound n _ _ _ _ _ hinv h1
          have hsml : symAt ml self key = some s := by rw [symAt_eq_of_getModule hm]; exact hs
          obtain ⟨sA, hsA, hrA⟩ := sameButSrc_range (findOneSource_frame n _ _ _ _ _ h1) hsml
          have hinvB := inv_updRange hinvA self key Range.incrpos incrpos_sameExtent
          have hsB := symAt_updRange_self hsA (hrA.trans hr) Range.incrpos
          obtain ⟨rs1, idxs, e1, hv, hall, hinv1⟩ := ih _ _ _ _ _ _ hinvB hsB rfl h
          refine ⟨r :: rs1, rg.curpos :: idxs, ?_, Range.Visits.step hn hv,
            List.Forall₂.cons hres hall, hinv1⟩
          rw [e1]; simp
      · simp only [hn, if_false, Except.ok.injEq, Prod.mk.injEq] at h
        obtain ⟨rfl, rfl⟩ := h
        have hn2 : rg.hasNext = false := by simpa using hn
        exact ⟨[], [], by simp, Range.Visits.stop hn2, List.Forall₂.nil, hinv⟩

theorem findSourceLoop_complete {ml0 : ModuleList} (self key : String) {rg : Range}
    {idxs : List Int} (hv : rg.Visits idxs) :
    ∀ (rs1 : List String) (ml : ModuleList) (acc : List String) (s : Symbol),
      List.Forall₂ (fun idx r => Resolves ml0 self (bitName key idx) r) idxs rs1 →
      Inv ml0 ml → symAt ml self key = some s → s.range = some rg →
      ∃ f ml1, findSourceLoop f ml self key acc = .ok (acc ++ rs1, ml1) := by
  induction hv with
  | @stop rg hn =>
    intro rs1 ml acc s hall hinv hs hr
    cases hall
    refine ⟨1, ml, ?_⟩
    rw [findSourceLoop]
    cases hm : ml.getModule self with
    | error e =>
      have := getModule_error hm
      unfold symAt at hs
      cases hl : lookup ml.modules self with
      | none => simp [hl] at hs
      | some m => simp [hl] at this
    | ok this =>
      rw [symAt_eq_of_getModule hm] at hs
      simp [hs, hr, hn]
  | @step rg l hn _ ih =>
    intro rs1 ml acc s hall hinv hs hr
    cases hall with
    | @cons _ r _ rest hres hall2 =>
      obtain ⟨f1, mlA, h1⟩ := (findOneSource_complete hres).1 ml hinv
      obtain ⟨_, hinvA⟩ := findOneSource_sound f1 _ _ _ _ _ hinv h1
      obtain ⟨sA, hsA, hrA⟩ := sameButSrc_range (findOneSource_frame f1 _ _ _ _ _ h1) hs
      have hinvB := inv_updRange hinvA self key Range.incrpos incrpos_sameExtent
      have hsB := symAt_updRange_self hsA (hrA.trans hr) Range.incrpos
      obtain ⟨f2, ml1, h2⟩ := ih rest _ (acc ++ [r]) _ hall2 hinvB hsB rfl
      refine ⟨max f1 f2 + 1, ml1, ?_⟩
      rw [findSourceLoop]
      cases hm : ml.getModule self with
      | error e =>
        have := getModule_error hm
        unfold symAt at hs
        cases hl : lookup ml.modules self with
        | none => simp [hl] at hs
        | some m => simp [hl] at this
      | ok this =>
        rw [symAt_eq_of_getModule hm] at hs
        simp only [hs, hr, hn, if_true]
        rw [findOneSource_mono (Nat.le_max_left f1 f2) h1]
        simp only
        rw [findSourceLoop_mono (Nat.le_max_right f1 f2) h2]
        simp


theorem resetpos_congr {r0 r : Range} (h : Range.sameExtent r0 r) :
    r.resetpos = r0.resetpos := by
  obtain ⟨h1, h2, h3⟩ := h
  cases r0
  cases r
  simp only [Range.resetpos] at h1 h2 h3 ⊢
  simp [h1, h2, h3]

/-- The entry of a key after queries, paired with the entry it started as. -/
theorem inv_symAt {ml0 ml : ModuleList} (h : Inv ml0 ml) (self key : String) :
    (symAt ml0 self key = none ∧ symAt ml self key = none) ∨
    ∃ s0 s, symAt ml0 self key = some s0 ∧ symAt ml self key = some s ∧
      SymRel ml0 self key s0 s := by
  have h3 := h.2.2 self key
  cases h0 : symAt ml0 self key with
  | none =>
    cases h1 : symAt ml self key with
    | none => exact Or.inl ⟨rfl, rfl⟩
    | some s => simp [h0, h1] at h3
  | some s0 =>
    cases h1 : symAt ml self key with
    | none => simp [h0, h1] at h3
    | some s =>
      simp only [h0, h1] at h3
      exact Or.inr ⟨s0, s, rfl, rfl, h3⟩

theorem symRel_range {ml0 : ModuleList} {self key : String} {s0 s : Symbol}
    (h : SymRel ml0 self key s0 s) :
    (s0.range = none ∧ s.range = none) ∨
    ∃ r0 r, s0.range = some r0 ∧ s.range = some r ∧ Range.sameExtent r0 r := by
  have hr := h.2.2.2.2.2.1
  cases h0 : s0.range with
  | none =>
    cases h1 : s.range with
    | none => exact Or.inl ⟨rfl, rfl⟩
    | some r => simp [h0, h1] at hr
  | some r0 =>
    cases h1 : s.range with
    | none => simp [h0, h1] at hr
    | some r =>
      simp only [h0, h1] at hr
      exact Or.inr ⟨r0, r, rfl, rfl, hr⟩

theorem findSource_sound {ml0 : ModuleList} {f : Nat} {ml ml1 : ModuleList} {self key : String}
    {rs : List String} (hinv : Inv ml0 ml) (h : findSource f ml self key = .ok (rs, ml1)) :
    SourceSem ml0 self key rs ∧ Inv ml0 ml1 := by
  unfold findSource at h
  cases hm : ml.getModule self with
  | error e => simp [hm] at h
  | ok this =>
    have hsome : (lookup ml0.modules self).isSome = true := by
      rw [← hinv.2.1 self]; exact getModule_isSome hm
    simp only [hm] at h
    rw [← symAt_eq_of_getModule hm] at h
    unfold SourceSem
    rcases inv_symAt hinv self key with ⟨h0, h1⟩ | ⟨s0, s, h0, h1, hrel⟩
    · simp only [h1, Except.ok.injEq, Prod.mk.injEq] at h
      obtain ⟨rfl, rfl⟩ := h
      exact ⟨⟨hsome, by simp [h0]⟩, hinv⟩
    · simp only [h1] at h
      rcases symRel_range hrel with ⟨hr0, hr⟩ | ⟨r0, r, hr0, hr, hext⟩
      · have hb : s.isBus = false := by simp [Symbol.isBus, hr]
        simp only [hb, Bool.false_eq_true, if_false] at h
        cases h2 : findOneSource f ml self key with
        | error e => simp [h2] at h
        | ok y =>
          obtain ⟨r, mlA⟩ := y
          simp only [h2, Except.ok.injEq, Prod.mk.injEq] at h
          obtain ⟨rfl, rfl⟩ := h
          obtain ⟨hres, hinvA⟩ := findOneSource_sound f _ _ _ _ _ hinv h2
          exact ⟨⟨hsome, by simp only [h0, hr0]; exact ⟨r, hres, rfl⟩⟩, hinvA⟩
      · have hb : s.isBus = true := by simp [Symbol.isBus, hr]
        simp only [hb, if_true] at h
        have hinvB := inv_updRange hinv self key Range.resetpos resetpos_sameExtent
        have hsB := symAt_updRange_self h1 hr Range.resetpos
        obtain ⟨rs1, idxs, e1, hv, hall, hinv1⟩ :=
          findSourceLoop_sound self key f _ _ _ _ _ _ hinvB hsB rfl h
        simp only [List.nil_append] at e1
        subst e1
        refine ⟨⟨hsome, ?_⟩, hinv1⟩
        simp only [h0, hr0]
        rw [resetpos_congr hext] at hv
        exact ⟨idxs, hv, hall⟩

theorem findSource_complete {ml0 ml : ModuleList} {self key : String} {rs : List String}
    (hsem : SourceSem ml0 self key rs) (hinv : Inv ml0 ml) :
    ∃ f ml1, findSource f ml self key = .ok (rs, ml1) := by
  obtain ⟨hsome, hsem⟩ := hsem
  obtain ⟨this, hm⟩ := getModule_of_isSome (by rw [hinv.2.1 self]; exact hsome)
  unfold findSource
  simp only [hm]
  rw [← symAt_eq_of_getModule hm]
  rcases inv_symAt hinv self key with ⟨h0, h1⟩ | ⟨s0, s, h0, h1, hrel⟩
  · simp only [h0] at hsem
    subst hsem
    exact ⟨0, ml, by simp [h1]⟩
  · simp only [h0] at hsem
    simp only [h1]
    rcases symRel_range hrel with ⟨hr0, hr⟩ | ⟨r0, r, hr0, hr, hext⟩
    · have hb : s.isBus = false := by simp [Symbol.isBus, hr]
      simp only [hr0] at hsem
      obtain ⟨r, hres, rfl⟩ := hsem
      obtain ⟨f1, mlA, h2⟩ := (findOneSource_complete hres).1 ml hinv
      exact ⟨f1, mlA, by simp [hb, h2]⟩
    · have hb : s.isBus = true := by simp [Symbol.isBus, hr]
      simp only [hr0] at hsem
      obtain ⟨idxs, hv, hall⟩ := hsem
      rw [← resetpos_congr hext] at hv
      have hinvB := inv_updRange hinv self key Range.resetpos resetpos_sameExtent
      have hsB := symAt_updRange_self h1 hr Range.resetpos
      obtain ⟨f1, ml1, h2⟩ :=
        findSourceLoop_complete self key hv rs _ [] _ hall hinvB hsB rfl
      exact ⟨f1, ml1, by simpa [hb] using h2⟩


/-! ## Hierarchical paths -/

theorem findHierLoop_sound {ml0 : ModuleList} (f : Nat) (self i : String) :
    ∀ (subs : List String) (ml : ModuleList) (acc rs : List String) (ml1 : ModuleList),
      Inv ml0 ml → findHierLoop f self i ml subs acc = .ok (rs, ml1) →
      ∃ rs1, rs = acc ++ rs1 ∧
        List.Forall₂ (fun sub r => Resolves ml0 self (i ++ "/" ++ sub) r) subs rs1 ∧
        Inv ml0 ml1 := by
  intro subs
  induction subs with
  | nil =>
    intro ml acc rs ml1 hinv h
    simp only [findHierLoop, Except.ok.injEq, Prod.mk.injEq] at h
    obtain ⟨rfl, rfl⟩ := h
    exact ⟨[], by simp, List.Forall₂.nil, hinv⟩
  | cons sub rest ih =>
    intro ml acc rs ml1 hinv h
    rw [findHierLoop] at h
    cases h1 : findOneSource f ml self (i ++ "/" ++ sub) with
    | error e => simp [h1] at h
    | ok y =>
      obtain ⟨r, mlA⟩ := y
      simp only [h1] at h
      obtain ⟨hres, hinvA⟩ := findOneSource_sound f _ _ _ _ _ hinv h1
      obtain ⟨rs1, e1, hall, hinv1⟩ := ih _ _ _ _ hinvA h
      refine ⟨r :: rs1, ?_, List.Forall₂.cons hres hall, hinv1⟩
      rw [e1]; simp

theorem findHierLoop_complete {ml0 : ModuleList} (self i : String) :
    ∀ (subs rs1 : List String) (ml : ModuleList) (acc : List String),
      List.Forall₂ (fun sub r => Resolves ml0 self (i ++ "/" ++ sub) r) subs rs1 →
      Inv ml0 ml → ∃ f ml1, findHierLoop f self i ml subs acc = .ok (acc ++ rs1, ml1) := by
  intro subs
  induction subs with
  | nil =>
    intro rs1 ml acc hall _
    cases hall
    exact ⟨0, ml, by simp [findHierLoop]⟩
  | cons sub rest ih =>
    intro rs1 ml acc hall hinv
    cases hall with
    | @cons _ r _ rs2 hres hall2 =>
      obtain ⟨f1, mlA, h1⟩ := (findOneSource_complete hres).1 ml hinv
      obtain ⟨_, hinvA⟩ := findOneSource_sound f1 _ _ _ _ _ hinv h1
      obtain ⟨f2, ml1, h2⟩ := ih rs2 mlA (acc ++ [r]) hall2 hinvA
      refine ⟨max f1 f2, ml1, ?_⟩
      rw [findHierLoop, findOneSource_mono (Nat.le_max_left f1 f2) h1]
      simp only
      rw [findHierLoop_mono (Nat.le_max_right f1 f2) _ _ _ _ _ _ h2]
      simp

theorem findHierSource_sound {ml0 : ModuleList} (f : Nat) :
    ∀ (ml : ModuleList) (self key : String) (rs : List String) (ml1 : ModuleList),
      Inv ml0 ml → findHierSource f ml self key = .ok (rs, ml1) →
      HierSem ml0 self key rs ∧ Inv ml0 ml1 := by
  induction f with
  | zero => intro ml self key rs ml1 _ h; simp [findHierSource] at h
  | succ n ih =>
    intro ml self key rs ml1 hinv h
    rw [findHierSource] at h
    cases hf : find key '/' with
    | none =>
      simp only [hf] at h
      obtain ⟨hsem, hinv1⟩ := findSource_sound hinv h
      exact ⟨HierSem.flat hf hsem, hinv1⟩
    | some pos =>
      simp only [hf] at h
      rcases getModule_inv hinv self with ⟨e, ha, _⟩ | ⟨this, this0, ha, hb⟩
      · simp [ha] at h
      · simp only [ha, instModule_inv hinv hb ha] at h
        cases hi : instModule ml0 this0 (substrTo key pos) with
        | error e => simp [hi] at h
        | ok o =>
          cases o with
          | none =>
            simp only [hi, Except.ok.injEq, Prod.mk.injEq] at h
            obtain ⟨rfl, rfl⟩ := h
            exact ⟨HierSem.noInst hf hb hi, hinv⟩
          | some im =>
            simp only [hi] at h
            cases h1 : findHierSource n ml im (substrFrom key (pos + 1)) with
            | error e => simp [h1] at h
            | ok y =>
              obtain ⟨subs, mlA⟩ := y
              simp only [h1] at h
              obtain ⟨hsub, hinvA⟩ := ih _ _ _ _ _ hinv h1
              obtain ⟨rs1, e1, hall, hinv1⟩ := findHierLoop_sound n _ _ _ _ _ _ _ hinvA h
              simp only [List.nil_append] at e1
              subst e1
              exact ⟨HierSem.inst hf hb hi hsub hall, hinv1⟩

theorem findHierSource_complete {ml0 : ModuleList} {self key : String} {rs : List String}
    (hsem : HierSem ml0 self key rs) :
    ∀ ml, Inv ml0 ml → ∃ f ml1, findHierSource f ml self key = .ok (rs, ml1) := by
  induction hsem with
  | flat hf hsrc =>
    intro ml hinv
    obtain ⟨f1, ml1, h1⟩ := findSource_complete hsrc hinv
    exact ⟨f1 + 1, ml1, by rw [findHierSource]; simp only [hf]; exact h1⟩
  | @noInst self key this0 pos hf hb hi =>
    intro ml hinv
    rcases getModule_inv hinv self with ⟨e, _, hb2⟩ | ⟨this, this1, ha, hb2⟩
    · rw [hb] at hb2; simp at hb2
    · rw [hb] at hb2
      simp only [Except.ok.injEq] at hb2
      subst hb2
      refine ⟨1, ml, ?_⟩
      rw [findHierSource]
      simp only [hf, ha, instModule_inv hinv hb ha, hi]
  | @inst self key im this0 pos subs rs hf hb hi _ hall ih =>
    intro ml hinv
    rcases getModule_inv hinv self with ⟨e, _, hb2⟩ | ⟨this, this1, ha, hb2⟩
    · rw [hb] at hb2; simp at hb2
    · rw [hb] at hb2
      simp only [Except.ok.injEq] at hb2
      subst hb2
      obtain ⟨f1, mlA, h1⟩ := ih ml hinv
      obtain ⟨_, hinvA⟩ := findHierSource_sound f1 _ _ _ _ _ hinv h1
      obtain ⟨f2, ml1, h2⟩ := findHierLoop_complete self _ subs rs mlA [] hall hinvA
      refine ⟨max f1 f2 + 1, ml1, ?_⟩
      rw [findHierSource]
      simp only [hf, ha, instModule_inv hinv hb ha, hi]
      rw [findHierSource_mono (Nat.le_max_left f1 f2) h1]
      simp only
      rw [findHierLoop_mono (Nat.le_max_right f1 f2) _ _ _ _ _ _ h2]
      simp


/-! ## Passthrough, unknown instances and the module cache -/

/-- C7 (unknown-signal passthrough): for a key absent from the table of a module,
`Module::findOneSource` returns the key and `Module::findSource` returns the one-element
sequence holding the key, and both leave the registry as it was. -/
theorem unknown_signal_passthrough (ml : ModuleList) (self key : String) (this : Module)
    (hm : ml.getModule self = .ok this) (habs : lookup this.symbols key = none) (fuel : Nat) :
    findOneSource (fuel + 1) ml self key = .ok (key, ml) ∧
    findSource fuel ml self key = .ok ([key], ml) := by
  constructor
  · rw [findOneSource]; simp only [hm, habs]
  · unfold findSource; simp only [hm, habs]

theorem unknown_signal_passthrough_witness :
    findOneSource 1 oneNetList "top" "zz" = .ok ("zz", oneNetList) ∧
    findSource 0 oneNetList "top" "zz" = .ok (["zz"], oneNetList) :=
  unknown_signal_passthrough oneNetList "top" "zz"
    { symbols := [("a", netSym "a" "")], module := none } (by decide) (by decide) 0

theorem findHierSource_absent_instance (ml : ModuleList) (self key : String) (this : Module)
    (pos : Nat) (hf : find key '/' = some pos) (hm : ml.getModule self = .ok this)
    (habs : lookup this.symbols (substrTo key pos) = none) (fuel : Nat) :
    findHierSource (fuel + 1) ml self key = .error .derefEnd := by
  rw [findHierSource]
  simp only [hf, hm, instModule, habs]

/-- C8 (path leaving the known hierarchy), at the failing input: in a module whose table
has no symbol `x`, `Module::findHierSource` on `x/y` dereferences the `end()` iterator in
`Module::instModule`, whatever the fuel; it does not return the path. -/
theorem findHierSource_unknown_instance_faults :
    ∀ fuel, findHierSource (fuel + 1) oneNetList "top" "x/y" = .error .derefEnd :=
  findHierSource_absent_instance oneNetList "top" "x/y"
    { symbols := [("a", netSym "a" "")], module := none } 1 (by decide) (by decide) (by decide)


theorem createModule_caches (env : Env) (f : Nat) (ml ml1 : ModuleList) (name : String)
    (m : Option VerilogModule) (mod : Module)
    (h : createModule env f ml name m = .ok (mod, ml1)) : lookup ml1.modules name = some mod := by
  cases f with
  | zero => simp [createModule] at h
  | succ n =>
    rw [createModule] at h
    cases hl : lookup ml.modules name with
    | some cached =>
      simp only [hl, Except.ok.injEq, Prod.mk.injEq] at h
      obtain ⟨rfl, rfl⟩ := h
      exact hl
    | none =>
      simp only [hl] at h
      cases hp : processModule env n (createModule env n) ml m with
      | error e => simp [hp] at h
      | ok y =>
        obtain ⟨built, mlA⟩ := y
        simp only [hp] at h
        cases hl2 : lookup (insertNew mlA.modules name built) name with
        | none => simp [hl2] at h
        | some r =>
          simp only [hl2, Except.ok.injEq, Prod.mk.injEq] at h
          obtain ⟨rfl, rfl⟩ := h
          exact hl2

/-- C9 (idempotent construction): when the registry already caches a module under
`name`, `ModuleList::createModule` returns that module whatever parsed body it is handed
and leaves the registry unchanged, and so does a whole `Module::processModuleInst` of a
further instance of that type: the type is not built again. -/
theorem createModule_cached (env : Env) (ml : ModuleList) (name : String) (cached : Module)
    (h : lookup ml.modules name = some cached) :
    (∀ fuel m, createModule env (fuel + 1) ml name m = .ok (cached, ml)) ∧
    (∀ fuel fuel2 this instname pins this1 ml1,
      processModuleInst env fuel2 (createModule env (fuel + 1)) ml this instname name pins =
        .ok (this1, ml1) → ml1 = ml) := by
  have h1 : ∀ fuel m, createModule env (fuel + 1) ml name m = .ok (cached, ml) := by
    intro fuel m
    rw [createModule]
    simp only [h]
  refine ⟨h1, ?_⟩
  intro fuel fuel2 this instname pins this1 ml1 hp
  unfold processModuleInst at hp
  simp only [h1] at hp
  cases pins with
  | none =>
    simp only [Except.ok.injEq, Prod.mk.injEq] at hp
    exact hp.2.symm
  | some netSeq =>
    simp only at hp
    split at hp
    · simp at hp
    · simp only [Except.ok.injEq, Prod.mk.injEq] at hp
      exact hp.2.symm

theorem createModule_cached_witness :
    createModule plainEnv 1 oneNetList "top" (some bufTop) =
      .ok ({ symbols := [("a", netSym "a" "")], module := none }, oneNetList) :=
  (createModule_cached plainEnv oneNetList "top" { symbols := [("a", netSym "a" "")], module := none }
    (by decide)).1 0 (some bufTop)


theorem forall2_resolves_unique {ml : ModuleList} {self : String} {α : Type}
    (name : α → String) :
    ∀ (xs : List α) (rs1 rs2 : List String),
      List.Forall₂ (fun x r => Resolves ml self (name x) r) xs rs1 →
      List.Forall₂ (fun x r => Resolves ml self (name x) r) xs rs2 → rs1 = rs2 := by
  intro xs
  induction xs with
  | nil => intro rs1 rs2 h1 h2; cases h1; cases h2; rfl
  | cons x rest ih =>
    intro rs1 rs2 h1 h2
    cases h1 with
    | cons ha hb =>
      cases h2 with
      | cons hc hd =>
        rw [resolves_unique ha _ hc, ih _ _ hb hd]

theorem sourceSem_unique {ml : ModuleList} {self key : String} {rs1 rs2 : List String}
    (h1 : SourceSem ml self key rs1) (h2 : SourceSem ml self key rs2) : rs1 = rs2 := by
  obtain ⟨_, h1⟩ := h1
  obtain ⟨_, h2⟩ := h2
  cases hs : symAt ml self key with
  | none =>
    simp only [hs] at h1 h2
    rw [h1, h2]
  | some s =>
    simp only [hs] at h1 h2
    cases hr : s.range with
    | none =>
      simp only [hr] at h1 h2
      obtain ⟨r1, ha, rfl⟩ := h1
      obtain ⟨r2, hb, rfl⟩ := h2
      rw [resolves_unique ha _ hb]
    | some rg =>
      simp only [hr] at h1 h2
      obtain ⟨i1, hv1, ha⟩ := h1
      obtain ⟨i2, hv2, hb⟩ := h2
      rw [visits_unique hv2 hv1] at hb
      exact forall2_resolves_unique (fun idx => bitName key idx) _ _ _ ha hb

theorem hierSem_unique {ml : ModuleList} {self key : String} {rs1 : List String}
    (h1 : HierSem ml self key rs1) : ∀ rs2, HierSem ml self key rs2 → rs1 = rs2 := by
  induction h1 with
  | flat hf hsrc =>
    intro rs2 h2
    cases h2 with
    | flat _ hsrc2 => exact sourceSem_unique hsrc hsrc2
    | noInst hf2 _ _ => rw [hf] at hf2; simp at hf2
    | inst hf2 _ _ _ _ => rw [hf] at hf2; simp at hf2
  | noInst hf hm hi =>
    intro rs2 h2
    cases h2 with
    | flat hf2 _ => rw [hf] at hf2; simp at hf2
    | noInst _ _ _ => rfl
    | inst hf2 hm2 hi2 _ _ =>
      rw [hf] at hf2
      simp only [Option.some.injEq] at hf2
      subst hf2
      rw [hm] at hm2
      simp only [Except.ok.injEq] at hm2
      subst hm2
      rw [hi] at hi2
      simp at hi2
  | inst hf hm hi _ hall ih =>
    intro rs2 h2
    cases h2 with
    | flat hf2 _ => rw [hf] at hf2; simp at hf2
    | noInst hf2 hm2 hi2 =>
      rw [hf] at hf2
      simp only [Option.some.injEq] at hf2
      subst hf2
      rw [hm] at hm2
      simp only [Except.ok.injEq] at hm2
      subst hm2
      rw [hi] at hi2
      simp at hi2
    | inst hf2 hm2 hi2 hsub2 hall2 =>
      rw [hf] at hf2
      simp only [Option.some.injEq] at hf2
      subst hf2
      rw [hm] at hm2
      simp only [Except.ok.injEq] at hm2
      subst hm2
      rw [hi] at hi2
      simp only [Except.ok.injEq, Option.some.injEq] at hi2
      subst hi2
      have := ih _ hsub2
      subst this
      exact forall2_resolves_unique (fun sub => _ ++ "/" ++ sub) _ _ _ hall hall2

/-- The registry root query in terms of `Module::findHierSource`. -/
theorem listFindSource_ok {ml ml1 : ModuleList} {f : Nat} {path : String} {rs : List String}
    (h : ml.findSource f path = .ok (rs, ml1)) :
    ∃ res, findHierSource f ml ml.rootModule path = .ok (res, ml1) ∧
      rs = (if res.length = 0 then res ++ [path] else res) ∧
      (lookup ml.modules ml.rootModule).isSome = true := by
  unfold ModuleList.findSource at h
  cases hm : ml.getModule ml.rootModule with
  | error e => simp [hm] at h
  | ok this =>
    simp only [hm] at h
    cases h1 : findHierSource f ml ml.rootModule path with
    | error e => simp [h1] at h
    | ok y =>
      obtain ⟨res, mlA⟩ := y
      simp only [h1] at h
      refine ⟨res, ?_, ?_, getModule_isSome hm⟩
      · split at h <;> simp only [Except.ok.injEq, Prod.mk.injEq] at h <;> rw [h.2]
      · split at h <;> simp only [Except.ok.injEq, Prod.mk.injEq] at h
        · rename_i hz; simp only [hz, if_true]; exact h.1.symm
        · rename_i hz; simp only [hz, if_false]; exact h.1.symm

theorem listFindSource_of_hier {ml ml1 : ModuleList} {f : Nat} {path : String}
    {res : List String} (hroot : (lookup ml.modules ml.rootModule).isSome = true)
    (h : findHierSource f ml ml.rootModule path = .ok (res, ml1)) :
    ml.findSource f path = .ok (if res.length = 0 then res ++ [path] else res, ml1) := by
  obtain ⟨this, hm⟩ := getModule_of_isSome hroot
  unfold ModuleList.findSource
  simp only [hm, h]
  split <;> rfl

/-! ## Determinism, bus expansion, non-empty results -/

/-- C1 (determinism): whenever `ModuleList::findSource(path)` returns a sequence, a
second call on the registry the first call left behind returns as well, and returns the
same sequence, for scalar, bus and hierarchical paths alike. -/
theorem findSource_twice_same (ml ml1 : ModuleList) (path : String) (fuel : Nat)
    (rs : List String) (h : ml.findSource fuel path = .ok (rs, ml1)) :
    (∃ fuel2 ml2, ml1.findSource fuel2 path = .ok (rs, ml2)) ∧
    (∀ fuel2 rs2 ml2, ml1.findSource fuel2 path = .ok (rs2, ml2) → rs2 = rs) := by
  obtain ⟨res, hh, hrs, hroot⟩ := listFindSource_ok h
  obtain ⟨hsem, hinv⟩ := findHierSource_sound fuel _ _ _ _ _ (inv_refl ml) hh
  have hr1 : ml1.rootModule = ml.rootModule := hinv.1
  have hroot1 : (lookup ml1.modules ml1.rootModule).isSome = true := by
    rw [hr1, hinv.2.1]; exact hroot
  constructor
  · obtain ⟨f2, ml2, h2⟩ := findHierSource_complete hsem ml1 hinv
    rw [← hr1] at h2
    exact ⟨f2, ml2, by rw [listFindSource_of_hier hroot1 h2, hrs]⟩
  · intro f2 rs2 ml2 h2
    obtain ⟨res2, hh2, hrs2, _⟩ := listFindSource_ok h2
    rw [hr1] at hh2
    obtain ⟨hsem2, _⟩ := findHierSource_sound f2 _ _ _ _ _ hinv hh2
    have := hierSem_unique hsem _ hsem2
    subst this
    rw [hrs, hrs2]


theorem findSource_twice_same_witness :
    ∃ rs ml1, demoList.findSource 10 "b" = .ok (rs, ml1) ∧
      (∃ fuel2 ml2, ml1.findSource fuel2 "b" = .ok (rs, ml2)) ∧ rs = ["u/q", "a"] := by
  have hok : (demoList.findSource 10 "b").map Prod.fst = .ok ["u/q", "a"] := by decide
  cases h : demoList.findSource 10 "b" with
  | error e => rw [h] at hok; simp [Except.map] at hok
  | ok x =>
    obtain ⟨rs, ml1⟩ := x
    rw [h] at hok
    simp only [Except.map, Except.ok.injEq] at hok
    exact ⟨rs, ml1, rfl, (findSource_twice_same demoList ml1 "b" 10 rs h).1, hok⟩


theorem isSome_of_symAt {ml : ModuleList} {self key : String} {s : Symbol}
    (hs : symAt ml self key = some s) : (lookup ml.modules self).isSome = true := by
  unfold symAt at hs
  cases hl : lookup ml.modules self with
  | none => simp [hl] at hs
  | some m => rfl

theorem bits_eq (r : Range) (hwf : r.isIncr = decide (r.right > r.left)) :
    r.bits = (List.range r.width).map r.bitAt := by
  unfold Range.bits Range.rest Range.resetpos Range.width
  by_cases h : r.right > r.left
  · have e : (r.right - r.left + 1).toNat = (r.left - r.right).natAbs + 1 := by omega
    simp only [hwf, h, decide_True, if_true, e]
    apply List.map_congr_left
    intro i _
    simp [Range.bitAt, h]
  · have e : (r.left - r.right + 1).toNat = (r.left - r.right).natAbs + 1 := by omega
    simp only [hwf, h, decide_False, Bool.false_eq_true, if_false, e]
    apply List.map_congr_left
    intro i _
    simp [Range.bitAt, h]

theorem exists_forall2_of_forall {α : Type} (P : α → String → Prop) :
    ∀ (xs : List α), (∀ x ∈ xs, ∃ r, P x r) → ∃ rs, List.Forall₂ P xs rs := by
  intro xs
  induction xs with
  | nil => intro _; exact ⟨[], List.Forall₂.nil⟩
  | cons x rest ih =>
    intro h
    obtain ⟨r, hr⟩ := h x (List.mem_cons_self _ _)
    obtain ⟨rs, hrs⟩ := ih (fun y hy => h y (List.mem_cons_of_mem _ hy))
    exact ⟨r :: rs, List.Forall₂.cons hr hrs⟩

theorem hasNext_resetpos (r : Range) (hwf : r.isIncr = decide (r.right > r.left)) :
    r.resetpos.hasNext = true := by
  unfold Range.hasNext Range.resetpos
  by_cases h : r.right > r.left
  · simp only [hwf, h, decide_True, if_true, decide_eq_true_eq]
    omega
  · simp only [hwf, h, decide_False, Bool.false_eq_true, if_false, decide_eq_true_eq]
    omega

theorem visits_bits {r : Range} (hwf : r.isIncr = decide (r.right > r.left))
    (hl : isInt r.left) {idxs : List Int} (hv : r.resetpos.Visits idxs) : idxs = r.bits := by
  have hns := stuck_not_visits hv
  have hruns : r.resetpos.runs := by
    refine ⟨hl, ?_⟩
    show if r.isIncr then r.right < intMax else intMin < r.right
    by_cases hi : r.isIncr = true
    · simp only [hi, if_true]
      by_contra hc
      exact hns ⟨hasNext_resetpos r hwf, by
        show if r.isIncr then intMax ≤ r.right else r.right ≤ intMin
        simp only [hi, if_true]; omega⟩
    · simp only [hi, Bool.false_eq_true, if_false]
      by_contra hc
      exact hns ⟨hasNext_resetpos r hwf, by
        show if r.isIncr then intMax ≤ r.right else r.right ≤ intMin
        simp only [hi, Bool.false_eq_true, if_false]; omega⟩
  exact visits_unique hv (visits_rest _ hruns)

/-- C2 amended (bus expansion order and count): for a key whose entry carries a range
`[left:right]` with `left` an `int` and the direction flag the constructor
`Range(f, t)` computes, every sequence `Module::findSource` returns has
`|left - right| + 1` elements and its `i`-th element is what `Module::findOneSource`
returns for `key[idx_i]`, `idx_i` being the `i`-th index from `left` towards `right`.
When the step past `right` does not overflow (`right < INT_MAX` for an ascending range,
`INT_MIN < right` otherwise) it does return as soon as the query on each bit returns;
when that step overflows it returns for no fuel.  For a scalar key it returns the
one-element sequence holding the result of `Module::findOneSource`. -/
theorem findSource_bus_expansion (ml : ModuleList) (self key : String) (sym : Symbol)
    (hs : symAt ml self key = some sym) :
    (sym.range = none → ∀ fuel, findSource fuel ml self key =
      match findOneSource fuel ml self key with
      | .error e => .error e
      | .ok (r, ml1) => .ok ([r], ml1)) ∧
    (∀ range, sym.range = some range → range.isIncr = decide (range.right > range.left) →
      isInt range.left →
      (∀ fuel rs ml1, findSource fuel ml self key = .ok (rs, ml1) →
        rs.length = (range.left - range.right).natAbs + 1 ∧
        ∀ i (hi : i < rs.length), ∃ fuel2 ml2,
          findOneSource fuel2 ml self (bitName key (range.bitAt i)) = .ok (rs[i], ml2)) ∧
      ((if range.right > range.left then range.right < intMax else intMin < range.right) →
        (∀ i, i < range.width → ∃ fuel2 r ml2,
          findOneSource fuel2 ml self (bitName key (range.bitAt i)) = .ok (r, ml2)) →
        ∃ fuel rs ml1, findSource fuel ml self key = .ok (rs, ml1)) ∧
      (¬ (if range.right > range.left then range.right < intMax else intMin < range.right) →
        ∀ fuel rs ml1, findSource fuel ml self key ≠ .ok (rs, ml1))) := by
  constructor
  · intro hr fuel
    obtain ⟨this, hm⟩ := getModule_of_isSome (isSome_of_symAt hs)
    have hb : sym.isBus = false := by simp [Symbol.isBus, hr]
    unfold findSource
    simp only [hm]
    rw [← symAt_eq_of_getModule hm, hs]
    simp only [hb, Bool.false_eq_true, if_false]
  · intro range hr hwf hl
    refine ⟨?_, ?_, ?_⟩
    · intro fuel rs ml1 h
      obtain ⟨⟨_, hsem⟩, _⟩ := findSource_sound (inv_refl ml) h
      simp only [hs, hr] at hsem
      obtain ⟨idxs, hv, hsem⟩ := hsem
      rw [visits_bits hwf hl hv, bits_eq range hwf, List.forall₂_map_left_iff,
        List.forall₂_iff_get] at hsem
      obtain ⟨hlen, hget⟩ := hsem
      simp only [List.length_range] at hlen
      refine ⟨hlen.symm, fun i hi => ?_⟩
      have hi1 : i < (List.range range.width).length := by
        simp only [List.length_range]; rw [hlen]; exact hi
      have := hget i hi1 hi
      simp only [List.get_eq_getElem, List.getElem_range] at this
      exact (findOneSource_complete this).1 ml (inv_refl ml)
    · intro hno hbits
      have hall : ∀ idx ∈ range.bits, ∃ r, Resolves ml self (bitName key idx) r := by
        intro idx hidx
        rw [bits_eq range hwf, List.mem_map] at hidx
        obtain ⟨i, hi, rfl⟩ := hidx
        obtain ⟨f2, r, ml2, h2⟩ := hbits i (List.mem_range.mp hi)
        exact ⟨r, (findOneSource_sound f2 _ _ _ _ _ (inv_refl ml) h2).1⟩
      obtain ⟨rs, hrs⟩ := exists_forall2_of_forall _ _ hall
      have hruns : range.resetpos.runs := by
        refine ⟨hl, ?_⟩
        show if range.isIncr then range.right < intMax else intMin < range.right
        rw [hwf]
        by_cases hgt : range.right > range.left
        · simpa only [hgt, decide_True, if_true] using hno
        · simpa only [hgt, decide_False, Bool.false_eq_true, if_false] using hno
      have hsem : SourceSem ml self key rs :=
        ⟨isSome_of_symAt hs, by
          simp only [hs, hr]; exact ⟨range.bits, visits_rest _ hruns, hrs⟩⟩
      obtain ⟨f, ml1, h⟩ := findSource_complete hsem (inv_refl ml)
      exact ⟨f, rs, ml1, h⟩
    · intro hno fuel rs ml1 h
      obtain ⟨⟨_, hsem⟩, _⟩ := findSource_sound (inv_refl ml) h
      simp only [hs, hr] at hsem
      obtain ⟨idxs, hv, _⟩ := hsem
      refine stuck_not_visits hv ⟨hasNext_resetpos range hwf, ?_⟩
      show if range.isIncr then intMax ≤ range.right else range.right ≤ intMin
      rw [hwf]
      by_cases hgt : range.right > range.left
      · simp only [hgt, decide_True, if_true] at hno ⊢
        omega
      · simp only [hgt, decide_False, Bool.false_eq_true, if_false] at hno ⊢
        omega

theorem findSource_bus_expansion_witness :
    ∃ rs ml1, findSource 12 busList "top" "d" = .ok (rs, ml1) ∧ rs.length = 8 ∧
      rs = ["hi", "d[6]", "d[5]", "d[4]", "d[3]", "d[2]", "d[1]", "lo"] := by
  have hok : (findSource 12 busList "top" "d").map Prod.fst =
      .ok ["hi", "d[6]", "d[5]", "d[4]", "d[3]", "d[2]", "d[1]", "lo"] := by decide
  cases h : findSource 12 busList "top" "d" with
  | error e => rw [h] at hok; simp [Except.map] at hok
  | ok x =>
    obtain ⟨rs, ml1⟩ := x
    rw [h] at hok
    simp only [Except.map, Except.ok.injEq] at hok
    exact ⟨rs, ml1, rfl,
      ((findSource_bus_expansion busList "top" "d" (busSym "d" 7 0) (by decide)).2
        (Range.ofBounds 7 0) (by decide) (by decide) (by decide)).1 12 rs ml1 h
        |>.1, hok⟩


theorem lookup_mem {β : Type} : ∀ (l : List (String × β)) (k : String) (v : β),
    lookup l k = some v → (k, v) ∈ l := by
  intro l
  induction l with
  | nil => intro k v h; simp [lookup] at h
  | cons hd tl ih =>
    intro k v h
    obtain ⟨k1, v1⟩ := hd
    by_cases hk : k1 = k
    · simp only [lookup, hk, if_true, Option.some.injEq] at h
      subst hk; subst h
      exact List.mem_cons_self _ _
    · simp only [lookup, hk, if_false] at h
      exact List.mem_cons_of_mem _ (ih k v h)

theorem rangesWF_symAt {ml : ModuleList} (hwf : RangesWF ml) {self key : String} {sym : Symbol}
    {range : Range} (hs : symAt ml self key = some sym) (hr : sym.range = some range) :
    range.isIncr = decide (range.right > range.left) := by
  unfold symAt at hs
  cases hl : lookup ml.modules self with
  | none => simp [hl] at hs
  | some m =>
    simp only [hl] at hs
    have h1 := hwf _ (lookup_mem _ _ _ hl) _ (lookup_mem _ _ _ hs)
    simpa [Symbol.rangeWF, hr] using h1

theorem hierSem_nonempty {ml : ModuleList} (hwf : RangesWF ml) {self key : String}
    {rs : List String} (h : HierSem ml self key rs) : rs ≠ [] := by
  induction h with
  | @flat self key rs hf hsrc =>
    obtain ⟨_, hsem⟩ := hsrc
    cases hs : symAt ml self key with
    | none => simp only [hs] at hsem; rw [hsem]; simp
    | some s =>
      simp only [hs] at hsem
      cases hr : s.range with
      | none =>
        simp only [hr] at hsem
        obtain ⟨r, _, rfl⟩ := hsem
        simp
      | some rg =>
        simp only [hr] at hsem
        obtain ⟨idxs, hv, hall⟩ := hsem
        intro hnil
        subst hnil
        cases hall
        cases hv with
        | stop hn =>
          rw [hasNext_resetpos rg (rangesWF_symAt hwf hs hr)] at hn
          cases hn
  | noInst _ _ _ => simp
  | inst _ _ _ _ hall ih =>
    intro hnil
    subst hnil
    cases hall with
    | nil => exact ih rfl

/-- C10 (resolution never yields nothing): in a registry whose ranges have the direction
their bounds give them, every sequence `Module::findHierSource` returns is non-empty, so
`ModuleList::findSource` returns exactly what `Module::findHierSource` returned for the
root module and never falls back to pushing the path. -/
theorem findSource_nonempty (ml : ModuleList) (hwf : RangesWF ml) (path : String) :
    (∀ self fuel rs ml1, findHierSource fuel ml self path = .ok (rs, ml1) → rs ≠ []) ∧
    (∀ fuel rs ml1, ml.findSource fuel path = .ok (rs, ml1) →
      rs ≠ [] ∧ findHierSource fuel ml ml.rootModule path = .ok (rs, ml1)) := by
  have h1 : ∀ self fuel rs ml1, findHierSource fuel ml self path = .ok (rs, ml1) → rs ≠ [] := by
    intro self fuel rs ml1 h
    exact hierSem_nonempty hwf (findHierSource_sound fuel _ _ _ _ _ (inv_refl ml) h).1
  refine ⟨h1, ?_⟩
  intro fuel rs ml1 h
  obtain ⟨res, hh, hrs, _⟩ := listFindSource_ok h
  have hne := h1 _ _ _ _ hh
  have hlen : ¬ res.length = 0 := fun hz => hne (List.length_eq_zero.mp hz)
  simp only [hlen, if_false] at hrs
  subst hrs
  exact ⟨hne, hh⟩

theorem findSource_nonempty_witness :
    ∃ rs ml1, demoList.findSource 10 "b" = .ok (rs, ml1) ∧ rs ≠ [] ∧
      findHierSource 10 demoList "top" "b" = .ok (rs, ml1) := by
  have hok : (demoList.findSource 10 "b").map Prod.fst = .ok ["u/q", "a"] := by decide
  cases h : demoList.findSource 10 "b" with
  | error e => rw [h] at hok; simp [Except.map] at hok
  | ok x =>
    obtain ⟨rs, ml1⟩ := x
    have h2 := (findSource_nonempty demoList (by decide) "b").2 10 rs ml1 h
    exact ⟨rs, ml1, rfl, h2.1, h2.2⟩


/-! ## Terminal keys -/

theorem listFindSource_unique {ml ml1 ml2 : ModuleList} {path : String} {f g : Nat}
    {rs1 rs2 : List String} (h1 : ml.findSource f path = .ok (rs1, ml1))
    (h2 : ml.findSource g path = .ok (rs2, ml2)) : rs1 = rs2 := by
  have a := listFindSource_mono (Nat.le_max_left f g) h1
  have b := listFindSource_mono (Nat.le_max_right f g) h2
  rw [a] at b
  simp only [Except.ok.injEq, Prod.mk.injEq] at b
  exact b.1

/-- C6 as stated fails: in the registry built from `escTop`, the root entry `u/p` is a
scalar whose `src` is `u/p` itself, yet `ModuleList::findSource` on `u/p` descends into
the instance `u` and returns `u/q`, never `[u/p]`. -/
theorem terminal_stability_fails_on_pin_path :
    buildReturns escEnv "top" escTop = true ∧
    (symAt (builtList escEnv "top" escTop) "top" "u/p").map (fun s => (s.isBus, s.src)) =
      some (false, "u/p") ∧
    ((builtList escEnv "top" escTop).findSource 10 "u/p").map Prod.fst = .ok ["u/q"] ∧
    ¬ ∃ fuel ml1, (builtList escEnv "top" escTop).findSource fuel "u/p" = .ok (["u/p"], ml1) := by
  have h3 : ((builtList escEnv "top" escTop).findSource 10 "u/p").map Prod.fst = .ok ["u/q"] := by
    decide
  refine ⟨by decide, by decide, h3, ?_⟩
  rintro ⟨fuel, ml1, h⟩
  cases h10 : (builtList escEnv "top" escTop).findSource 10 "u/p" with
  | error e => rw [h10] at h3; simp [Except.map] at h3
  | ok x =>
    obtain ⟨rs, ml2⟩ := x
    rw [h10] at h3
    simp only [Except.map, Except.ok.injEq] at h3
    have := listFindSource_unique h h10
    rw [h3] at this
    simp at this

/-! ## Composed names -/

theorem toList_compose (u p : String) : (u ++ "/" ++ p).toList = u.toList ++ '/' :: p.toList := by
  show (u ++ "/" ++ p).data = u.data ++ '/' :: p.data
  rw [String.data_append, String.data_append]
  simp

theorem listFindSource_iff {ml : ModuleList} {path : String} {rs : List String}
    (hroot : (lookup ml.modules ml.rootModule).isSome = true) :
    (∃ f ml1, ml.findSource f path = .ok (rs, ml1)) ↔
    ∃ res, HierSem ml ml.rootModule path res ∧
      rs = (if res.length = 0 then res ++ [path] else res) := by
  constructor
  · rintro ⟨f, ml1, h⟩
    obtain ⟨res, hh, hrs, _⟩ := listFindSource_ok h
    exact ⟨res, (findHierSource_sound f _ _ _ _ _ (inv_refl ml) hh).1, hrs⟩
  · rintro ⟨res, hsem, hrs⟩
    obtain ⟨f, ml1, h⟩ := findHierSource_complete hsem ml (inv_refl ml)
    exact ⟨f, ml1, by rw [listFindSource_of_hier hroot h, hrs]⟩

theorem listFindSource_all_fuel {ml : ModuleList} {path : String} {g : Nat} {rs0 : List String}
    (h0 : (ml.findSource g path).map Prod.fst = .ok rs0) :
    ∀ fuel rs ml1, ml.findSource fuel path = .ok (rs, ml1) → rs = rs0 := by
  intro fuel rs ml1 h
  cases hg : ml.findSource g path with
  | error e => rw [hg] at h0; simp [Except.map] at h0
  | ok x =>
    obtain ⟨rs2, ml2⟩ := x
    rw [hg] at h0
    simp only [Except.map, Except.ok.injEq] at h0
    rw [← h0]
    exact listFindSource_unique h hg

/-- C4 as stated fails: in the registry built for scenario 3, `ModuleList::findSource`
on `u1/u2/i` never returns `[net5]`. -/
theorem leaf_pin_query_not_net5 :
    buildReturns hierEnv "top" hierTop = true ∧
    ¬ ∃ fuel ml1,
      (builtList hierEnv "top" hierTop).findSource fuel "u1/u2/i" = .ok (["net5"], ml1) := by
  refine ⟨by decide, ?_⟩
  rintro ⟨fuel, ml1, h⟩
  have h3 : ((builtList hierEnv "top" hierTop).findSource 10 "u1/u2/i").map Prod.fst =
      .ok ["u1/u2/i"] := by decide
  have := listFindSource_all_fuel h3 _ _ _ h
  simp at this

/-- C4 amended: in the registry built for scenario 3 (`top` instantiates `u1` of `AND2`,
`AND2` instantiates `u2` of the primitive cell `INV` with pin `i` on `x`, and `u1/x` is
connected to the primary input `net5`), `ModuleList::findSource` on `u1/u2/i` returns the
path itself: the descent stops at `u2`, whose entry has an empty module name.  The pin
`u1/x` resolves to `net5`, and inside `AND2` the pin `u2/i` resolves to `x`. -/
theorem leaf_pin_query_returns_path :
    buildReturns hierEnv "top" hierTop = true ∧
    ((builtList hierEnv "top" hierTop).findSource 10 "u1/u2/i").map Prod.fst =
      .ok ["u1/u2/i"] ∧
    (∀ fuel rs ml1, (builtList hierEnv "top" hierTop).findSource fuel "u1/u2/i" =
      .ok (rs, ml1) → rs = ["u1/u2/i"]) ∧
    ((builtList hierEnv "top" hierTop).findSource 10 "u1/x").map Prod.fst = .ok ["net5"] ∧
    (findOneSource 10 (builtList hierEnv "top" hierTop) "AND2" "u2/i").map Prod.fst =
      .ok "x" := by
  have h3 : ((builtList hierEnv "top" hierTop).findSource 10 "u1/u2/i").map Prod.fst =
      .ok ["u1/u2/i"] := by decide
  exact ⟨by decide, h3, listFindSource_all_fuel h3, by decide, by decide⟩

/-- C5 as stated fails: in the registry built for scenario 1, `ModuleList::findSource`
on `q` never returns `[clk]`. -/
theorem buffer_query_not_clk :
    buildReturns plainEnv "top" bufTop = true ∧
    ¬ ∃ fuel ml1, (builtList plainEnv "top" bufTop).findSource fuel "q" = .ok (["clk"], ml1) := by
  refine ⟨by decide, ?_⟩
  rintro ⟨fuel, ml1, h⟩
  have h3 : ((builtList plainEnv "top" bufTop).findSource 10 "q").map Prod.fst =
      .ok ["u1/o"] := by decide
  have := listFindSource_all_fuel h3 _ _ _ h
  simp at this

/-- C5 amended: in the registry built for scenario 1 (input `clk`, wire `q`, instance
`u1` of the primitive cell `BUF` with `i` on `clk` and `o` on `q`),
`ModuleList::findSource` on `q` returns `[u1/o]`, the output pin of the cell: the entry
`u1/o` has an empty `src`, no driver edge leads from it to `u1/i`, whose own source
(`Module::findOneSource`) is `clk`. -/
theorem buffer_query_returns_output_pin :
    buildReturns plainEnv "top" bufTop = true ∧
    ((builtList plainEnv "top" bufTop).findSource 10 "q").map Prod.fst = .ok ["u1/o"] ∧
    (∀ fuel rs ml1, (builtList plainEnv "top" bufTop).findSource fuel "q" = .ok (rs, ml1) →
      rs = ["u1/o"]) ∧
    (findOneSource 10 (builtList plainEnv "top" bufTop) "top" "u1/i").map Prod.fst =
      .ok "clk" ∧
    (symAt (builtList plainEnv "top" bufTop) "top" "u1/o").map Symbol.src = some "" := by
  have h3 : ((builtList plainEnv "top" bufTop).findSource 10 "q").map Prod.fst =
      .ok ["u1/o"] := by decide
  exact ⟨by decide, h3, listFindSource_all_fuel h3, by decide, by decide⟩


/-! ## Ranges built by the constructor -/

theorem mem_modify {β : Type} (f : β → β) : ∀ (l : List (String × β)) (k : String)
    (e : String × β), e ∈ modify f l k → ∃ e0 ∈ l, e = e0 ∨ e = (e0.1, f e0.2) := by
  intro l
  induction l with
  | nil => intro k e h; simp [modify] at h
  | cons hd tl ih =>
    intro k e h
    obtain ⟨k1, v⟩ := hd
    by_cases hk : k1 = k
    · simp only [modify, hk, if_true, List.mem_cons] at h
      rcases h with h | h
      · exact ⟨(k1, v), List.mem_cons_self _ _, Or.inr (by rw [h, hk])⟩
      · exact ⟨e, List.mem_cons_of_mem _ h, Or.inl rfl⟩
    · simp only [modify, hk, if_false, List.mem_cons] at h
      rcases h with h | h
      · exact ⟨(k1, v), List.mem_cons_self _ _, Or.inl h⟩
      · obtain ⟨e0, h0, h1⟩ := ih k e h
        exact ⟨e0, List.mem_cons_of_mem _ h0, h1⟩

theorem mem_insertNew {β : Type} (l : List (String × β)) (k : String) (v : β)
    (e : String × β) (h : e ∈ insertNew l k v) : e ∈ l ∨ e = (k, v) := by
  unfold insertNew at h
  cases hl : lookup l k with
  | some w => simp only [hl] at h; exact Or.inl h
  | none =>
    simp only [hl, List.mem_append, List.mem_singleton] at h
    exact h

theorem symsWF_modify {syms : Symbols} (h : SymsWF syms) (f : Symbol → Symbol)
    (hf : ∀ s, s.rangeWF = true → (f s).rangeWF = true) (k : String) :
    SymsWF (modify f syms k) := by
  intro e he
  obtain ⟨e0, h0, h1⟩ := mem_modify f syms k e he
  rcases h1 with h1 | h1
  · rw [h1]; exact h e0 h0
  · rw [h1]; exact hf _ (h e0 h0)

theorem symsWF_insertNew {syms : Symbols} (h : SymsWF syms) (k : String) :
    SymsWF (insertNew syms k Symbol.new) := by
  intro e he
  rcases mem_insertNew syms k _ e he with h1 | h1
  · exact h e h1
  · rw [h1]; rfl

theorem addInstSymbol_wf (env : Env) {this : Module} (h : SymsWF this.symbols)
    (instname modname : String) : SymsWF (addInstSymbol env this instname modname).symbols := by
  unfold addInstSymbol
  refine symsWF_modify (symsWF_insertNew h _) _ ?_ _
  intro s hs; exact hs

theorem addNetSymbol_wf (env : Env) {this : Module} (h : SymsWF this.symbols)
    (netname : String) (isPort : Bool) :
    SymsWF (addNetSymbol env this netname isPort).symbols := by
  unfold addNetSymbol
  refine symsWF_modify (symsWF_insertNew h _) _ ?_ _
  intro s hs; exact hs

theorem addBusSymbol_wf (env : Env) {this : Module} (h : SymsWF this.symbols)
    (netname : String) (isPort : Bool) (left right : Int) :
    SymsWF (addBusSymbol env this netname isPort left right).symbols := by
  unfold addBusSymbol
  cases lookup this.symbols netname with
  | some s => exact h
  | none =>
    refine symsWF_modify (symsWF_insertNew h _) _ (fun _ _ => ?_) _
    simp [Symbol.rangeWF, Range.ofBounds]

theorem addConnection_wf (env : Env) {this this1 : Module} (h : SymsWF this.symbols)
    {src dst : String} (hc : addConnection env this src dst = .ok this1) :
    SymsWF this1.symbols := by
  unfold addConnection at hc
  cases hl : lookup this.symbols (env.nameRegulation dst) with
  | none => simp [hl] at hc
  | some s =>
    simp only [hl, Except.ok.injEq] at hc
    rw [← hc]
    refine symsWF_modify h _ ?_ _
    intro s hs; exact hs

theorem addNetAndConn_wf (env : Env) {this this1 : Module} (h : SymsWF this.symbols)
    {instport connexpr : String} {isInput : Bool}
    (hc : addNetAndConn env this instport connexpr isInput = .ok this1) :
    SymsWF this1.symbols := by
  unfold addNetAndConn at hc
  have h2 := addNetSymbol_wf env (addNetSymbol_wf env h instport false) connexpr false
  split at hc
  · exact addConnection_wf env h2 hc
  · exact addConnection_wf env h2 hc

theorem addNetAssign_wf (env : Env) {this this1 : Module} (h : SymsWF this.symbols)
    {lhs rhs : String} (hc : addNetAssign env this lhs rhs = .ok this1) :
    SymsWF this1.symbols :=
  addConnection_wf env (addNetSymbol_wf env (addNetSymbol_wf env h lhs false) rhs false) hc


theorem connectPinLoop_wf (env : Env) (instport connexpr : String) (isInput : Bool) (f : Nat) :
    ∀ (this this1 : Module) (pr nr : Range), SymsWF this.symbols →
      connectPinLoop env instport connexpr isInput f this pr nr = .ok this1 →
      SymsWF this1.symbols := by
  induction f with
  | zero => intro this this1 pr nr _ h; simp [connectPinLoop] at h
  | succ n ih =>
    intro this this1 pr nr hwf h
    rw [connectPinLoop] at h
    split at h
    · cases h1 : addNetAndConn env this (bitName instport pr.curpos) (bitName connexpr nr.curpos)
          isInput with
      | error e => simp [h1] at h
      | ok thisA =>
        simp only [h1] at h
        exact ih _ _ _ _ (addNetAndConn_wf env hwf h1) h
    · simp only [Except.ok.injEq] at h
      rw [← h]; exact hwf

theorem connectPin_wf (env : Env) (f : Nat) {this this1 : Module} (hwf : SymsWF this.symbols)
    {instname name netName : String} {submod : Module}
    (h : connectPin env f this instname name netName submod = .ok this1) :
    SymsWF this1.symbols := by
  unfold connectPin at h
  split at h
  · simp at h
  · split at h
    · simp at h
    · split at h
      · simp at h
      · split at h
        · exact addNetAndConn_wf env hwf h
        · split at h
          · simp at h
          · split at h
            · split at h
              · simp at h
              · exact connectPinLoop_wf env _ _ _ f _ _ _ _
                  (addBusSymbol_wf env (addBusSymbol_wf env hwf _ _ _ _) _ _ _ _) h
            · exact addNetAndConn_wf env
                (addNetSymbol_wf env (addBusSymbol_wf env hwf _ _ _ _) _ _) h

theorem connectBusLoop_wf (env : Env) (instname : String) (isInput : Bool) :
    ∀ (nets members : List String) (this this1 : Module), SymsWF this.symbols →
      connectBusLoop env instname isInput this nets members = .ok this1 →
      SymsWF this1.symbols := by
  intro nets
  induction nets with
  | nil =>
    intro members this this1 hwf h
    simp only [connectBusLoop, Except.ok.injEq] at h
    rw [← h]; exact hwf
  | cons netname rest ih =>
    intro members this this1 hwf h
    cases members with
    | nil => simp [connectBusLoop] at h
    | cons member ms =>
      rw [connectBusLoop] at h
      cases h1 : addNetAndConn env this (instname ++ "/" ++ member) netname isInput with
      | error e => simp [h1] at h
      | ok thisA =>
        simp only [h1] at h
        exact ih _ _ _ (addNetAndConn_wf env hwf h1) h

theorem connectBus_wf (env : Env) {this this1 : Module} (hwf : SymsWF this.symbols)
    {instname name cell : String} {netNames : List String} {submod : Module}
    (h : connectBus env this instname name netNames submod cell = .ok this1) :
    SymsWF this1.symbols := by
  unfold connectBus at h
  split at h
  · simp at h
  · split at h
    · simp at h
    · split at h
      · split at h
        · simp at h
        · exact addNetAndConn_wf env hwf h
      · exact connectBusLoop_wf env _ _ _ _ _ _ hwf h

theorem addInstPorts_wf (env : Env) (instname : String) :
    ∀ (syms : Symbols) (this : Module), SymsWF this.symbols →
      SymsWF (addInstPorts env instname this syms).symbols := by
  intro syms
  induction syms with
  | nil => intro this hwf; exact hwf
  | cons hd tl ih =>
    intro this hwf
    obtain ⟨first, second⟩ := hd
    rw [addInstPorts]
    split
    · exact ih _ hwf
    · split
      · exact ih _ (addNetSymbol_wf env hwf _ _)
      · exact ih _ (addBusSymbol_wf env hwf _ _ _ _)

theorem connectPins_wf (env : Env) (f : Nat) (instname : String) (submod : Module)
    (cell : String) : ∀ (pins : List VerilogNetPin) (this this1 : Module),
      SymsWF this.symbols →
      connectPins env f instname submod cell this pins = .ok this1 → SymsWF this1.symbols := by
  intro pins
  induction pins with
  | nil =>
    intro this this1 hwf h
    simp only [connectPins, Except.ok.injEq] at h
    rw [← h]; exact hwf
  | cons pin rest ih =>
    intro this this1 hwf h
    cases pin with
    | portRefScalarNet name netName =>
      rw [connectPins] at h
      cases h1 : connectPin env f this instname name netName submod with
      | error e => simp [h1] at h
      | ok thisA =>
        simp only [h1] at h
        exact ih _ _ (connectPin_wf env f hwf h1) h
    | portRef name netNames =>
      rw [connectPins] at h
      cases h1 : connectBus env this instname name netNames submod cell with
      | error e => simp [h1] at h
      | ok thisA =>
        simp only [h1] at h
        exact ih _ _ (connectBus_wf env hwf h1) h
    | unnamed =>
      rw [connectPins] at h
      exact ih _ _ hwf h

theorem libertyPins_wf (env : Env) (instname : String) (netNames : List (Option String)) :
    ∀ (ports : List LibertyPort) (this this1 : Module), SymsWF this.symbols →
      libertyPins env instname netNames this ports = .ok this1 → SymsWF this1.symbols := by
  intro ports
  induction ports with
  | nil =>
    intro this this1 hwf h
    simp only [libertyPins, Except.ok.injEq] at h
    rw [← h]; exact hwf
  | cons item rest ih =>
    intro this this1 hwf h
    rw [libertyPins] at h
    split at h
    · simp at h
    · exact ih _ _ hwf h
    · rename_i pin _
      cases h1 : addNetAndConn env this (instname ++ "/" ++ item.name) pin
          item.direction.isInput with
      | error e => simp [h1] at h
      | ok thisA =>
        simp only [h1] at h
        exact ih _ _ (addNetAndConn_wf env hwf h1) h

theorem assignLoop_wf (env : Env) (lnetname rnetname : String) (f : Nat) :
    ∀ (this this1 : Module) (lr rr : Range), SymsWF this.symbols →
      assignLoop env lnetname rnetname f this lr rr = .ok this1 → SymsWF this1.symbols := by
  induction f with
  | zero => intro this this1 lr rr _ h; simp [assignLoop] at h
  | succ n ih =>
    intro this this1 lr rr hwf h
    rw [assignLoop] at h
    split at h
    · cases h1 : addNetAssign env this (bitName lnetname lr.curpos)
          (bitName rnetname rr.curpos) with
      | error e => simp [h1] at h
      | ok thisA =>
        simp only [h1] at h
        exact ih _ _ _ _ (addNetAssign_wf env hwf h1) h
    · simp only [Except.ok.injEq] at h
      rw [← h]; exact hwf

theorem processAssign_wf (env : Env) (f : Nat) {this this1 : Module}
    (hwf : SymsWF this.symbols) {l r : String}
    (h : processAssign env f this l r = .ok this1) : SymsWF this1.symbols := by
  unfold processAssign at h
  split at h
  · simp at h
  · split at h
    · exact assignLoop_wf env _ _ f _ _ _ _ hwf h
    · exact addNetAssign_wf env hwf h

theorem processDeclaration_wf (env : Env) {this : Module} (hwf : SymsWF this.symbols)
    (dcl : VerilogDcl) : SymsWF (processDeclaration env this dcl).symbols := by
  unfold processDeclaration
  split
  · exact addNetSymbol_wf env hwf _ _
  · exact addBusSymbol_wf env hwf _ _ _ _

theorem processPorts_wf (env : Env) (m : VerilogModule) :
    ∀ (ports : List String) (this this1 : Module), SymsWF this.symbols →
      processPorts env m this ports = .ok this1 → SymsWF this1.symbols := by
  intro ports
  induction ports with
  | nil =>
    intro this this1 hwf h
    simp only [processPorts, Except.ok.injEq] at h
    rw [← h]; exact hwf
  | cons s rest ih =>
    intro this this1 hwf h
    rw [processPorts] at h
    split at h
    · simp at h
    · split at h
      · exact ih _ _ (addNetSymbol_wf env hwf _ _) h
      · exact ih _ _ (addBusSymbol_wf env hwf _ _ _ _) h


theorem processModuleInst_wf (env : Env) (f : Nat)
    {create : ModuleList → String → Option VerilogModule → Except Fault (Module × ModuleList)}
    (hc : ∀ ml name m mod ml1, RangesWF ml → create ml name m = .ok (mod, ml1) →
      RangesWF ml1 ∧ SymsWF mod.symbols)
    {ml ml1 : ModuleList} {this this1 : Module} (hml : RangesWF ml)
    (hwf : SymsWF this.symbols) {instname submodname : String}
    {pins : Option (List VerilogNetPin)}
    (h : processModuleInst env f create ml this instname submodname pins = .ok (this1, ml1)) :
    SymsWF this1.symbols ∧ RangesWF ml1 := by
  unfold processModuleInst at h
  cases h1 : create ml submodname (env.cellModule submodname) with
  | error e => simp [h1] at h
  | ok y =>
    obtain ⟨submod, mlA⟩ := y
    obtain ⟨hmlA, _⟩ := hc _ _ _ _ _ hml h1
    simp only [h1] at h
    have hports := addInstPorts_wf env instname submod.symbols _
      (addInstSymbol_wf env hwf instname submodname)
    cases pins with
    | none =>
      simp only [Except.ok.injEq, Prod.mk.injEq] at h
      rw [← h.1, ← h.2]
      exact ⟨hports, hmlA⟩
    | some netSeq =>
      simp only at h
      cases h2 : connectPins env f instname submod submodname
          (addInstPorts env instname (addInstSymbol env this instname submodname)
            submod.symbols) netSeq with
      | error e => simp [h2] at h
      | ok thisB =>
        simp only [h2, Except.ok.injEq, Prod.mk.injEq] at h
        rw [← h.1, ← h.2]
        exact ⟨connectPins_wf env f _ _ _ _ _ _ hports h2, hmlA⟩

theorem processStmt_wf (env : Env) (f : Nat)
    {create : ModuleList → String → Option VerilogModule → Except Fault (Module × ModuleList)}
    (hc : ∀ ml name m mod ml1, RangesWF ml → create ml name m = .ok (mod, ml1) →
      RangesWF ml1 ∧ SymsWF mod.symbols)
    {ml ml1 : ModuleList} {this this1 : Module} (hml : RangesWF ml)
    (hwf : SymsWF this.symbols) {s : VerilogStmt}
    (h : processStmt env f create ml this s = .ok (this1, ml1)) :
    SymsWF this1.symbols ∧ RangesWF ml1 := by
  cases s with
  | moduleInst instname submodname pins =>
    exact processModuleInst_wf env f hc hml hwf h
  | libertyInst instname cell netNames =>
    simp only [processStmt, processLibertyInst] at h
    cases h1 : libertyPins env instname netNames (addInstSymbol env this instname "")
        cell.ports with
    | error e => simp [h1] at h
    | ok thisA =>
      simp only [h1, Except.ok.injEq, Prod.mk.injEq] at h
      rw [← h.1, ← h.2]
      exact ⟨libertyPins_wf env _ _ _ _ _ (addInstSymbol_wf env hwf _ _) h1, hml⟩
  | declaration dcl =>
    simp only [processStmt, Except.ok.injEq, Prod.mk.injEq] at h
    rw [← h.1, ← h.2]
    exact ⟨processDeclaration_wf env hwf dcl, hml⟩
  | assign lhs rhs =>
    simp only [processStmt] at h
    cases h1 : processAssign env f this lhs rhs with
    | error e => simp [h1] at h
    | ok thisA =>
      simp only [h1, Except.ok.injEq, Prod.mk.injEq] at h
      rw [← h.1, ← h.2]
      exact ⟨processAssign_wf env f hwf h1, hml⟩
  | other => simp [processStmt] at h

theorem processStmts_wf (env : Env) (f : Nat)
    {create : ModuleList → String → Option VerilogModule → Except Fault (Module × ModuleList)}
    (hc : ∀ ml name m mod ml1, RangesWF ml → create ml name m = .ok (mod, ml1) →
      RangesWF ml1 ∧ SymsWF mod.symbols) :
    ∀ (stmts : List VerilogStmt) (ml ml1 : ModuleList) (this this1 : Module), RangesWF ml →
      SymsWF this.symbols → processStmts env f create ml this stmts = .ok (this1, ml1) →
      SymsWF this1.symbols ∧ RangesWF ml1 := by
  intro stmts
  induction stmts with
  | nil =>
    intro ml ml1 this this1 hml hwf h
    simp only [processStmts, Except.ok.injEq, Prod.mk.injEq] at h
    rw [← h.1, ← h.2]
    exact ⟨hwf, hml⟩
  | cons s rest ih =>
    intro ml ml1 this this1 hml hwf h
    rw [processStmts] at h
    cases h1 : processStmt env f create ml this s with
    | error e => simp [h1] at h
    | ok y =>
      obtain ⟨thisA, mlA⟩ := y
      simp only [h1] at h
      obtain ⟨hwfA, hmlA⟩ := processStmt_wf env f hc hml hwf h1
      exact ih _ _ _ _ hmlA hwfA h

/-- Every range of a registry built by `ModuleList::createModule` has the direction its
bounds give it: the only ranges are those `Module::addBusSymbol` constructs. -/
theorem createModule_rangesWF (env : Env) (f : Nat) :
    ∀ (ml : ModuleList) (name : String) (m : Option VerilogModule) (mod : Module)
      (ml1 : ModuleList), RangesWF ml → createModule env f ml name m = .ok (mod, ml1) →
      RangesWF ml1 ∧ SymsWF mod.symbols := by
  induction f with
  | zero => intro ml name m mod ml1 _ h; simp [createModule] at h
  | succ n ih =>
    intro ml name m mod ml1 hml h
    rw [createModule] at h
    cases hl : lookup ml.modules name with
    | some cached =>
      simp only [hl, Except.ok.injEq, Prod.mk.injEq] at h
      rw [← h.1, ← h.2]
      exact ⟨hml, hml _ (lookup_mem _ _ _ hl)⟩
    | none =>
      simp only [hl] at h
      cases hp : processModule env n (createModule env n) ml m with
      | error e => simp [hp] at h
      | ok y =>
        obtain ⟨built, mlA⟩ := y
        simp only [hp] at h
        have hbuilt : SymsWF built.symbols ∧ RangesWF mlA := by
          unfold processModule at hp
          cases m with
          | none => simp at hp
          | some body =>
            simp only at hp
            cases h1 : processPorts env body { symbols := [], module := some body }
                body.ports with
            | error e => simp [h1] at hp
            | ok thisA =>
              simp only [h1] at hp
              have hA : SymsWF thisA.symbols :=
                processPorts_wf env body _ _ _ (fun e he => by simp at he) h1
              exact processStmts_wf env n ih _ _ _ _ _ hml hA hp
        have hnew : RangesWF
            { modules := insertNew mlA.modules name built, rootModule := mlA.rootModule } := by
          intro e he
          rcases mem_insertNew _ _ _ e he with h1 | h1
          · exact hbuilt.2 e h1
          · rw [h1]; exact hbuilt.1
        cases hl2 : lookup (insertNew mlA.modules name built) name with
        | none => simp [hl2] at h
        | some r =>
          simp only [hl2, Except.ok.injEq, Prod.mk.injEq] at h
          rw [← h.1, ← h.2]
          exact ⟨hnew, hnew _ (lookup_mem _ _ _ hl2)⟩


theorem updSymbol_rangesWF {ml : ModuleList} (h : RangesWF ml) (self key : String)
    (f : Symbol → Symbol) (hf : ∀ s, s.rangeWF = true → (f s).rangeWF = true) :
    RangesWF (updSymbol ml self key f) := by
  intro e he
  obtain ⟨e0, h0, h1⟩ := mem_modify _ ml.modules self e he
  rcases h1 with h1 | h1
  · rw [h1]; exact h e0 h0
  · rw [h1]; exact symsWF_modify (h e0 h0) f hf key

theorem setSrc_rangesWF {ml : ModuleList} (h : RangesWF ml) (self key v : String) :
    RangesWF (setSrc ml self key v) :=
  updSymbol_rangesWF h self key _ (fun _ hs => hs)

theorem updRange_rangesWF {ml : ModuleList} (h : RangesWF ml) (self key : String)
    (f : Range → Range) (hf : ∀ r, Range.sameExtent r (f r)) :
    RangesWF (updRange ml self key f) := by
  refine updSymbol_rangesWF h self key _ (fun s hs => ?_)
  unfold Symbol.rangeWF at hs ⊢
  cases hr : s.range with
  | none => simp
  | some r =>
    obtain ⟨h1, h2, h3⟩ := hf r
    simp only [hr] at hs
    simp only [Option.map_some', h1, h2, h3]
    exact hs

theorem findOneSource_rangesWF (f : Nat) : ∀ (ml : ModuleList) (self key r : String)
    (ml1 : ModuleList), RangesWF ml → findOneSource f ml self key = .ok (r, ml1) →
    RangesWF ml1 := by
  induction f with
  | zero => intro ml self key r ml1 _ h; simp [findOneSource] at h
  | succ n ih =>
    intro ml self key r ml1 hwf h
    rw [findOneSource_eq] at h
    cases hst : step ml self key with
    | ret r0 =>
      simp only [hst, Except.ok.injEq, Prod.mk.injEq] at h
      rw [← h.2]; exact hwf
    | fail e => simp [hst] at h
    | inst i im sub =>
      simp only [hst] at h
      cases h1 : findOneSource n ml im sub with
      | error e => simp [h1] at h
      | ok y =>
        obtain ⟨t, mlA⟩ := y
        simp only [h1] at h
        cases h2 : findOneSource n (setSrc mlA self key (i ++ "/" ++ t)) self (i ++ "/" ++ t) with
        | error e => simp [h2] at h
        | ok z =>
          obtain ⟨res, mlC⟩ := z
          simp only [h2, Except.ok.injEq, Prod.mk.injEq] at h
          rw [← h.2]
          exact setSrc_rangesWF
            (ih _ _ _ _ _ (setSrc_rangesWF (ih _ _ _ _ _ hwf h1) _ _ _) h2) _ _ _
    | chain v =>
      simp only [hst] at h
      cases h1 : findOneSource n ml self v with
      | error e => simp [h1] at h
      | ok y =>
        obtain ⟨res, mlA⟩ := y
        simp only [h1, Except.ok.injEq, Prod.mk.injEq] at h
        rw [← h.2]
        exact setSrc_rangesWF (ih _ _ _ _ _ hwf h1) _ _ _

theorem findSourceLoop_rangesWF (f : Nat) : ∀ (ml : ModuleList) (self key : String)
    (acc rs : List String) (ml1 : ModuleList), RangesWF ml →
    findSourceLoop f ml self key acc = .ok (rs, ml1) → RangesWF ml1 := by
  induction f with
  | zero => intro ml self key acc rs ml1 _ h; simp [findSourceLoop] at h
  | succ n ih =>
    intro ml self key acc rs ml1 hwf h
    rw [findSourceLoop] at h
    split at h
    · simp at h
    · split at h
      · simp at h
      · split at h
        · simp at h
        · split at h
          · split at h
            · simp at h
            · rename_i r mlA h1
              exact ih _ _ _ _ _ _
                (updRange_rangesWF (findOneSource_rangesWF n _ _ _ _ _ hwf h1) _ _ _
                  incrpos_sameExtent) h
          · simp only [Except.ok.injEq, Prod.mk.injEq] at h
            rw [← h.2]; exact hwf

theorem findSource_rangesWF {f : Nat} {ml ml1 : ModuleList} {self key : String}
    {rs : List String} (hwf : RangesWF ml) (h : findSource f ml self key = .ok (rs, ml1)) :
    RangesWF ml1 := by
  unfold findSource at h
  split at h
  · simp at h
  · split at h
    · simp only [Except.ok.injEq, Prod.mk.injEq] at h
      rw [← h.2]; exact hwf
    · split at h
      · exact findSourceLoop_rangesWF f _ _ _ _ _ _
          (updRange_rangesWF hwf _ _ _ resetpos_sameExtent) h
      · split at h
        · simp at h
        · rename_i r mlA h1
          simp only [Except.ok.injEq, Prod.mk.injEq] at h
          rw [← h.2]
          exact findOneSource_rangesWF f _ _ _ _ _ hwf h1

theorem findHierLoop_rangesWF (f : Nat) (self i : String) :
    ∀ (subs : List String) (ml : ModuleList) (acc rs : List String) (ml1 : ModuleList),
      RangesWF ml → findHierLoop f self i ml subs acc = .ok (rs, ml1) → RangesWF ml1 := by
  intro subs
  induction subs with
  | nil =>
    intro ml acc rs ml1 hwf h
    simp only [findHierLoop, Except.ok.injEq, Prod.mk.injEq] at h
    rw [← h.2]; exact hwf
  | cons sub rest ih =>
    intro ml acc rs ml1 hwf h
    rw [findHierLoop] at h
    cases h1 : findOneSource f ml self (i ++ "/" ++ sub) with
    | error e => simp [h1] at h
    | ok y =>
      obtain ⟨r, mlA⟩ := y
      simp only [h1] at h
      exact ih _ _ _ _ (findOneSource_rangesWF f _ _ _ _ _ hwf h1) h

theorem findHierSource_rangesWF (f : Nat) : ∀ (ml : ModuleList) (self key : String)
    (rs : List String) (ml1 : ModuleList), RangesWF ml →
    findHierSource f ml self key = .ok (rs, ml1) → RangesWF ml1 := by
  induction f with
  | zero => intro ml self key rs ml1 _ h; simp [findHierSource] at h
  | succ n ih =>
    intro ml self key rs ml1 hwf h
    rw [findHierSource] at h
    cases hf : find key '/' with
    | none =>
      simp only [hf] at h
      exact findSource_rangesWF hwf h
    | some pos =>
      simp only [hf] at h
      cases hm : ml.getModule self with
      | error e => simp [hm] at h
      | ok this =>
        simp only [hm] at h
        cases hi : instModule ml this (substrTo key pos) with
        | error e => simp [hi] at h
        | ok o =>
          cases o with
          | none =>
            simp only [hi, Except.ok.injEq, Prod.mk.injEq] at h
            rw [← h.2]; exact hwf
          | some im =>
            simp only [hi] at h
            cases h1 : findHierSource n ml im (substrFrom key (pos + 1)) with
            | error e => simp [h1] at h
            | ok y =>
              obtain ⟨subs, mlA⟩ := y
              simp only [h1] at h
              exact findHierLoop_rangesWF n _ _ _ _ _ _ _ (ih _ _ _ _ _ hwf h1) h

/-- The ranges of a registry keep the direction their bounds give them across a query. -/
theorem listFindSource_rangesWF {f : Nat} {ml ml1 : ModuleList} {path : String}
    {rs : List String} (hwf : RangesWF ml) (h : ml.findSource f path = .ok (rs, ml1)) :
    RangesWF ml1 := by
  obtain ⟨res, hh, _, _⟩ := listFindSource_ok h
  exact findHierSource_rangesWF f _ _ _ _ _ hwf hh


/-! ## Earlier queries, results as terminals, cycles -/

theorem findOneSource_unique {ml ml1 ml2 : ModuleList} {self key r1 r2 : String} {f g : Nat}
    (h1 : findOneSource f ml self key = .ok (r1, ml1))
    (h2 : findOneSource g ml self key = .ok (r2, ml2)) : r1 = r2 := by
  have a := findOneSource_mono (Nat.le_max_left f g) h1
  have b := findOneSource_mono (Nat.le_max_right f g) h2
  rw [a] at b
  simp only [Except.ok.injEq, Prod.mk.injEq] at b
  exact b.1

/-- C12 (path compression keeps the semantics across keys): when the query on `k1` in
module `m1` returns and leaves the registry `ml1`, and the query on `k2` in module `m2`
returns `r2` on the registry as it was, then the query on `k2` on `ml1` returns as well,
and every value it returns is `r2`. -/
theorem earlier_query_keeps_result (ml ml1 ml2 : ModuleList) (m1 k1 r1 m2 k2 r2 : String)
    (f1 f2 : Nat) (h1 : findOneSource f1 ml m1 k1 = .ok (r1, ml1))
    (h2 : findOneSource f2 ml m2 k2 = .ok (r2, ml2)) :
    (∃ f3 ml3, findOneSource f3 ml1 m2 k2 = .ok (r2, ml3)) ∧
    (∀ f3 r3 ml3, findOneSource f3 ml1 m2 k2 = .ok (r3, ml3) → r3 = r2) := by
  have hinv1 := (findOneSource_sound f1 _ _ _ _ _ (inv_refl ml) h1).2
  have hres2 := (findOneSource_sound f2 _ _ _ _ _ (inv_refl ml) h2).1
  constructor
  · exact (findOneSource_complete hres2).1 ml1 hinv1
  · intro f3 r3 ml3 h3
    exact resolves_unique (findOneSource_sound f3 _ _ _ _ _ hinv1 h3).1 _ hres2

theorem earlier_query_keeps_result_witness :
    ∃ r1 ml1 r2 ml2, findOneSource 10 demoList "top" "b[1]" = .ok (r1, ml1) ∧
      findOneSource 10 demoList "top" "u/p" = .ok (r2, ml2) ∧ r2 = "u/q" ∧
      ∃ f3 ml3, findOneSource f3 ml1 "top" "u/p" = .ok (r2, ml3) := by
  have hok1 : (findOneSource 10 demoList "top" "b[1]").map Prod.fst = .ok "u/q" := by decide
  have hok2 : (findOneSource 10 demoList "top" "u/p").map Prod.fst = .ok "u/q" := by decide
  cases h1 : findOneSource 10 demoList "top" "b[1]" with
  | error e => rw [h1] at hok1; simp [Except.map] at hok1
  | ok x =>
    cases h2 : findOneSource 10 demoList "top" "u/p" with
    | error e => rw [h2] at hok2; simp [Except.map] at hok2
    | ok y =>
      obtain ⟨r1, ml1⟩ := x
      obtain ⟨r2, ml2⟩ := y
      rw [h2] at hok2
      simp only [Except.map, Except.ok.injEq] at hok2
      exact ⟨r1, ml1, r2, ml2, rfl, rfl, hok2,
        (earlier_query_keeps_result demoList ml1 ml2 "top" "b[1]" r1 "top" "u/p" r2 10 10
          h1 h2).1⟩

/-- C20 (results are terminals): when `Module::findOneSource` returns `r` for a key, the
query on `r` in the same module returns `r`, both on the registry the first query left
behind and on the registry it started from, and returns nothing else. -/
theorem result_is_fixed_point (ml ml1 : ModuleList) (self key r : String) (fuel : Nat)
    (h : findOneSource fuel ml self key = .ok (r, ml1)) :
    (∃ f2 ml2, findOneSource f2 ml1 self r = .ok (r, ml2)) ∧
    (∃ f2 ml2, findOneSource f2 ml self r = .ok (r, ml2)) ∧
    (∀ f2 r2 ml2, findOneSource f2 ml1 self r = .ok (r2, ml2) → r2 = r) := by
  obtain ⟨hres, hinv⟩ := findOneSource_sound fuel _ _ _ _ _ (inv_refl ml) h
  have hfix := resolves_fixed hres
  refine ⟨(findOneSource_complete hfix).1 ml1 hinv,
    (findOneSource_complete hfix).1 ml (inv_refl ml), ?_⟩
  intro f2 r2 ml2 h2
  exact resolves_unique (findOneSource_sound f2 _ _ _ _ _ hinv h2).1 _ hfix

theorem result_is_fixed_point_witness :
    ∃ r ml1, findOneSource 10 demoList "top" "b[1]" = .ok (r, ml1) ∧ r = "u/q" ∧
      ∃ f2 ml2, findOneSource f2 ml1 "top" r = .ok (r, ml2) := by
  have hok1 : (findOneSource 10 demoList "top" "b[1]").map Prod.fst = .ok "u/q" := by decide
  cases h1 : findOneSource 10 demoList "top" "b[1]" with
  | error e => rw [h1] at hok1; simp [Except.map] at hok1
  | ok x =>
    obtain ⟨r, ml1⟩ := x
    rw [h1] at hok1
    simp only [Except.map, Except.ok.injEq] at hok1
    exact ⟨r, ml1, rfl, hok1, (result_is_fixed_point demoList ml1 "top" "b[1]" r 10 h1).1⟩

/-- C19 (no cycle detection): when two distinct scalar keys of a module are recorded as
each other's driver (a non-empty `src` each), `Module::findOneSource` on either of them
yields no value and no fault other than running out of fuel, whatever the fuel. -/
theorem mutual_drivers_never_resolve (ml : ModuleList) (self a b : String) (this : Module)
    (sa sb : Symbol) (hm : ml.getModule self = .ok this)
    (ha : lookup this.symbols a = some sa) (hb : lookup this.symbols b = some sb)
    (hsa : sa.isBus = false) (hsb : sb.isBus = false)
    (hab : a ≠ b) (hane : a ≠ "") (hbne : b ≠ "")
    (hsrca : sa.src = b) (hsrcb : sb.src = a) :
    ∀ fuel, findOneSource fuel ml self a = .error .outOfFuel ∧
      findOneSource fuel ml self b = .error .outOfFuel := by
  have hstepa : step ml self a = .chain b := by
    simp only [step, hm, ha, hsa, Bool.false_eq_true, if_false, hsrca]
    exact stepSrc_chain _ _ (fun h => hab h.symm) hbne
  have hstepb : step ml self b = .chain a := by
    simp only [step, hm, hb, hsb, Bool.false_eq_true, if_false, hsrcb]
    exact stepSrc_chain _ _ hab hane
  intro fuel
  induction fuel with
  | zero => exact ⟨rfl, rfl⟩
  | succ n ih =>
    constructor
    · rw [findOneSource_eq, hstepa]; simp only [ih.2]
    · rw [findOneSource_eq, hstepb]; simp only [ih.1]

theorem mutual_drivers_never_resolve_witness :
    findOneSource 50 cycleList "top" "a" = .error .outOfFuel ∧
    findOneSource 50 cycleList "top" "b" = .error .outOfFuel :=
  mutual_drivers_never_resolve cycleList "top" "a" "b"
    { symbols := [("a", netSym "a" "b"), ("b", netSym "b" "a")], module := none }
    (netSym "a" "b") (netSym "b" "a") (by decide) (by decide) (by decide) (by decide)
    (by decide) (by decide) (by decide) (by decide) (by decide) (by decide) 50


/-! ## Range iteration -/

theorem visit_eq_rest (fuel : Nat) : ∀ (r : Range) (acc : List Int), r.runs →
    r.rest.length < fuel → Range.visit fuel r acc = .ok (acc ++ r.rest) := by
  induction fuel with
  | zero => intro r acc _ h; exact absurd h (Nat.not_lt_zero _)
  | succ n ih =>
    intro r acc hruns h
    rw [Range.visit]
    rw [Range.rest_eq r hruns] at h ⊢
    by_cases hn : r.hasNext = true
    · simp only [hn, if_true, List.length_cons] at h ⊢
      rw [ih _ _ (incrpos_runs hruns hn).2 (Nat.lt_of_succ_lt_succ h)]
      simp
    · simp [hn]

theorem visit_stuck (fuel : Nat) : ∀ (r : Range) (acc : List Int), r.stuck →
    Range.visit fuel r acc = .error .outOfFuel := by
  induction fuel with
  | zero => intro r acc _; rfl
  | succ n ih =>
    intro r acc h
    rw [Range.visit]
    simp only [h.1, if_true]
    exact ih _ _ (stuck_incrpos h)

theorem runs_ofBounds {left right : Int} (hl : isInt left)
    (hno : if right > left then right < intMax else intMin < right) :
    (Range.ofBounds left right).runs := by
  refine ⟨hl, ?_⟩
  show if decide (right > left) then right < intMax else intMin < right
  by_cases h : right > left
  · simpa only [h, decide_True, if_true] using hno
  · simpa only [h, decide_False, Bool.false_eq_true, if_false] using hno

/-- C11 (range iteration, no machine overflow): for `left` an `int` and `right` such that
the step past it is an `int` too, from `Range(left, right)`, reading `curpos` and calling
`incrpos()` while `hasNext()` holds ends, with any fuel above `|left - right| + 1`, having
visited exactly the `|left - right| + 1` indices `left`, `left ± 1`, ..., `right` in that
order: upwards when `right > left`, downwards otherwise, the last one being `right`. -/
theorem range_iteration (left right : Int) (k : Nat) (hl : isInt left)
    (hno : if right > left then right < intMax else intMin < right) :
    Range.visit ((left - right).natAbs + 2 + k) (Range.ofBounds left right) [] =
      .ok ((List.range ((left - right).natAbs + 1)).map
        (fun (i : Nat) => if right > left then left + (i : Int) else left - (i : Int))) ∧
    (if right > left then left + ((left - right).natAbs : Int)
      else left - ((left - right).natAbs : Int)) = right := by
  constructor
  · have hb := bits_eq (Range.ofBounds left right) rfl
    have hrest : (Range.ofBounds left right).rest =
        (List.range ((left - right).natAbs + 1)).map
          (fun (i : Nat) => if right > left then left + (i : Int) else left - (i : Int)) := hb
    rw [visit_eq_rest _ _ _ (runs_ofBounds hl hno) (by rw [hrest]; simp; omega), hrest]
    rfl
  · split <;> omega

theorem range_iteration_witness :
    Range.visit 9 (Range.ofBounds 7 0) [] = .ok [7, 6, 5, 4, 3, 2, 1, 0] ∧
    Range.visit 4 (Range.ofBounds 2147483645 2147483646) [] = .ok [2147483645, 2147483646] :=
  ⟨(range_iteration 7 0 0 (by decide) (by decide)).1,
   (range_iteration 2147483645 2147483646 0 (by decide) (by decide)).1⟩


/-! ## Queries write the cache only -/

theorem map_modify {β : Type} (f g : β → β) (hg : ∀ v, g (f v) = g v) :
    ∀ (l : List (String × β)) (k : String),
      (modify f l k).map (fun e => (e.1, g e.2)) = l.map (fun e => (e.1, g e.2)) := by
  intro l
  induction l with
  | nil => intro k; rfl
  | cons hd tl ih =>
    intro k
    obtain ⟨k1, v⟩ := hd
    by_cases hk : k1 = k
    · simp [modify, hk, hg]
    · simp [modify, hk, ih]

theorem updSymbol_frame (ml : ModuleList) (self key : String) (f : Symbol → Symbol)
    (hf : ∀ s, (f s).frame = s.frame) : (updSymbol ml self key f).frame = ml.frame := by
  unfold ModuleList.frame updSymbol
  simp only [ModuleList.mk.injEq, and_true]
  apply map_modify
  intro m
  unfold Module.frame
  simp only [Module.mk.injEq, and_true]
  exact map_modify f Symbol.frame hf _ _

theorem setSrc_frame (ml : ModuleList) (self key v : String) :
    (setSrc ml self key v).frame = ml.frame :=
  updSymbol_frame ml self key _ (fun _ => rfl)

theorem updRange_frame (ml : ModuleList) (self key : String) (f : Range → Range)
    (hf : ∀ r, (f r).clearCursor = r.clearCursor) :
    (updRange ml self key f).frame = ml.frame := by
  refine updSymbol_frame ml self key _ (fun s => ?_)
  unfold Symbol.frame
  cases hr : s.range with
  | none => simp
  | some r => simp [hf r]

theorem findOneSource_frameEq (f : Nat) : ∀ (ml : ModuleList) (self key r : String)
    (ml1 : ModuleList), findOneSource f ml self key = .ok (r, ml1) → ml1.frame = ml.frame := by
  induction f with
  | zero => intro ml self key r ml1 h; simp [findOneSource] at h
  | succ n ih =>
    intro ml self key r ml1 h
    rw [findOneSource_eq] at h
    cases hst : step ml self key with
    | ret r0 =>
      simp only [hst, Except.ok.injEq, Prod.mk.injEq] at h
      rw [← h.2]
    | fail e => simp [hst] at h
    | inst i im sub =>
      simp only [hst] at h
      cases h1 : findOneSource n ml im sub with
      | error e => simp [h1] at h
      | ok y =>
        obtain ⟨t, mlA⟩ := y
        simp only [h1] at h
        cases h2 : findOneSource n (setSrc mlA self key (i ++ "/" ++ t)) self (i ++ "/" ++ t) with
        | error e => simp [h2] at h
        | ok z =>
          obtain ⟨res, mlC⟩ := z
          simp only [h2, Except.ok.injEq, Prod.mk.injEq] at h
          rw [← h.2, setSrc_frame, ih _ _ _ _ _ h2, setSrc_frame, ih _ _ _ _ _ h1]
    | chain v =>
      simp only [hst] at h
      cases h1 : findOneSource n ml self v with
      | error e => simp [h1] at h
      | ok y =>
        obtain ⟨res, mlA⟩ := y
        simp only [h1, Except.ok.injEq, Prod.mk.injEq] at h
        rw [← h.2, setSrc_frame, ih _ _ _ _ _ h1]

theorem findSourceLoop_frameEq (f : Nat) : ∀ (ml : ModuleList) (self key : String)
    (acc rs : List String) (ml1 : ModuleList),
    findSourceLoop f ml self key acc = .ok (rs, ml1) → ml1.frame = ml.frame := by
  induction f with
  | zero => intro ml self key acc rs ml1 h; simp [findSourceLoop] at h
  | succ n ih =>
    intro ml self key acc rs ml1 h
    rw [findSourceLoop] at h
    split at h
    · simp at h
    · split at h
      · simp at h
      · split at h
        · simp at h
        · split at h
          · split at h
            · simp at h
            · rename_i r mlA h1
              rw [ih _ _ _ _ _ _ h, updRange_frame mlA self key Range.incrpos (fun _ => rfl),
                findOneSource_frameEq n _ _ _ _ _ h1]
          · simp only [Except.ok.injEq, Prod.mk.injEq] at h
            rw [← h.2]

theorem findSource_frameEq {f : Nat} {ml ml1 : ModuleList} {self key : String}
    {rs : List String} (h : findSource f ml self key = .ok (rs, ml1)) :
    ml1.frame = ml.frame := by
  unfold findSource at h
  split at h
  · simp at h
  · split at h
    · simp only [Except.ok.injEq, Prod.mk.injEq] at h
      rw [← h.2]
    · split at h
      · rw [findSourceLoop_frameEq f _ _ _ _ _ _ h,
          updRange_frame ml self key Range.resetpos (fun _ => rfl)]
      · split at h
        · simp at h
        · rename_i r mlA h1
          simp only [Except.ok.injEq, Prod.mk.injEq] at h
          rw [← h.2]
          exact findOneSource_frameEq f _ _ _ _ _ h1

theorem findHierLoop_frameEq (f : Nat) (self i : String) :
    ∀ (subs : List String) (ml : ModuleList) (acc rs : List String) (ml1 : ModuleList),
      findHierLoop f self i ml subs acc = .ok (rs, ml1) → ml1.frame = ml.frame := by
  intro subs
  induction subs with
  | nil =>
    intro ml acc rs ml1 h
    simp only [findHierLoop, Except.ok.injEq, Prod.mk.injEq] at h
    rw [← h.2]
  | cons sub rest ih =>
    intro ml acc rs ml1 h
    rw [findHierLoop] at h
    cases h1 : findOneSource f ml self (i ++ "/" ++ sub) with
    | error e => simp [h1] at h
    | ok y =>
      obtain ⟨r, mlA⟩ := y
      simp only [h1] at h
      rw [ih _ _ _ _ h, findOneSource_frameEq f _ _ _ _ _ h1]

theorem findHierSource_frameEq (f : Nat) : ∀ (ml : ModuleList) (self key : String)
    (rs : List String) (ml1 : ModuleList),
    findHierSource f ml self key = .ok (rs, ml1) → ml1.frame = ml.frame := by
  induction f with
  | zero => intro ml self key rs ml1 h; simp [findHierSource] at h
  | succ n ih =>
    intro ml self key rs ml1 h
    rw [findHierSource] at h
    cases hf : find key '/' with
    | none =>
      simp only [hf] at h
      exact findSource_frameEq h
    | some pos =>
      simp only [hf] at h
      cases hm : ml.getModule self with
      | error e => simp [hm] at h
      | ok this =>
        simp only [hm] at h
        cases hi : instModule ml this (substrTo key pos) with
        | error e => simp [hi] at h
        | ok o =>
          cases o with
          | none =>
            simp only [hi, Except.ok.injEq, Prod.mk.injEq] at h
            rw [← h.2]
          | some im =>
            simp only [hi] at h
            cases h1 : findHierSource n ml im (substrFrom key (pos + 1)) with
            | error e => simp [h1] at h
            | ok y =>
              obtain ⟨subs, mlA⟩ := y
              simp only [h1] at h
              rw [findHierLoop_frameEq n _ _ _ _ _ _ _ h, ih _ _ _ _ _ h1]

/-- C18 (queries are read-only apart from the cache): the registry a returning
`Module::findOneSource`, `Module::findSource` or `Module::findHierSource` leaves behind
has the modules and the table keys of the registry it started from, in the same order,
and every entry agrees with the old one in `isInst`, `isNet`, `isPort`, `name`,
`moduleName` and the range bounds and direction; only `src` and the range cursor may
differ. -/
theorem query_frame (ml : ModuleList) (self key : String) :
    (∀ fuel r ml1, findOneSource fuel ml self key = .ok (r, ml1) → ml1.frame = ml.frame) ∧
    (∀ fuel rs ml1, findSource fuel ml self key = .ok (rs, ml1) → ml1.frame = ml.frame) ∧
    (∀ fuel rs ml1, findHierSource fuel ml self key = .ok (rs, ml1) →
      ml1.frame = ml.frame) :=
  ⟨fun fuel r ml1 h => findOneSource_frameEq fuel ml self key r ml1 h,
   fun _ _ _ h => findSource_frameEq h,
   fun fuel rs ml1 h => findHierSource_frameEq fuel ml self key rs ml1 h⟩

theorem query_frame_witness :
    ∃ rs ml1, findHierSource 10 demoList "top" "b" = .ok (rs, ml1) ∧
      ml1.frame = demoList.frame ∧ ml1 ≠ demoList := by
  have hok : (findHierSource 10 demoList "top" "b").map (fun x => decide (x.2 = demoList)) =
      .ok false := by decide
  cases h : findHierSource 10 demoList "top" "b" with
  | error e => rw [h] at hok; simp [Except.map] at hok
  | ok x =>
    obtain ⟨rs, ml1⟩ := x
    rw [h] at hok
    simp only [Except.map, Except.ok.injEq, decide_eq_false_iff_not] at hok
    exact ⟨rs, ml1, rfl, (query_frame demoList "top" "b").2.2 10 rs ml1 h, hok⟩


/-! ## The fill methods on the table -/

theorem lookup_append_single {β : Type} (l : List (String × β)) (k : String) (v : β)
    (k2 : String) :
    lookup (l ++ [(k, v)]) k2 =
      match lookup l k2 with
      | some x => some x
      | none => if k = k2 then some v else none := by
  induction l with
  | nil => simp [lookup]
  | cons hd tl ih =>
    obtain ⟨k1, v1⟩ := hd
    by_cases h : k1 = k2
    · simp [lookup, h]
    · simp [lookup, h, ih]

theorem lookup_insertNew {β : Type} (l : List (String × β)) (k : String) (v : β)
    (k2 : String) :
    lookup (insertNew l k v) k2 =
      match lookup l k2 with
      | some x => some x
      | none => if k = k2 then some v else none := by
  unfold insertNew
  cases hl : lookup l k with
  | none => simp only; exact lookup_append_single l k v k2
  | some w =>
    simp only
    cases h2 : lookup l k2 with
    | some x => rfl
    | none =>
      have : ¬ k = k2 := by
        intro e; rw [e] at hl; rw [hl] at h2; simp at h2
      simp [this]

theorem lookup_addNetSymbol (env : Env) (this : Module) (netname : String) (isPort : Bool)
    (k : String) :
    lookup (addNetSymbol env this netname isPort).symbols k =
      if k = env.nameRegulation netname then
        some { ((lookup this.symbols k).getD Symbol.new) with
               isNet := true, isInst := false, name := netname, isPort := isPort }
      else lookup this.symbols k := by
  unfold addNetSymbol
  by_cases hk : k = env.nameRegulation netname
  · subst hk
    simp only [if_true]
    rw [lookup_modify_self, lookup_insertNew]
    cases lookup this.symbols (env.nameRegulation netname) <;> simp
  · simp only [hk, if_false]
    rw [lookup_modify_other _ _ _ _ hk, lookup_insertNew]
    have hne : ¬ env.nameRegulation netname = k := fun e => hk e.symm
    cases lookup this.symbols k <;> simp [hne]

theorem srcOf_addNetSymbol (env : Env) (this : Module) (netname : String) (isPort : Bool)
    (k : String) :
    srcOf (addNetSymbol env this netname isPort) k =
      if k = env.nameRegulation netname then some ((srcOf this k).getD "") else srcOf this k := by
  unfold srcOf
  rw [lookup_addNetSymbol]
  by_cases hk : k = env.nameRegulation netname
  · simp only [hk, if_true]
    cases lookup this.symbols (env.nameRegulation netname) <;> rfl
  · simp only [hk, if_false]

theorem rangeOf_addNetSymbol (env : Env) (this : Module) (netname : String) (isPort : Bool)
    (k : String) : rangeOf (addNetSymbol env this netname isPort) k = rangeOf this k := by
  unfold rangeOf
  rw [lookup_addNetSymbol]
  by_cases hk : k = env.nameRegulation netname
  · simp only [hk, if_true]
    cases lookup this.symbols (env.nameRegulation netname) <;> rfl
  · simp only [hk, if_false]

theorem addConnection_ok (env : Env) (this : Module) (src dst : String)
    (h : (lookup this.symbols (env.nameRegulation dst)).isSome = true) :
    ∃ this1, addConnection env this src dst = .ok this1 ∧
      (∀ k, srcOf this1 k =
        if k = env.nameRegulation dst then some (env.nameRegulation src) else srcOf this k) ∧
      (∀ k, rangeOf this1 k = rangeOf this k) ∧
      (∀ k, (lookup this1.symbols k).map (fun s => (s.isInst, s.isNet, s.isPort)) =
        (lookup this.symbols k).map (fun s => (s.isInst, s.isNet, s.isPort))) := by
  unfold addConnection
  cases hl : lookup this.symbols (env.nameRegulation dst) with
  | none => simp [hl] at h
  | some s =>
    refine ⟨_, rfl, fun k => ?_, fun k => ?_, fun k => ?_⟩
    · unfold srcOf
      by_cases hk : k = env.nameRegulation dst
      · subst hk
        simp only [if_true, lookup_modify_self, hl]; rfl
      · simp only [hk, if_false, lookup_modify_other _ _ _ _ hk]
    · unfold rangeOf
      by_cases hk : k = env.nameRegulation dst
      · subst hk
        simp only [lookup_modify_self, hl]; rfl
      · simp only [lookup_modify_other _ _ _ _ hk]
    · by_cases hk : k = env.nameRegulation dst
      · subst hk
        simp only [lookup_modify_self, hl]; rfl
      · simp only [lookup_modify_other _ _ _ _ hk]


theorem isSome_lookup_addNetSymbol (env : Env) (this : Module) (netname : String)
    (isPort : Bool) (k : String) :
    (lookup (addNetSymbol env this netname isPort).symbols k).isSome =
      (decide (k = env.nameRegulation netname) || (lookup this.symbols k).isSome) := by
  rw [lookup_addNetSymbol]
  by_cases hk : k = env.nameRegulation netname
  · simp [hk]
  · simp [hk]

theorem lookup_addConnection {env : Env} {this this1 : Module} {src dst : String}
    (h : addConnection env this src dst = .ok this1) (k : String)
    (hk : k ≠ env.nameRegulation dst) : lookup this1.symbols k = lookup this.symbols k := by
  unfold addConnection at h
  cases hl : lookup this.symbols (env.nameRegulation dst) with
  | none => simp [hl] at h
  | some s =>
    simp only [hl, Except.ok.injEq] at h
    rw [← h]
    exact lookup_modify_other _ _ _ _ hk

/-- The effect of `ADDNETASSIGN(lhs, rhs)` on the table: it always returns, the entry of
`lhs` gets `rhs` as `src`, the entry of `rhs` exists with the `src` it had (empty when
new), no range is created, and no other entry is touched. -/
theorem addNetAssign_spec (env : Env) (this : Module) (lhs rhs : String) :
    ∃ this1, addNetAssign env this lhs rhs = .ok this1 ∧
      (∀ k, srcOf this1 k =
        if k = env.nameRegulation lhs then some (env.nameRegulation rhs)
        else if k = env.nameRegulation rhs then some ((srcOf this k).getD "")
        else srcOf this k) ∧
      (∀ k, rangeOf this1 k = rangeOf this k) ∧
      (∀ k, k ≠ env.nameRegulation lhs → k ≠ env.nameRegulation rhs →
        lookup this1.symbols k = lookup this.symbols k) := by
  have hsome : (lookup (addNetSymbol env (addNetSymbol env this lhs false) rhs false).symbols
      (env.nameRegulation lhs)).isSome = true := by
    rw [isSome_lookup_addNetSymbol, isSome_lookup_addNetSymbol]
    simp
  obtain ⟨this1, h1, hsrc, hrange, _⟩ := addConnection_ok env _ rhs lhs hsome
  refine ⟨this1, h1, fun k => ?_, fun k => ?_, fun k hk1 hk2 => ?_⟩
  · rw [hsrc k]
    by_cases hk : k = env.nameRegulation lhs
    · simp only [hk, if_true]
    · simp only [hk, if_false]
      rw [srcOf_addNetSymbol, srcOf_addNetSymbol]
      simp only [hk, if_false]
  · rw [hrange k, rangeOf_addNetSymbol, rangeOf_addNetSymbol]
  · rw [lookup_addConnection h1 k hk1, lookup_addNetSymbol, lookup_addNetSymbol]
    simp only [hk1, hk2, if_false]

/-- The effect of `ADDNETANDCONN(instport, connexpr, isInput)` on the table: it always
returns, both entries exist, the driven one gets the other as `src`, the other keeps the
`src` it had (empty when new) unless it is the same entry, no range is created and no
other entry is touched. -/
theorem addNetAndConn_spec (env : Env) (this : Module) (instport connexpr : String)
    (isInput : Bool) :
    ∃ this1, addNetAndConn env this instport connexpr isInput = .ok this1 ∧
      (lookup this1.symbols (env.nameRegulation instport)).isSome = true ∧
      (lookup this1.symbols (env.nameRegulation connexpr)).isSome = true ∧
      (∀ k, srcOf this1 k =
        if k = env.nameRegulation (if isInput then instport else connexpr) then
          some (env.nameRegulation (if isInput then connexpr else instport))
        else if k = env.nameRegulation (if isInput then connexpr else instport) then
          some ((srcOf this k).getD "")
        else srcOf this k) ∧
      (∀ k, rangeOf this1 k = rangeOf this k) ∧
      (∀ k, k ≠ env.nameRegulation instport → k ≠ env.nameRegulation connexpr →
        lookup this1.symbols k = lookup this.symbols k) := by
  have hsomeP : (lookup (addNetSymbol env (addNetSymbol env this instport false) connexpr
      false).symbols (env.nameRegulation instport)).isSome = true := by
    rw [isSome_lookup_addNetSymbol, isSome_lookup_addNetSymbol]
    simp
  have hsomeN : (lookup (addNetSymbol env (addNetSymbol env this instport false) connexpr
      false).symbols (env.nameRegulation connexpr)).isSome = true := by
    rw [isSome_lookup_addNetSymbol]
    simp
  have keep : ∀ {this1 : Module} {src dst : String},
      addConnection env (addNetSymbol env (addNetSymbol env this instport false) connexpr false)
        src dst = .ok this1 → ∀ k, (lookup this1.symbols k).isSome =
        (lookup (addNetSymbol env (addNetSymbol env this instport false) connexpr
          false).symbols k).isSome := by
    intro this1 src dst h k
    by_cases hk : k = env.nameRegulation dst
    · unfold addConnection at h
      cases hl : lookup (addNetSymbol env (addNetSymbol env this instport false) connexpr
          false).symbols (env.nameRegulation dst) with
      | none => simp [hl] at h
      | some s =>
        simp only [hl, Except.ok.injEq] at h
        rw [← h, hk, lookup_modify_self, hl]; rfl
    · rw [lookup_addConnection h k hk]
  unfold addNetAndConn
  cases isInput with
  | true =>
    obtain ⟨this1, h1, hsrc, hrange, _⟩ := addConnection_ok env _ connexpr instport hsomeP
    simp only [if_true]
    refine ⟨this1, h1, ?_, ?_, fun k => ?_, fun k => ?_, fun k hk1 hk2 => ?_⟩
    · rw [keep h1]; exact hsomeP
    · rw [keep h1]; exact hsomeN
    · rw [hsrc k]
      by_cases hk : k = env.nameRegulation instport
      · simp only [hk, if_true]
      · simp only [hk, if_false]
        rw [srcOf_addNetSymbol, srcOf_addNetSymbol]
        simp only [hk, if_false]
    · rw [hrange k, rangeOf_addNetSymbol, rangeOf_addNetSymbol]
    · rw [lookup_addConnection h1 k hk1, lookup_addNetSymbol, lookup_addNetSymbol]
      simp only [hk1, hk2, if_false]
  | false =>
    obtain ⟨this1, h1, hsrc, hrange, _⟩ := addConnection_ok env _ instport connexpr hsomeN
    simp only [Bool.false_eq_true, if_false]
    refine ⟨this1, h1, ?_, ?_, fun k => ?_, fun k => ?_, fun k hk1 hk2 => ?_⟩
    · rw [keep h1]; exact hsomeP
    · rw [keep h1]; exact hsomeN
    · rw [hsrc k]
      by_cases hk : k = env.nameRegulation connexpr
      · simp only [hk, if_true]
      · simp only [hk, if_false]
        rw [srcOf_addNetSymbol, srcOf_addNetSymbol]
        by_cases hk2 : k = env.nameRegulation instport
        · simp only [hk2, if_true]
          by_cases hk3 : env.nameRegulation instport = env.nameRegulation connexpr
          · exact absurd (hk2.trans hk3) hk
          · simp only [hk3, if_false]
        · simp only [hk, hk2, if_false]
    · rw [hrange k, rangeOf_addNetSymbol, rangeOf_addNetSymbol]
    · rw [lookup_addConnection h1 k hk2, lookup_addNetSymbol, lookup_addNetSymbol]
      simp only [hk1, hk2, if_false]


/-! ## Bit-by-bit assignment -/

theorem srcOf_eq_none {this : Module} {k : String} :
    srcOf this k = none ↔ lookup this.symbols k = none := by
  unfold srcOf
  cases lookup this.symbols k <;> simp

/-- The effect of a run of `ADDNETASSIGN` on the table. -/
theorem recordAssigns_spec (env : Env) : ∀ (ps : List (String × String)) (this : Module),
    ∃ this1, recordAssigns env this ps = .ok this1 ∧
      (∀ k, (∀ p ∈ ps, k ≠ env.nameRegulation p.1) →
        srcOf this1 k = srcOf this k ∨
        (lookup this.symbols k = none ∧ srcOf this1 k = some "" ∧
          ∃ p ∈ ps, k = env.nameRegulation p.2)) ∧
      (∀ k, rangeOf this1 k = rangeOf this k) ∧
      (∀ k, (∀ p ∈ ps, k ≠ env.nameRegulation p.1 ∧ k ≠ env.nameRegulation p.2) →
        lookup this1.symbols k = lookup this.symbols k) ∧
      (∀ k, (lookup this.symbols k).isSome = true → (lookup this1.symbols k).isSome = true) ∧
      (∀ p ∈ ps, (lookup this1.symbols (env.nameRegulation p.1)).isSome = true ∧
        (lookup this1.symbols (env.nameRegulation p.2)).isSome = true) ∧
      ((ps.map (fun p => env.nameRegulation p.1)).Nodup →
        ∀ p ∈ ps, srcOf this1 (env.nameRegulation p.1) = some (env.nameRegulation p.2)) := by
  intro ps
  induction ps with
  | nil =>
    intro this
    exact ⟨this, rfl, fun k _ => Or.inl rfl, fun k => rfl, fun k _ => rfl, fun k h => h,
      fun p hp => absurd hp (List.not_mem_nil p), fun _ p hp => absurd hp (List.not_mem_nil p)⟩
  | cons hd tl ih =>
    intro this
    obtain ⟨l, r⟩ := hd
    obtain ⟨thisA, hA, hsrcA, hrangeA, hframeA⟩ := addNetAssign_spec env this l r
    obtain ⟨this1, h1, hsrc1, hrange1, hframe1, hkeep1, hex1, hnd1⟩ := ih thisA
    have hsomeA : ∀ k, (lookup thisA.symbols k).isSome = true ↔
        (k = env.nameRegulation l ∨ k = env.nameRegulation r ∨
          (lookup this.symbols k).isSome = true) := by
      intro k
      have e := hsrcA k
      have hs : ∀ (t : Module), (lookup t.symbols k).isSome = (srcOf t k).isSome := by
        intro t; unfold srcOf; cases lookup t.symbols k <;> rfl
      rw [hs thisA, hs this, e]
      by_cases hk1 : k = env.nameRegulation l
      · simp [hk1]
      · by_cases hk2 : k = env.nameRegulation r
        · have hk3 : ¬ env.nameRegulation r = env.nameRegulation l := by
            rw [← hk2]; exact hk1
          simp [hk2, hk3]
        · simp [hk1, hk2]
    refine ⟨this1, ?_, ?_, ?_, ?_, ?_, ?_, ?_⟩
    · rw [recordAssigns]; simp only [hA]; exact h1
    · intro k hk
      have hkl : k ≠ env.nameRegulation l := hk (l, r) (List.mem_cons_self _ _)
      have hktl : ∀ p ∈ tl, k ≠ env.nameRegulation p.1 :=
        fun p hp => hk p (List.mem_cons_of_mem _ hp)
      have eA := hsrcA k
      simp only [hkl, if_false] at eA
      by_cases hkr : k = env.nameRegulation r
      · simp only [hkr, if_true] at eA
        have hAsome : (lookup thisA.symbols k).isSome = true := (hsomeA k).mpr (Or.inr (Or.inl hkr))
        rcases hsrc1 k hktl with h | ⟨hnone, _, _⟩
        · cases hs0 : srcOf this k with
          | some v =>
            left; rw [h, hkr, eA, ← hkr, hs0]; rfl
          | none =>
            right
            refine ⟨srcOf_eq_none.mp hs0, ?_, (l, r), List.mem_cons_self _ _, hkr⟩
            rw [h, hkr, eA, ← hkr, hs0]; rfl
        · rw [hnone] at hAsome; simp at hAsome
      · simp only [hkr, if_false] at eA
        have hlk : lookup thisA.symbols k = lookup this.symbols k := hframeA k hkl hkr
        rcases hsrc1 k hktl with h | ⟨hnone, hemp, p, hp, hpk⟩
        · left; rw [h, eA]
        · right
          exact ⟨hlk ▸ hnone, hemp, p, List.mem_cons_of_mem _ hp, hpk⟩
    · intro k; rw [hrange1 k, hrangeA k]
    · intro k hk
      have h0 := hk (l, r) (List.mem_cons_self _ _)
      rw [hframe1 k (fun p hp => hk p (List.mem_cons_of_mem _ hp)), hframeA k h0.1 h0.2]
    · intro k hk
      exact hkeep1 k ((hsomeA k).mpr (Or.inr (Or.inr hk)))
    · intro p hp
      rcases List.mem_cons.mp hp with rfl | hp
      · exact ⟨hkeep1 _ ((hsomeA _).mpr (Or.inl rfl)),
          hkeep1 _ ((hsomeA _).mpr (Or.inr (Or.inl rfl)))⟩
      · exact hex1 p hp
    · intro hnd p hp
      simp only [List.map_cons, List.nodup_cons] at hnd
      rcases List.mem_cons.mp hp with rfl | hp
      · have hnot : ∀ q ∈ tl, env.nameRegulation l ≠ env.nameRegulation q.1 := by
          intro q hq e
          exact hnd.1 (List.mem_map.mpr ⟨q, hq, e.symm⟩)
        have eA := hsrcA (env.nameRegulation l)
        simp only [if_true] at eA
        rcases hsrc1 _ hnot with h | ⟨hnone, _, _⟩
        · rw [h, eA]
        · have hx := (hsomeA (env.nameRegulation l)).mpr (Or.inl rfl)
          rw [hnone] at hx; simp at hx
      · exact hnd1 hnd.2 p hp


theorem stepFrom_zero (r : Range) : r.stepFrom 0 = r.curpos := by
  unfold Range.stepFrom; split <;> simp

theorem stepFrom_succ (r : Range) (j : Nat) (h : isInt (r.stepFrom 1)) :
    r.incrpos.stepFrom j = r.stepFrom (j + 1) := by
  have e : wrapInt (r.curpos + (if r.isIncr then 1 else -1)) =
      r.curpos + (if r.isIncr then 1 else -1) := by
    apply wrapInt_eq
    unfold Range.stepFrom at h
    by_cases hi : r.isIncr = true
    · simpa only [hi, if_true, Nat.cast_one] using h
    · simpa only [hi, Bool.false_eq_true, if_false, Nat.cast_one] using h
  unfold Range.stepFrom Range.incrpos
  simp only [e]
  by_cases hi : r.isIncr = true
  · simp only [hi, if_true]; push_cast; ring
  · simp only [hi]; push_cast; simp; ring

theorem stepFrom_one_of_runs {r : Range} (h : r.runs) (hn : r.hasNext = true) :
    isInt (r.stepFrom 1) := by
  have h1 := (incrpos_runs h hn).1
  have h2 := (incrpos_runs h hn).2.1
  rw [h1] at h2
  unfold Range.stepFrom
  by_cases hi : r.isIncr = true
  · simpa only [hi, if_true, Nat.cast_one] using h2
  · simpa only [hi, Bool.false_eq_true, if_false, Nat.cast_one] using h2

theorem isInt_between {a b x : Int} (ha : isInt a) (hb : isInt b)
    (h : (a ≤ x ∧ x ≤ b) ∨ (b ≤ x ∧ x ≤ a)) : isInt x := by
  unfold isInt at ha hb ⊢
  omega

/-- The loop of `Module::processAssign` is a run of `ADDNETASSIGN` over the bits of the
left range, the right index stepping along with no test of its bounds, as long as no
step on the left and no index used on the right overflows. -/
theorem assignLoop_eq (env : Env) (lnetname rnetname : String) (fuel : Nat) :
    ∀ (this : Module) (lr rr : Range), lr.runs →
      (∀ j, j < lr.rest.length → isInt (rr.stepFrom j)) → lr.rest.length < fuel →
      assignLoop env lnetname rnetname fuel this lr rr =
        recordAssigns env this ((List.range lr.rest.length).map
          (fun (j : Nat) => (bitName lnetname (lr.stepFrom j), bitName rnetname (rr.stepFrom j)))) := by
  induction fuel with
  | zero => intro this lr rr _ _ h; exact absurd h (Nat.not_lt_zero _)
  | succ n ih =>
    intro this lr rr hruns hrr h
    rw [assignLoop]
    rw [Range.rest_eq lr hruns] at h hrr ⊢
    by_cases hn : lr.hasNext = true
    · simp only [hn, if_true, List.length_cons] at h hrr ⊢
      rw [List.range_succ_eq_map, List.map_cons, List.map_map, recordAssigns,
        stepFrom_zero, stepFrom_zero]
      cases h1 : addNetAssign env this (bitName lnetname lr.curpos)
          (bitName rnetname rr.curpos) with
      | error e => rfl
      | ok this1 =>
        simp only
        by_cases hz : lr.incrpos.rest.length = 0
        · rw [hz] at h ⊢
          cases n with
          | zero => exact absurd h (by omega)
          | succ n2 =>
            rw [assignLoop]
            have hnn : lr.incrpos.hasNext = false := by
              have e := Range.rest_eq lr.incrpos (incrpos_runs hruns hn).2
              cases hh : lr.incrpos.hasNext with
              | false => rfl
              | true =>
                rw [hh] at e
                simp only [if_true] at e
                rw [e] at hz
                simp at hz
            simp [hnn, recordAssigns]
        · have h1r : isInt (rr.stepFrom 1) := hrr 1 (by omega)
          rw [ih _ _ _ (incrpos_runs hruns hn).2
            (fun j hj => by rw [stepFrom_succ rr j h1r]; exact hrr (j + 1) (by omega))
            (Nat.lt_of_succ_lt_succ h)]
          congr 1
          apply List.map_congr_left
          intro j _
          simp only [Function.comp,
            stepFrom_succ lr j (stepFrom_one_of_runs hruns hn), stepFrom_succ rr j h1r]
    · simp only [hn, Bool.false_eq_true, if_false, List.length_nil, List.range_zero,
        List.map_nil, recordAssigns]

/-- The loop of `Module::processAssign` on a left range whose step past `right`
overflows never ends. -/
theorem assignLoop_stuck (env : Env) (lnetname rnetname : String) (fuel : Nat) :
    ∀ (this : Module) (lr rr : Range), lr.stuck →
      assignLoop env lnetname rnetname fuel this lr rr = .error .outOfFuel := by
  induction fuel with
  | zero => intro this lr rr _; rfl
  | succ n ih =>
    intro this lr rr h
    rw [assignLoop]
    simp only [h.1, if_true]
    obtain ⟨this1, h1, _⟩ :=
      addNetAssign_spec env this (bitName lnetname lr.curpos) (bitName rnetname rr.curpos)
    rw [h1]
    exact ih _ _ _ (stuck_incrpos h)


theorem rest_ofBounds (l r : Int) :
    (Range.ofBounds l r).rest =
      (List.range ((l - r).natAbs + 1)).map (Range.ofBounds l r).bitAt :=
  bits_eq (Range.ofBounds l r) rfl

theorem stepFrom_ofBounds (l r : Int) (j : Nat) :
    (Range.ofBounds l r).stepFrom j = (Range.ofBounds l r).bitAt j := by
  unfold Range.stepFrom Range.bitAt Range.ofBounds
  by_cases h : r > l
  · simp [h]
  · simp [h]; omega

theorem bitAt_mono (l r : Int) (n j : Nat) (hj : j ≤ n) :
    ((Range.ofBounds l r).bitAt 0 ≤ (Range.ofBounds l r).bitAt j ∧
      (Range.ofBounds l r).bitAt j ≤ (Range.ofBounds l r).bitAt n) ∨
    ((Range.ofBounds l r).bitAt n ≤ (Range.ofBounds l r).bitAt j ∧
      (Range.ofBounds l r).bitAt j ≤ (Range.ofBounds l r).bitAt 0) := by
  unfold Range.bitAt Range.ofBounds
  by_cases h : r > l
  · simp only [h, if_true]; omega
  · simp only [h, if_false]; omega

/-- The bus-to-bus branch of `Module::processAssign`, for buses of any widths, when no
index overflows: one `ADDNETASSIGN` for each bit of the left bus, paired with the index
as many steps into the direction of the right bus. -/
theorem processAssign_bus (env : Env) (this : Module) (m : VerilogModule)
    (lnetname rnetname : String) (ll lr rl rr : Int) (fuel : Nat)
    (hm : this.module = some m)
    (hL : (m.declaration lnetname).bind VerilogDcl.bus = some (ll, lr))
    (hR : (m.declaration rnetname).bind VerilogDcl.bus = some (rl, rr))
    (hll : isInt ll) (hno : if lr > ll then lr < intMax else intMin < lr)
    (hrl : isInt rl) (hrn : isInt ((Range.ofBounds rl rr).bitAt (ll - lr).natAbs))
    (hfuel : (ll - lr).natAbs + 1 < fuel) :
    processAssign env fuel this lnetname rnetname =
      recordAssigns env this ((List.range ((ll - lr).natAbs + 1)).map
        (fun (i : Nat) => (bitName lnetname ((Range.ofBounds ll lr).bitAt i),
          bitName rnetname ((Range.ofBounds rl rr).bitAt i)))) := by
  unfold processAssign
  simp only [hm, hL, hR, getRange]
  have hlen : (Range.ofBounds ll lr).rest.length = (ll - lr).natAbs + 1 := by
    rw [rest_ofBounds]; simp
  have hrr : ∀ j, j < (Range.ofBounds ll lr).rest.length →
      isInt ((Range.ofBounds rl rr).stepFrom j) := by
    intro j hj
    rw [hlen] at hj
    rw [stepFrom_ofBounds]
    have h0 : isInt ((Range.ofBounds rl rr).bitAt 0) := by
      have e : (Range.ofBounds rl rr).bitAt 0 = rl := by
        unfold Range.bitAt Range.ofBounds; split <;> simp
      rw [e]; exact hrl
    exact isInt_between h0 hrn (bitAt_mono rl rr _ j (by omega))
  rw [assignLoop_eq _ _ _ _ _ _ _ (runs_ofBounds hll hno) hrr (by rw [hlen]; exact hfuel), hlen]
  congr 1
  apply List.map_congr_left
  intro j _
  rw [stepFrom_ofBounds, stepFrom_ofBounds]

/-- The bus-to-bus branch of `Module::processAssign` never ends when the step past the
right bound of the left bus overflows. -/
theorem processAssign_stuck (env : Env) (this : Module) (m : VerilogModule)
    (lnetname rnetname : String) (ll lr rl rr : Int) (fuel : Nat)
    (hm : this.module = some m)
    (hL : (m.declaration lnetname).bind VerilogDcl.bus = some (ll, lr))
    (hR : (m.declaration rnetname).bind VerilogDcl.bus = some (rl, rr))
    (hno : if lr > ll then intMax ≤ lr else lr ≤ intMin) :
    processAssign env fuel this lnetname rnetname = .error .outOfFuel := by
  unfold processAssign
  simp only [hm, hL, hR, getRange]
  apply assignLoop_stuck
  refine ⟨hasNext_resetpos (Range.ofBounds ll lr) rfl, ?_⟩
  show if decide (lr > ll) then intMax ≤ lr else lr ≤ intMin
  by_cases h : lr > ll
  · simpa only [h, decide_True, if_true] using hno
  · simpa only [h, decide_False, Bool.false_eq_true, if_false] using hno

theorem bitAt_holds (l r : Int) (i : Nat) :
    (Range.ofBounds l r).holds ((Range.ofBounds l r).bitAt i) ↔ i < (l - r).natAbs + 1 := by
  unfold Range.holds Range.bitAt Range.ofBounds
  by_cases h : r > l
  · simp only [h, if_true]; omega
  · simp only [h, if_false]; omega


theorem splitBusSide_bus {dcl : Option VerilogDcl} {netname : String} {left right : Int}
    (h : dcl.bind VerilogDcl.bus = some (left, right)) :
    splitBusSide dcl netname = bitName netname left := by
  unfold splitBusSide
  cases dcl with
  | none => simp at h
  | some d =>
    have h2 : d.bus = some (left, right) := h
    simp only [h2, getRange, Range.ofBounds]

theorem splitBusSide_scalar {dcl : Option VerilogDcl} {netname : String}
    (h : dcl.bind VerilogDcl.bus = none) : splitBusSide dcl netname = netname := by
  unfold splitBusSide
  cases dcl with
  | none => rfl
  | some d =>
    have h2 : d.bus = none := h
    simp only [h2]

/-- The effect of one `ADDNETASSIGN(lhs, rhs)` as the only statement: the single driver
edge, and nothing else created or changed. -/
theorem addNetAssign_single (env : Env) (this : Module) (lhs rhs : String) :
    ∃ this1, addNetAssign env this lhs rhs = .ok this1 ∧
      srcOf this1 (env.nameRegulation lhs) = some (env.nameRegulation rhs) ∧
      (lookup this1.symbols (env.nameRegulation rhs)).isSome = true ∧
      (∀ k, k ≠ env.nameRegulation lhs → k ≠ env.nameRegulation rhs →
        lookup this1.symbols k = lookup this.symbols k) ∧
      (∀ k, k ≠ env.nameRegulation lhs → srcOf this1 k = srcOf this k ∨
        (k = env.nameRegulation rhs ∧ lookup this.symbols k = none ∧ srcOf this1 k = some "")) ∧
      (∀ k, rangeOf this1 k = rangeOf this k) := by
  obtain ⟨this1, h1, hsrc, hrange, hframe⟩ := addNetAssign_spec env this lhs rhs
  refine ⟨this1, h1, ?_, ?_, hframe, ?_, hrange⟩
  · rw [hsrc]; simp
  · have e := hsrc (env.nameRegulation rhs)
    have hs : (lookup this1.symbols (env.nameRegulation rhs)).isSome =
        (srcOf this1 (env.nameRegulation rhs)).isSome := by
      unfold srcOf; cases lookup this1.symbols (env.nameRegulation rhs) <;> rfl
    rw [hs, e]
    by_cases hk : env.nameRegulation rhs = env.nameRegulation lhs
    · simp [hk]
    · simp [hk]
  · intro k hk
    have e := hsrc k
    simp only [hk, if_false] at e
    by_cases hk2 : k = env.nameRegulation rhs
    · simp only [hk2, if_true] at e
      cases hs0 : srcOf this k with
      | some v => left; rw [hk2, e, ← hk2, hs0]; rfl
      | none =>
        right
        refine ⟨hk2, srcOf_eq_none.mp hs0, ?_⟩
        rw [hk2, e, ← hk2, hs0]; rfl
    · simp only [hk2, if_false] at e
      exact Or.inl e

/-- C17 (single-bus assignment narrows to the leftmost bit): when exactly one side of
`assign L = R` is a declared bus `[left:right]`, `Module::processAssign` is the one
`ADDNETASSIGN` in which the bus side reads `busName[left]`: the `src` of the left-hand
name becomes the right-hand name, the right-hand entry exists, and no other entry (no
other bit of the bus) is created or changed. -/
theorem single_bus_assign_narrows (env : Env) (this : Module) (m : VerilogModule)
    (lnetname rnetname : String) (fuel : Nat) (hm : this.module = some m) :
    (∀ left right, (m.declaration lnetname).bind VerilogDcl.bus = some (left, right) →
      (m.declaration rnetname).bind VerilogDcl.bus = none →
      processAssign env fuel this lnetname rnetname =
        addNetAssign env this (bitName lnetname left) rnetname ∧
      ∃ this1, processAssign env fuel this lnetname rnetname = .ok this1 ∧
        srcOf this1 (env.nameRegulation (bitName lnetname left)) =
          some (env.nameRegulation rnetname) ∧
        (lookup this1.symbols (env.nameRegulation rnetname)).isSome = true ∧
        (∀ k, k ≠ env.nameRegulation (bitName lnetname left) →
          k ≠ env.nameRegulation rnetname →
          lookup this1.symbols k = lookup this.symbols k) ∧
        (∀ k, k ≠ env.nameRegulation (bitName lnetname left) →
          srcOf this1 k = srcOf this k ∨
          (k = env.nameRegulation rnetname ∧ lookup this.symbols k = none ∧
            srcOf this1 k = some "")) ∧
        (∀ k, rangeOf this1 k = rangeOf this k)) ∧
    (∀ left right, (m.declaration lnetname).bind VerilogDcl.bus = none →
      (m.declaration rnetname).bind VerilogDcl.bus = some (left, right) →
      processAssign env fuel this lnetname rnetname =
        addNetAssign env this lnetname (bitName rnetname left) ∧
      ∃ this1, processAssign env fuel this lnetname rnetname = .ok this1 ∧
        srcOf this1 (env.nameRegulation lnetname) =
          some (env.nameRegulation (bitName rnetname left)) ∧
        (lookup this1.symbols (env.nameRegulation (bitName rnetname left))).isSome = true ∧
        (∀ k, k ≠ env.nameRegulation lnetname →
          k ≠ env.nameRegulation (bitName rnetname left) →
          lookup this1.symbols k = lookup this.symbols k) ∧
        (∀ k, k ≠ env.nameRegulation lnetname →
          srcOf this1 k = srcOf this k ∨
          (k = env.nameRegulation (bitName rnetname left) ∧ lookup this.symbols k = none ∧
            srcOf this1 k = some "")) ∧
        (∀ k, rangeOf this1 k = rangeOf this k)) := by
  constructor
  · intro left right hL hR
    have e : processAssign env fuel this lnetname rnetname =
        addNetAssign env this (bitName lnetname left) rnetname := by
      unfold processAssign
      simp only [hm, hL, hR]
      rw [splitBusSide_bus hL, splitBusSide_scalar hR]
    refine ⟨e, ?_⟩
    rw [e]
    exact addNetAssign_single env this _ _
  · intro left right hL hR
    have e : processAssign env fuel this lnetname rnetname =
        addNetAssign env this lnetname (bitName rnetname left) := by
      unfold processAssign
      simp only [hm, hL, hR]
      rw [splitBusSide_scalar hL, splitBusSide_bus hR]
    refine ⟨e, ?_⟩
    rw [e]
    exact addNetAssign_single env this _ _

theorem single_bus_assign_narrows_witness :
    ∃ this1, processAssign plainEnv 0 narrowThis "a" "c" = .ok this1 ∧
      srcOf this1 "a[3]" = some "c" := by
  obtain ⟨_, this1, h1, hsrc, _⟩ :=
    (single_bus_assign_narrows plainEnv narrowThis narrowTop "a" "c" 0 (by decide)).1 3 0
      (by decide) (by decide)
  exact ⟨this1, h1, hsrc⟩


/-- The table after the bus-to-bus branch of `Module::processAssign`, for buses of any
widths, when no index overflows: it returns; the entries of every paired bit exist; when the left bit names stay
distinct each left bit has its paired right bit as `src`; no range is created, and every
other `src` and every other entry is as before (a new right bit has an empty `src`). -/
theorem processAssign_bus_table (env : Env) (this : Module) (m : VerilogModule)
    (lnetname rnetname : String) (ll lr rl rr : Int) (fuel : Nat)
    (hm : this.module = some m)
    (hL : (m.declaration lnetname).bind VerilogDcl.bus = some (ll, lr))
    (hR : (m.declaration rnetname).bind VerilogDcl.bus = some (rl, rr))
    (hll : isInt ll) (hno : if lr > ll then lr < intMax else intMin < lr)
    (hrl : isInt rl) (hrn : isInt ((Range.ofBounds rl rr).bitAt (ll - lr).natAbs))
    (hfuel : (ll - lr).natAbs + 1 < fuel) :
    ∃ this1, processAssign env fuel this lnetname rnetname = .ok this1 ∧
      (∀ i, i < (ll - lr).natAbs + 1 →
        (lookup this1.symbols
          (env.nameRegulation (bitName lnetname ((Range.ofBounds ll lr).bitAt i)))).isSome =
            true ∧
        (lookup this1.symbols
          (env.nameRegulation (bitName rnetname ((Range.ofBounds rl rr).bitAt i)))).isSome =
            true) ∧
      ((∀ i, i < (ll - lr).natAbs + 1 → ∀ j, j < (ll - lr).natAbs + 1 →
          env.nameRegulation (bitName lnetname ((Range.ofBounds ll lr).bitAt i)) =
            env.nameRegulation (bitName lnetname ((Range.ofBounds ll lr).bitAt j)) → i = j) →
        ∀ i, i < (ll - lr).natAbs + 1 →
          srcOf this1 (env.nameRegulation (bitName lnetname ((Range.ofBounds ll lr).bitAt i))) =
            some (env.nameRegulation (bitName rnetname ((Range.ofBounds rl rr).bitAt i)))) ∧
      (∀ k, (∀ i, i < (ll - lr).natAbs + 1 →
          k ≠ env.nameRegulation (bitName lnetname ((Range.ofBounds ll lr).bitAt i))) →
        srcOf this1 k = srcOf this k ∨
        (lookup this.symbols k = none ∧ srcOf this1 k = some "" ∧
          ∃ i, i < (ll - lr).natAbs + 1 ∧
            k = env.nameRegulation (bitName rnetname ((Range.ofBounds rl rr).bitAt i)))) ∧
      (∀ k, rangeOf this1 k = rangeOf this k) ∧
      (∀ k, (∀ i, i < (ll - lr).natAbs + 1 →
          k ≠ env.nameRegulation (bitName lnetname ((Range.ofBounds ll lr).bitAt i)) ∧
          k ≠ env.nameRegulation (bitName rnetname ((Range.ofBounds rl rr).bitAt i))) →
        lookup this1.symbols k = lookup this.symbols k) := by
  rw [processAssign_bus env this m lnetname rnetname ll lr rl rr fuel hm hL hR hll hno hrl hrn
    hfuel]
  obtain ⟨this1, h1, hsrc, hrange, hframe, _, hex, hnd⟩ :=
    recordAssigns_spec env ((List.range ((ll - lr).natAbs + 1)).map
      (fun (i : Nat) => (bitName lnetname ((Range.ofBounds ll lr).bitAt i),
        bitName rnetname ((Range.ofBounds rl rr).bitAt i)))) this
  have hmem : ∀ i, i < (ll - lr).natAbs + 1 →
      (bitName lnetname ((Range.ofBounds ll lr).bitAt i),
        bitName rnetname ((Range.ofBounds rl rr).bitAt i)) ∈
      (List.range ((ll - lr).natAbs + 1)).map
        (fun (i : Nat) => (bitName lnetname ((Range.ofBounds ll lr).bitAt i),
          bitName rnetname ((Range.ofBounds rl rr).bitAt i))) :=
    fun i hi => List.mem_map.mpr ⟨i, List.mem_range.mpr hi, rfl⟩
  refine ⟨this1, h1, fun i hi => hex _ (hmem i hi), ?_, ?_, hrange, ?_⟩
  · intro hdist i hi
    refine hnd ?_ _ (hmem i hi)
    rw [List.map_map]
    refine List.Nodup.map_on ?_ (List.nodup_range _)
    intro x hx y hy hxy
    exact hdist x (List.mem_range.mp hx) y (List.mem_range.mp hy) hxy
  · intro k hk
    have hk2 : ∀ p ∈ (List.range ((ll - lr).natAbs + 1)).map
        (fun (i : Nat) => (bitName lnetname ((Range.ofBounds ll lr).bitAt i),
          bitName rnetname ((Range.ofBounds rl rr).bitAt i))),
        k ≠ env.nameRegulation p.1 := by
      intro p hp
      obtain ⟨i, hi, rfl⟩ := List.mem_map.mp hp
      exact hk i (List.mem_range.mp hi)
    rcases hsrc k hk2 with h | ⟨hnone, hemp, p, hp, hpk⟩
    · exact Or.inl h
    · obtain ⟨i, hi, rfl⟩ := List.mem_map.mp hp
      exact Or.inr ⟨hnone, hemp, i, List.mem_range.mp hi, hpk⟩
  · intro k hk
    refine hframe k ?_
    intro p hp
    obtain ⟨i, hi, rfl⟩ := List.mem_map.mp hp
    exact hk i (List.mem_range.mp hi)


theorem bitAt_last {l r : Int} {n : Nat} (h : n = (l - r).natAbs) :
    (Range.ofBounds l r).bitAt n = r := by
  unfold Range.bitAt Range.ofBounds
  by_cases hgt : r > l
  · simp only [hgt, if_true]; omega
  · simp only [hgt, if_false]; omega

/-- C13 as stated fails at the limit of `int`: for `assign a = b` with
`a[2147483646:2147483647]` and `b[1:0]`, two buses of width 2, the loop of
`Module::processAssign` never ends, whatever the fuel, because the step past the right
bound of `a` overflows and `lr.hasNext()` stays true. -/
theorem bus_assign_never_ends_at_int_max :
    (2147483646 - 2147483647 : Int).natAbs = (1 - 0 : Int).natAbs ∧
    ∀ fuel, processAssign plainEnv fuel maxThis "a" "b" = .error .outOfFuel :=
  ⟨by decide, fun fuel =>
    processAssign_stuck plainEnv maxThis maxTop "a" "b" 2147483646 2147483647 1 0 fuel
      (by decide) (by decide) (by decide) (by decide)⟩

/-- C13 amended (bus-to-bus continuous assignment): for `assign L = R` between declared
buses of equal width `w` whose bounds are `int` values, such that the step past the right
bound of `L` does not overflow and the left bit names stay distinct,
`Module::processAssign` returns
and, for every `i < w`, the entries `L[l_i]` and `R[r_i]` exist, `l_i` and `r_i` being the
`i`-th index of each bus in its own direction and within its own bounds, and the `src` of
`L[l_i]` is `R[r_i]`; it creates no range, and changes no other `src` (a new `R[r_i]`
has an empty one).  In scenario 2 (`a[3:0]` assigned from the undriven `b[3:0]`),
`ModuleList::findSource` on `a[2]` returns `[b[2]]`. -/
theorem bus_assign_pairs_bits (env : Env) (this : Module) (m : VerilogModule)
    (lnetname rnetname : String) (ll lr rl rr : Int) (fuel : Nat)
    (hm : this.module = some m)
    (hL : (m.declaration lnetname).bind VerilogDcl.bus = some (ll, lr))
    (hR : (m.declaration rnetname).bind VerilogDcl.bus = some (rl, rr))
    (hll : isInt ll) (hrl : isInt rl) (hrr : isInt rr)
    (hno : if lr > ll then lr < intMax else intMin < lr)
    (hw : (ll - lr).natAbs = (rl - rr).natAbs)
    (hfuel : (ll - lr).natAbs + 1 < fuel)
    (hdist : ∀ i, i < (ll - lr).natAbs + 1 → ∀ j, j < (ll - lr).natAbs + 1 →
      env.nameRegulation (bitName lnetname ((Range.ofBounds ll lr).bitAt i)) =
        env.nameRegulation (bitName lnetname ((Range.ofBounds ll lr).bitAt j)) → i = j) :
    (∃ this1, processAssign env fuel this lnetname rnetname = .ok this1 ∧
      (∀ i, i < (ll - lr).natAbs + 1 →
        (Range.ofBounds ll lr).holds ((Range.ofBounds ll lr).bitAt i) ∧
        (Range.ofBounds rl rr).holds ((Range.ofBounds rl rr).bitAt i) ∧
        srcOf this1 (env.nameRegulation (bitName lnetname ((Range.ofBounds ll lr).bitAt i))) =
          some (env.nameRegulation (bitName rnetname ((Range.ofBounds rl rr).bitAt i))) ∧
        (lookup this1.symbols
          (env.nameRegulation (bitName rnetname ((Range.ofBounds rl rr).bitAt i)))).isSome =
            true) ∧
      (∀ k, (∀ i, i < (ll - lr).natAbs + 1 →
          k ≠ env.nameRegulation (bitName lnetname ((Range.ofBounds ll lr).bitAt i))) →
        srcOf this1 k = srcOf this k ∨
        (lookup this.symbols k = none ∧ srcOf this1 k = some "" ∧
          ∃ i, i < (ll - lr).natAbs + 1 ∧
            k = env.nameRegulation (bitName rnetname ((Range.ofBounds rl rr).bitAt i)))) ∧
      (∀ k, rangeOf this1 k = rangeOf this k) ∧
      (∀ k, (∀ i, i < (ll - lr).natAbs + 1 →
          k ≠ env.nameRegulation (bitName lnetname ((Range.ofBounds ll lr).bitAt i)) ∧
          k ≠ env.nameRegulation (bitName rnetname ((Range.ofBounds rl rr).bitAt i))) →
        lookup this1.symbols k = lookup this.symbols k)) ∧
    ((builtList plainEnv "top" busTop).findSource 10 "a[2]").map Prod.fst = .ok ["b[2]"] := by
  refine ⟨?_, by decide⟩
  have hrn : isInt ((Range.ofBounds rl rr).bitAt (ll - lr).natAbs) := by
    rw [bitAt_last hw]; exact hrr
  obtain ⟨this1, h1, hex, hedge, hsrc, hrange, hframe⟩ :=
    processAssign_bus_table env this m lnetname rnetname ll lr rl rr fuel hm hL hR hll hno hrl
      hrn hfuel
  refine ⟨this1, h1, fun i hi => ⟨?_, ?_, hedge hdist i hi, (hex i hi).2⟩, hsrc, hrange, hframe⟩
  · exact (bitAt_holds ll lr i).mpr hi
  · exact (bitAt_holds rl rr i).mpr (by rw [← hw]; exact hi)

theorem bus_assign_pairs_bits_witness :
    ∃ this1, processAssign plainEnv 10 busThis "a" "b" = .ok this1 ∧
      srcOf this1 "a[2]" = some "b[2]" ∧ (lookup this1.symbols "b[2]").isSome = true := by
  obtain ⟨this1, h1, hbits, _⟩ :=
    (bus_assign_pairs_bits plainEnv busThis busTop "a" "b" 3 0 3 0 10 (by decide) (by decide)
      (by decide) (by decide) (by decide) (by decide) (by decide) (by decide) (by decide)
      (by decide)).1
  exact ⟨this1, h1, (hbits 1 (by decide)).2.2.1, (hbits 1 (by decide)).2.2.2⟩

/-- C14 as stated fails: for `assign a = b` with `a[3:0]` and `b[1:0]`,
`Module::processAssign` records four driver edges, not two, and creates the entries
`b[-1]` and `b[-2]`, whose indices lie outside the bounds of `b`. -/
theorem bus_assign_overruns_narrow_source :
    (processAssign plainEnv 10 misThis "a" "b").map
        (fun t => [srcOf t "a[3]", srcOf t "a[2]", srcOf t "a[1]", srcOf t "a[0]"]) =
      .ok [some "b[1]", some "b[0]", some "b[-1]", some "b[-2]"] ∧
    (processAssign plainEnv 10 misThis "a" "b").map
        (fun t => [(lookup t.symbols "b[-1]").isSome, (lookup t.symbols "b[-2]").isSome]) =
      .ok [true, true] ∧
    ¬ (Range.ofBounds 1 0).holds (-1) ∧
    (symAt (builtList plainEnv "top" misTop) "top" "a[0]").map Symbol.src = some "b[-2]" := by
  refine ⟨by decide, by decide, by decide, by decide⟩

/-- C14 amended: for `assign L = R` between declared buses of widths `wl` and `wr`, when
no index overflows (the left bounds are `int` values, the step past the right bound of
`L` is an `int`, and so is the index `wl - 1` steps from the left bound of `R`),
`Module::processAssign`
is a run of exactly `wl` `ADDNETASSIGN`, one for each bit of `L` (the loop tests the left
range only): the `i`-th pairs `L[l_i]`, within the bounds of `L`, with `R[r_i]`, `r_i`
being `i` steps from the left bound of `R` in its direction, which is within the bounds
of `R` exactly when `i < wr`.  Both entries exist afterwards, and when the left bit names
stay distinct the `src` of `L[l_i]` is `R[r_i]`. -/
theorem bus_assign_runs_left_width (env : Env) (this : Module) (m : VerilogModule)
    (lnetname rnetname : String) (ll lr rl rr : Int) (fuel : Nat)
    (hm : this.module = some m)
    (hL : (m.declaration lnetname).bind VerilogDcl.bus = some (ll, lr))
    (hR : (m.declaration rnetname).bind VerilogDcl.bus = some (rl, rr))
    (hll : isInt ll) (hrl : isInt rl)
    (hno : if lr > ll then lr < intMax else intMin < lr)
    (hrn : isInt ((Range.ofBounds rl rr).bitAt (ll - lr).natAbs))
    (hfuel : (ll - lr).natAbs + 1 < fuel) :
    processAssign env fuel this lnetname rnetname =
      recordAssigns env this ((List.range ((ll - lr).natAbs + 1)).map
        (fun (i : Nat) => (bitName lnetname ((Range.ofBounds ll lr).bitAt i),
          bitName rnetname ((Range.ofBounds rl rr).bitAt i)))) ∧
    ((List.range ((ll - lr).natAbs + 1)).map
      (fun (i : Nat) => (bitName lnetname ((Range.ofBounds ll lr).bitAt i),
        bitName rnetname ((Range.ofBounds rl rr).bitAt i)))).length = (ll - lr).natAbs + 1 ∧
    ∃ this1, processAssign env fuel this lnetname rnetname = .ok this1 ∧
      (∀ i, i < (ll - lr).natAbs + 1 →
        (Range.ofBounds ll lr).holds ((Range.ofBounds ll lr).bitAt i) ∧
        ((Range.ofBounds rl rr).holds ((Range.ofBounds rl rr).bitAt i) ↔
          i < (rl - rr).natAbs + 1) ∧
        (lookup this1.symbols
          (env.nameRegulation (bitName lnetname ((Range.ofBounds ll lr).bitAt i)))).isSome =
            true ∧
        (lookup this1.symbols
          (env.nameRegulation (bitName rnetname ((Range.ofBounds rl rr).bitAt i)))).isSome =
            true) ∧
      ((∀ i, i < (ll - lr).natAbs + 1 → ∀ j, j < (ll - lr).natAbs + 1 →
          env.nameRegulation (bitName lnetname ((Range.ofBounds ll lr).bitAt i)) =
            env.nameRegulation (bitName lnetname ((Range.ofBounds ll lr).bitAt j)) → i = j) →
        ∀ i, i < (ll - lr).natAbs + 1 →
          srcOf this1 (env.nameRegulation (bitName lnetname ((Range.ofBounds ll lr).bitAt i))) =
            some (env.nameRegulation (bitName rnetname ((Range.ofBounds rl rr).bitAt i)))) ∧
      (∀ k, (∀ i, i < (ll - lr).natAbs + 1 →
          k ≠ env.nameRegulation (bitName lnetname ((Range.ofBounds ll lr).bitAt i)) ∧
          k ≠ env.nameRegulation (bitName rnetname ((Range.ofBounds rl rr).bitAt i))) →
        lookup this1.symbols k = lookup this.symbols k) := by
  refine ⟨processAssign_bus env this m lnetname rnetname ll lr rl rr fuel hm hL hR hll hno hrl
    hrn hfuel, by simp, ?_⟩
  obtain ⟨this1, h1, hex, hedge, _, _, hframe⟩ :=
    processAssign_bus_table env this m lnetname rnetname ll lr rl rr fuel hm hL hR hll hno hrl
      hrn hfuel
  exact ⟨this1, h1,
    fun i hi => ⟨(bitAt_holds ll lr i).mpr hi, bitAt_holds rl rr i, (hex i hi).1, (hex i hi).2⟩,
    hedge, hframe⟩

theorem bus_assign_runs_left_width_witness :
    ∃ this1, processAssign plainEnv 10 misThis "a" "b" = .ok this1 ∧
      srcOf this1 "a[0]" = some "b[-2]" ∧ ¬ (Range.ofBounds 1 0).holds (-2) := by
  obtain ⟨this1, h1, hbits, hedge, _⟩ :=
    (bus_assign_runs_left_width plainEnv misThis misTop "a" "b" 3 0 1 0 10 (by decide)
      (by decide) (by decide) (by decide) (by decide) (by decide) (by decide)
      (by decide)).2.2
  exact ⟨this1, h1, hedge (by decide) 3 (by decide), by decide⟩

theorem addNetAndConn_direction (env : Env) (this : Module) (instport connexpr : String)
    (isInput : Bool) :
    ∃ this1, addNetAndConn env this instport connexpr isInput = .ok this1 ∧
      (lookup this1.symbols (env.nameRegulation instport)).isSome = true ∧
      (lookup this1.symbols (env.nameRegulation connexpr)).isSome = true ∧
      (env.nameRegulation instport ≠ env.nameRegulation connexpr →
        (isInput = true →
          srcOf this1 (env.nameRegulation instport) = some (env.nameRegulation connexpr) ∧
          srcOf this1 (env.nameRegulation connexpr) =
            some ((srcOf this (env.nameRegulation connexpr)).getD "")) ∧
        (isInput = false →
          srcOf this1 (env.nameRegulation connexpr) = some (env.nameRegulation instport) ∧
          srcOf this1 (env.nameRegulation instport) =
            some ((srcOf this (env.nameRegulation instport)).getD ""))) ∧
      (env.nameRegulation instport = env.nameRegulation connexpr →
        srcOf this1 (env.nameRegulation instport) = some (env.nameRegulation instport)) := by
  obtain ⟨this1, h1, hP, hN, hsrc, _, _⟩ := addNetAndConn_spec env this instport connexpr isInput
  refine ⟨this1, h1, hP, hN, ?_, ?_⟩
  · intro hne
    have hne2 : env.nameRegulation connexpr ≠ env.nameRegulation instport := fun e => hne e.symm
    refine ⟨?_, ?_⟩
    · intro hi
      subst hi
      refine ⟨?_, ?_⟩
      · rw [hsrc]; simp
      · rw [hsrc]; simp [hne2]
    · intro hi
      subst hi
      refine ⟨?_, ?_⟩
      · rw [hsrc]; simp
      · rw [hsrc]; simp [hne]
  · intro heq
    rw [hsrc]
    cases isInput
    · simp [heq]
    · simp [heq]

/-- C15 as stated fails when the pin path and the net are the same name: connecting the
input pin `x` of instance `u1` to a net called `u1/x` whose `src` was `old` leaves that
net with `src` `u1/x`, so the `src` of the net is modified by the connection; the same
happens for the input pin `i` of a primitive cell `u2` connected to a net called `u2/i`. -/
theorem pin_connection_self_net_modified :
    srcOf { symbols := [("u1/x", netSym "u1/x" "old")], module := none } "u1/x" = some "old" ∧
    (connectPin plainEnv 5 { symbols := [("u1/x", netSym "u1/x" "old")], module := none }
        "u1" "x" "u1/x" { symbols := [], module := some and2Mod }).map
      (fun t => srcOf t "u1/x") = .ok (some "u1/x") ∧
    (processLibertyInst plainEnv { symbols := [("u2/i", netSym "u2/i" "old")], module := none }
        "u2" invCell [some "u2/i", none]).map
      (fun t => srcOf t "u2/i") = .ok (some "u2/i") := by
  refine ⟨by decide, by decide, by decide⟩

/-- C15 amended: when construction connects the instance pin `P = instanceName/portName`
to the net `N`, `Module::connectPin` on a scalar port of the submodule, and the step of
`Module::processLibertyInst` for a pin with a net name, both return and both entries `P`
and `N` exist afterwards.  When the two names differ after normalisation: if the port is
an input the `src` of `P` is `N` and the `src` of `N` is what it was (empty if `N` is
new); otherwise the `src` of `N` is `P` and the `src` of `P` is what it was (empty if
new).  When the two names are the same after normalisation, the `src` of that one entry
is its own name. -/
theorem pin_connection_direction (env : Env) (this : Module) (instname port net : String) :
    (∀ (fuel : Nat) (submod : Module) (sm : VerilogModule) (dcl : VerilogDcl),
      submod.module = some sm → sm.declaration port = some dcl → dcl.bus = none →
      ∃ this1, connectPin env fuel this instname port net submod = .ok this1 ∧
        (lookup this1.symbols (env.nameRegulation (instname ++ "/" ++ port))).isSome = true ∧
        (lookup this1.symbols (env.nameRegulation net)).isSome = true ∧
        (env.nameRegulation (instname ++ "/" ++ port) ≠ env.nameRegulation net →
          (dcl.direction.isInput = true →
            srcOf this1 (env.nameRegulation (instname ++ "/" ++ port)) =
              some (env.nameRegulation net) ∧
            srcOf this1 (env.nameRegulation net) =
              some ((srcOf this (env.nameRegulation net)).getD "")) ∧
          (dcl.direction.isInput = false →
            srcOf this1 (env.nameRegulation net) =
              some (env.nameRegulation (instname ++ "/" ++ port)) ∧
            srcOf this1 (env.nameRegulation (instname ++ "/" ++ port)) =
              some ((srcOf this (env.nameRegulation (instname ++ "/" ++ port))).getD ""))) ∧
        (env.nameRegulation (instname ++ "/" ++ port) = env.nameRegulation net →
          srcOf this1 (env.nameRegulation (instname ++ "/" ++ port)) =
            some (env.nameRegulation (instname ++ "/" ++ port)))) ∧
    (∀ (netNames : List (Option String)) (item : LibertyPort) (rest : List LibertyPort),
      item.name = port → netNames.get? item.pinIndex = some (some net) →
      ∃ this1, libertyPins env instname netNames this (item :: rest) =
          libertyPins env instname netNames this1 rest ∧
        (lookup this1.symbols (env.nameRegulation (instname ++ "/" ++ port))).isSome = true ∧
        (lookup this1.symbols (env.nameRegulation net)).isSome = true ∧
        (env.nameRegulation (instname ++ "/" ++ port) ≠ env.nameRegulation net →
          (item.direction.isInput = true →
            srcOf this1 (env.nameRegulation (instname ++ "/" ++ port)) =
              some (env.nameRegulation net) ∧
            srcOf this1 (env.nameRegulation net) =
              some ((srcOf this (env.nameRegulation net)).getD "")) ∧
          (item.direction.isInput = false →
            srcOf this1 (env.nameRegulation net) =
              some (env.nameRegulation (instname ++ "/" ++ port)) ∧
            srcOf this1 (env.nameRegulation (instname ++ "/" ++ port)) =
              some ((srcOf this (env.nameRegulation (instname ++ "/" ++ port))).getD ""))) ∧
        (env.nameRegulation (instname ++ "/" ++ port) = env.nameRegulation net →
          srcOf this1 (env.nameRegulation (instname ++ "/" ++ port)) =
            some (env.nameRegulation (instname ++ "/" ++ port)))) := by
  refine ⟨?_, ?_⟩
  · intro fuel submod sm dcl hsm hdcl hbus
    have hc : connectPin env fuel this instname port net submod =
        addNetAndConn env this (instname ++ "/" ++ port) net dcl.direction.isInput := by
      simp only [connectPin, portdir, hsm, hdcl, hbus]
    rw [hc]
    exact addNetAndConn_direction env this (instname ++ "/" ++ port) net dcl.direction.isInput
  · intro netNames item rest hname hget
    obtain ⟨this1, h1, hrest⟩ :=
      addNetAndConn_direction env this (instname ++ "/" ++ port) net item.direction.isInput
    refine ⟨this1, ?_, hrest⟩
    simp only [libertyPins, hget, hname, h1]

theorem pin_connection_direction_witness :
    (∃ this1, connectPin plainEnv 5 { symbols := [("net5", netSym "net5" "drv")], module := none }
        "u1" "x" "net5" { symbols := [], module := some and2Mod } = .ok this1 ∧
      srcOf this1 "u1/x" = some "net5" ∧ srcOf this1 "net5" = some "drv") ∧
    (∃ this1, connectPin plainEnv 5 { symbols := [("u1/x", netSym "u1/x" "old")], module := none }
        "u1" "x" "u1/x" { symbols := [], module := some and2Mod } = .ok this1 ∧
      srcOf this1 "u1/x" = some "u1/x") := by
  constructor
  · obtain ⟨this1, h1, _, _, hne, _⟩ :=
      (pin_connection_direction plainEnv
        { symbols := [("net5", netSym "net5" "drv")], module := none } "u1" "x" "net5").1 5
        { symbols := [], module := some and2Mod } and2Mod ⟨"x", .input, none⟩ rfl (by decide) rfl
    exact ⟨this1, h1, (hne (by decide)).1 rfl⟩
  · obtain ⟨this1, h1, _, _, _, heq⟩ :=
      (pin_connection_direction plainEnv
        { symbols := [("u1/x", netSym "u1/x" "old")], module := none } "u1" "x" "u1/x").1 5
        { symbols := [], module := some and2Mod } and2Mod ⟨"x", .input, none⟩ rfl (by decide) rfl
    exact ⟨this1, h1, heq (by decide)⟩

/-- C16 (ports stay marked as ports) fails in the code: `Module::addNetSymbol` always
overwrites `isPort` with its argument, and the assignment and connection macros call it
with `false`.  For the module `M` with port list `[p]` and body `output p; wire q;
assign p = q`, construction returns and the entry of `p` has `isPort = false`; likewise
the port `x` of `AND2` in scenario 3, which is connected to a cell pin in the body. -/
theorem port_flag_cleared_by_use :
    (∀ (env : Env) (this : Module) (netname : String),
      (lookup (addNetSymbol env this netname false).symbols (env.nameRegulation netname)).map
        Symbol.isPort = some false) ∧
    escM.ports = ["p"] ∧ buildReturns plainEnv "M" escM = true ∧
    (symAt (builtList plainEnv "M" escM) "M" "p").map Symbol.isPort = some false ∧
    and2Mod.ports = ["x"] ∧ buildReturns hierEnv "top" hierTop = true ∧
    (symAt (builtList hierEnv "top" hierTop) "AND2" "x").map Symbol.isPort = some false := by
  refine ⟨?_, by decide, by decide, by decide, by decide, by decide, by decide⟩
  intro env this netname
  rw [lookup_addNetSymbol]
  simp


/-! ## The limit of int -/

/-- The loop of `Module::findSource` on a range whose step past `right` overflows never
ends: with the bit entries absent, so that every bit query returns at once, it runs out
of any fuel. -/
theorem findSourceLoop_stuck (self key : String) (fuel : Nat) :
    ∀ (ml : ModuleList) (acc : List String) (s : Symbol) (rg : Range),
      symAt ml self key = some s → s.range = some rg → rg.stuck →
      (∀ c, symAt ml self (bitName key c) = none) →
      findSourceLoop fuel ml self key acc = .error .outOfFuel := by
  induction fuel with
  | zero => intro ml acc s rg _ _ _ _; rfl
  | succ n ih =>
    intro ml acc s rg hs hr hst habs
    obtain ⟨this, hm⟩ := getModule_of_isSome (isSome_of_symAt hs)
    rw [findSourceLoop]
    have hs2 := hs
    rw [symAt_eq_of_getModule hm] at hs2
    simp only [hm, hs2, hr, hst.1, if_true]
    cases n with
    | zero => rfl
    | succ n2 =>
      have hb := habs rg.curpos
      rw [symAt_eq_of_getModule hm] at hb
      have h1 : findOneSource (n2 + 1) ml self (bitName key rg.curpos) =
          .ok (bitName key rg.curpos, ml) := by
        rw [findOneSource]; simp only [hm, hb]
      rw [h1]
      simp only
      refine ih _ _ _ _ (symAt_updRange_self hs hr Range.incrpos) rfl (stuck_incrpos hst) ?_
      intro c
      unfold updRange
      rw [symAt_updSymbol_other _ _ _ _ _ _ (Or.inr ?_)]
      · exact habs c
      · intro e
        have := habs c
        rw [e, hs] at this
        cases this

theorem bitName_ne_self (key : String) (c : Int) : bitName key c ≠ key := by
  intro h
  have := congrArg String.length h
  simp only [bitName, String.length_append] at this
  have e1 : ("[" : String).length = 1 := by decide
  have e2 : ("]" : String).length = 1 := by decide
  omega

/-- C2 as stated fails at the limit of `int`: for the bus `d[2147483646:2147483647]`,
whose two bit queries return at once, `Module::findSource` never returns, whatever the
fuel: after index `2147483647` the cursor wraps to the least `int` and `hasNext()` stays
true.  The claim promises exactly two results. -/
theorem bus_expansion_never_ends_at_int_max :
    (∀ fuel, findSource fuel maxList "top" "d" = .error .outOfFuel) ∧
    findOneSource 1 maxList "top" "d[2147483646]" = .ok ("d[2147483646]", maxList) ∧
    findOneSource 1 maxList "top" "d[2147483647]" = .ok ("d[2147483647]", maxList) ∧
    (Range.ofBounds 2147483646 2147483647).incrpos.incrpos.curpos = -2147483648 := by
  refine ⟨?_, by decide, by decide, by decide⟩
  intro fuel
  have hm : maxList.getModule "top" =
      .ok { symbols := [("d", busSym "d" 2147483646 2147483647)], module := none } := by
    decide
  unfold findSource
  simp only [hm]
  have hl : lookup [("d", busSym "d" 2147483646 2147483647)] "d" =
      some (busSym "d" 2147483646 2147483647) := by decide
  have hb : (busSym "d" 2147483646 2147483647).isBus = true := by decide
  simp only [hl, hb, if_true]
  have hs : symAt maxList "top" "d" = some (busSym "d" 2147483646 2147483647) := by decide
  have hr : (busSym "d" 2147483646 2147483647).range =
      some (Range.ofBounds 2147483646 2147483647) := rfl
  refine findSourceLoop_stuck "top" "d" fuel _ [] _ (Range.ofBounds 2147483646 2147483647).resetpos
    (symAt_updRange_self hs hr Range.resetpos) rfl (by decide) ?_
  intro c
  unfold updRange
  rw [symAt_updSymbol_other _ _ _ _ _ _ (Or.inr (bitName_ne_self "d" c))]
  have hne : ¬ "d" = bitName "d" c := fun e => bitName_ne_self "d" c e.symm
  simp [symAt, maxList, lookup, hne]


/-! ## Terminal stability -/

theorem compose_of_find {key : String} {pos : Nat} (h : find key '/' = some pos) :
    substrTo key pos ++ "/" ++ substrFrom key (pos + 1) = key := by
  unfold find at h
  split at h
  · rename_i hlt
    simp only [Option.some.injEq] at h
    subst h
    apply String.ext
    show (substrTo key _ ++ "/" ++ substrFrom key _).toList = key.toList
    rw [toList_compose]
    show List.take _ key.toList ++ '/' :: List.drop _ key.toList = key.toList
    have hget : key.toList[List.indexOf '/' key.toList] = '/' := List.getElem_indexOf hlt
    conv_rhs => rw [← List.take_append_drop (List.indexOf '/' key.toList) key.toList]
    rw [List.drop_eq_getElem_cons hlt, hget]
  · cases h

/-- C6 amended (terminal stability): for a key present in the root table as a scalar
entry whose `src` is the key itself, `Module::findOneSource` returns the key.
`ModuleList::findSource` returns exactly `[key]` when the key holds no `/`, when the
entry named by the part of the key before its first `/` has an empty `moduleName`, and
when that part names an instance of a module in which `Module::findHierSource` on the
rest of the key returns the rest itself.  In general, when that part names an instance
of a module in which `Module::findHierSource` on the rest returns `subs`, the result is
the sequence of what `Module::findOneSource` returns for the composed names
`part/s`, `s` in `subs` (the path itself if that sequence is empty), whatever the entry
of the key holds. -/
theorem terminal_stability (ml : ModuleList) (key : String) (this : Module) (sym : Symbol)
    (hm : ml.getModule ml.rootModule = .ok this) (hs : lookup this.symbols key = some sym)
    (hb : sym.isBus = false) (hsrc : sym.src = key) :
    (∀ fuel, findOneSource (fuel + 1) ml ml.rootModule key = .ok (key, ml)) ∧
    (find key '/' = none → ∀ fuel, ml.findSource (fuel + 2) key = .ok ([key], ml)) ∧
    (∀ pos, find key '/' = some pos →
      (instModule ml this (substrTo key pos) = .ok none →
        ∀ fuel, ml.findSource (fuel + 1) key = .ok ([key], ml)) ∧
      (∀ instmod subs, instModule ml this (substrTo key pos) = .ok (some instmod) →
        (∃ f ml1, findHierSource f ml instmod (substrFrom key (pos + 1)) = .ok (subs, ml1)) →
        (subs = [substrFrom key (pos + 1)] →
          ∃ f ml2, ml.findSource f key = .ok ([key], ml2)) ∧
        (∀ rs, (∃ f ml2, ml.findSource f key = .ok (rs, ml2)) ↔
          ∃ res, List.Forall₂ (fun s r => ∃ f ml3,
              findOneSource f ml ml.rootModule (substrTo key pos ++ "/" ++ s) = .ok (r, ml3))
            subs res ∧ rs = if res.length = 0 then res ++ [key] else res))) := by
  have h1 : ∀ fuel, findOneSource (fuel + 1) ml ml.rootModule key = .ok (key, ml) := by
    intro fuel
    rw [findOneSource]
    simp only [hm, hs, hb, hsrc, Bool.false_eq_true, if_false, if_true]
  have hroot : (lookup ml.modules ml.rootModule).isSome = true := getModule_isSome hm
  refine ⟨h1, ?_, ?_⟩
  · intro hf fuel
    unfold ModuleList.findSource
    rw [findHierSource]
    simp only [hm, hf, findSource, hs, hb, Bool.false_eq_true, if_false, h1]
    rfl
  · intro pos hf
    refine ⟨?_, ?_⟩
    · intro hnone fuel
      unfold ModuleList.findSource
      rw [findHierSource]
      simp only [hm, hf, hnone]
      rfl
    · intro instmod subs hinst hsub
      obtain ⟨f0, ml0, hsub0⟩ := hsub
      have hsem0 := (findHierSource_sound f0 _ _ _ _ _ (inv_refl ml) hsub0).1
      have hiff : ∀ rs, (∃ f ml2, ml.findSource f key = .ok (rs, ml2)) ↔
          ∃ res, List.Forall₂ (fun s r => ∃ f ml3,
              findOneSource f ml ml.rootModule (substrTo key pos ++ "/" ++ s) = .ok (r, ml3))
            subs res ∧ rs = if res.length = 0 then res ++ [key] else res := by
        intro rs
        rw [listFindSource_iff hroot]
        constructor
        · rintro ⟨res, hsem, hrs⟩
          refine ⟨res, ?_, hrs⟩
          cases hsem with
          | flat hf2 _ => rw [hf] at hf2; cases hf2
          | noInst hf2 hm2 hi2 =>
            rw [hf] at hf2
            simp only [Option.some.injEq] at hf2
            subst hf2
            rw [hm] at hm2
            simp only [Except.ok.injEq] at hm2
            subst hm2
            rw [hinst] at hi2
            simp at hi2
          | inst hf2 hm2 hi2 hsub2 hall =>
            rw [hf] at hf2
            simp only [Option.some.injEq] at hf2
            subst hf2
            rw [hm] at hm2
            simp only [Except.ok.injEq] at hm2
            subst hm2
            rw [hinst] at hi2
            simp only [Except.ok.injEq, Option.some.injEq] at hi2
            subst hi2
            rw [hierSem_unique hsem0 _ hsub2]
            exact hall.imp (fun {s r} hres => (findOneSource_complete hres).1 ml (inv_refl ml))
        · rintro ⟨res, hall, hrs⟩
          refine ⟨res, HierSem.inst hf hm hinst hsem0 ?_, hrs⟩
          exact hall.imp (fun {s r} hx => by
            obtain ⟨f, ml3, h3⟩ := hx
            exact (findOneSource_sound f _ _ _ _ _ (inv_refl ml) h3).1)
      refine ⟨?_, hiff⟩
      intro hsubs
      subst hsubs
      refine (hiff [key]).mpr ⟨[key], ?_, by simp⟩
      refine List.Forall₂.cons ⟨1, ml, ?_⟩ List.Forall₂.nil
      rw [compose_of_find hf]
      exact h1 0

theorem terminal_stability_witness :
    findOneSource 1 selfNetList "top" "n" = .ok ("n", selfNetList) ∧
    selfNetList.findSource 2 "n" = .ok (["n"], selfNetList) ∧
    (builtList plainEnv "top" cellTop).findSource 1 "c/o" =
      .ok (["c/o"], builtList plainEnv "top" cellTop) ∧
    (builtList pinEnv "top" pinTop).findSource 10 "u/p" = .ok (["u/p"], pinAfter) ∧
    (∃ f ml2, pinAfter.findSource f "u/p" = .ok (["u/p"], ml2)) ∧
    findOneSource 1 (builtList escEnv "top" escTop) "top" "u/p" =
      .ok ("u/p", builtList escEnv "top" escTop) :=
  ⟨(terminal_stability selfNetList "n" { symbols := [("n", netSym "n" "n")], module := none }
      (netSym "n" "n") (by decide) (by decide) (by decide) (by decide)).1 0,
   (terminal_stability selfNetList "n" { symbols := [("n", netSym "n" "n")], module := none }
      (netSym "n" "n") (by decide) (by decide) (by decide) (by decide)).2.1 (by decide) 0,
   ((terminal_stability (builtList plainEnv "top" cellTop) "c/o"
      { symbols := [("c", instSym "c" ""), ("c/o", netSym "c/o" "c/o")], module := some cellTop }
      (netSym "c/o" "c/o") (by decide) (by decide) (by decide) (by decide)).2.2 1
      (by decide)).1 (by decide) 0,
   by decide,
   (((terminal_stability pinAfter "u/p"
      { symbols := [("u", instSym "u" "M"), ("u/p", netSym "u/p" "u/p")], module := some pinTop }
      (netSym "u/p" "u/p") (by decide) (by decide) (by decide) (by decide)).2.2 1
      (by decide)).2 "M" ["p"] (by decide) ⟨3, pinAfter, by decide⟩).1 (by decide),
   (terminal_stability (builtList escEnv "top" escTop) "u/p"
      { symbols := [("u", instSym "u" "M"), ("u/p", netSym "u/p" "u/p")], module := some escTop }
      (netSym "u/p" "u/p") (by decide) (by decide) (by decide) (by decide)).1 0⟩

end NameResolve
